import Mathlib

/-!
# Weighted directed graph with Prim and Dijkstra (`graph.h`)

A shallow embedding of the `Graph` class of `Final Algorithm/graph.h` and a
verification of its specification.

Modelling conventions

* `std::unordered_map<size_t, V>` is an association list `List (Nat × V)`; the
  list order stands for the (unspecified) iteration order of the container.
  Look-ups use the first entry with the key.
* A `double` value is a rational number when finite, and `INFINITY` is `⊤` of
  `WithTop ℚ`.  Edge weights are finite values.  Comparisons are exact.  The
  one arithmetic operation of the code is the sum in `dijkstra`:
  `Graph.dijkstra` computes it exactly, and `Graph.dijkstra_fl` takes the
  rounded sum of two doubles as a parameter, `Graph.dijkstra` being the
  instance with the exact sum (`Graph.dijkstra_fl_exact`).
* `std::unordered_map::at` throws `std::out_of_range` on a missing key; the
  algorithms that call it unguarded return `Except Err _`.
* The loops of `prim`, `dijkstra` and of the two printers are driven by a fuel
  argument; running out of fuel is the error `Err.out_of_fuel`.
* `std::priority_queue` does not fix which of several entries with the same
  smallest key is returned; the argument `tie` (one number per iteration)
  selects it, so that every admissible behaviour of the queue is some `tie`.
-/

/-! ## Containers -/

/-- Errors of the embedding: a failed `at()` and an exhausted loop budget. -/
inductive Err where
  | out_of_range
  | out_of_fuel
  deriving DecidableEq, Repr

namespace UMap

variable {V : Type}

/-- The value stored under key `k` (`find(k)`, `none` for `end()`). -/
def find : List (Nat × V) → Nat → Option V
  | [], _ => none
  | (k', v) :: rest, k => if k' = k then some v else find rest k

/-- Membership test `find(k) != end()`. -/
def contains (m : List (Nat × V)) (k : Nat) : Bool := (find m k).isSome

/-- The call `at(k)`: the stored value, or `std::out_of_range`. -/
def at_ (m : List (Nat × V)) (k : Nat) : Except Err V :=
  match find m k with
  | some v => .ok v
  | none => .error .out_of_range

/-- The call `insert(make_pair(k, v))`: no effect when the key is already there. -/
def insert (m : List (Nat × V)) (k : Nat) (v : V) : List (Nat × V) :=
  if contains m k then m else m ++ [(k, v)]

/-- The call `erase(k)`: afterwards no entry has key `k`. -/
def erase (m : List (Nat × V)) (k : Nat) : List (Nat × V) :=
  m.filter (fun e => decide (e.1 ≠ k))

/-- Assignment through `at(k)`: the entry under `k` is replaced by `f` of it. -/
def update (m : List (Nat × V)) (k : Nat) (f : V → V) : List (Nat × V) :=
  m.map (fun e => if e.1 = k then (e.1, f e.2) else e)

/-- The keys of a map, in iteration order. -/
def keys (m : List (Nat × V)) : List Nat := m.map Prod.fst

end UMap

/-! ## The graph and its structural operations -/

/-- Result record of Prim (`struct prim_data`). -/
structure prim_data where
  parent : Nat
  cost : WithTop ℚ
  deriving DecidableEq

/-- Result record of Dijkstra (`struct dijkstra_data`). -/
structure dijkstra_data where
  parent : Nat
  dist : WithTop ℚ
  deriving DecidableEq

/-- Entry of the priority queue (`priority_data`): key first, vertex second. -/
abbrev priority_data := WithTop ℚ × Nat

/-- The sentinel `SIZE_MAX` of a 64-bit `size_t`. -/
def SIZE_MAX : Nat := 2 ^ 64 - 1

/-- The three data members of `class Graph`. -/
structure Graph where
  edges : List (Nat × List (Nat × ℚ))
  prim_result : List (Nat × prim_data)
  dijkstra_result : List (Nat × dijkstra_data)
  deriving DecidableEq

namespace Graph

/-- The default constructor `Graph()`. -/
def empty : Graph := { edges := [], prim_result := [], dijkstra_result := [] }

/-- The copy constructor and `operator=`: all three members are copied. -/
def copy (other : Graph) : Graph :=
  { edges := other.edges, prim_result := other.prim_result,
    dijkstra_result := other.dijkstra_result }

def vertex_count (g : Graph) : Nat := g.edges.length

def edge_count (g : Graph) : Nat :=
  g.edges.foldl (fun count lst => count + lst.2.length) 0

def contains_vertex (g : Graph) (id : Nat) : Bool := UMap.contains g.edges id

/-- Both endpoints must exist; then `edges.at(src).find(dest) != end()`. -/
def contains_edge (g : Graph) (src dest : Nat) : Bool :=
  if g.contains_vertex src && g.contains_vertex dest then
    match UMap.find g.edges src with
    | some adj => UMap.contains adj dest
    | none => false
  else false

/-- The weight `edges.at(src).at(dest)` of a present edge, `INFINITY` otherwise. -/
def cost (g : Graph) (src dest : Nat) : WithTop ℚ :=
  if g.contains_edge src dest then
    match (UMap.find g.edges src).bind (fun adj => UMap.find adj dest) with
    | some w => (w : WithTop ℚ)
    | none => ⊤
  else ⊤

def add_vertex (g : Graph) (id : Nat) : Bool × Graph :=
  if g.contains_vertex id then (false, g)
  else (true, { g with edges := UMap.insert g.edges id [] })

def add_edge (g : Graph) (src dest : Nat) (weight : ℚ) : Bool × Graph :=
  if g.contains_edge src dest || !g.contains_vertex src || !g.contains_vertex dest then
    (false, g)
  else
    (true,
      { g with
        edges := UMap.update g.edges src (fun adj => UMap.insert adj dest weight) })

/-- The call `add_edge(src, dest)` with the default weight 1. -/
def add_edge_default (g : Graph) (src dest : Nat) : Bool × Graph :=
  g.add_edge src dest 1

def remove_vertex (g : Graph) (id : Nat) : Bool × Graph :=
  if !g.contains_vertex id then (false, g)
  else
    (true,
      { g with
        edges := (UMap.erase g.edges id).map (fun lst =>
          (lst.1, if UMap.contains lst.2 id then UMap.erase lst.2 id else lst.2)) })

def remove_edge (g : Graph) (src dest : Nat) : Bool × Graph :=
  if !g.contains_edge src dest then (false, g)
  else
    (true,
      { g with edges := UMap.update g.edges src (fun adj => UMap.erase adj dest) })

end Graph

/-! ## The priority queue -/

/-- The comparator `PairComparison::operator()`: `left.first > right.first`. -/
def PairComparison (left right : priority_data) : Bool := decide (left.1 > right.1)

/-- The entries `top()` may return: those that the comparator orders before no
other entry, that is, the entries with the smallest key. -/
def pq_top_candidates (pq : List priority_data) : List priority_data :=
  pq.filter (fun x => pq.all (fun y => !PairComparison x y))

/-- The pair `top()`, `pop()`: `none` when the queue is empty, otherwise one of
the candidates, chosen by `tie`, and the queue without it. -/
def pq_pop (tie : Nat) (pq : List priority_data) :
    Option (priority_data × List priority_data) :=
  match (pq_top_candidates pq)[tie % (pq_top_candidates pq).length]? with
  | none => none
  | some top => some (top, pq.erase top)

/-- The call `push(e)`. -/
def pq_push (pq : List priority_data) (e : priority_data) : List priority_data := e :: pq

/-! ## Prim -/

/-- The local state of `prim`: the result table, the queue and the visited set. -/
structure prim_state where
  prim_result : List (Nat × prim_data)
  pq : List priority_data
  visited : List Nat
  deriving DecidableEq

/-- The loop `for (auto &neighbor : edges.at(curr.second))` of `prim`. -/
def prim_neighbors (curr : Nat) : List (Nat × ℚ) → prim_state → Except Err prim_state
  | [], st => .ok st
  | (dst, cost) :: rest, st =>
    if dst ∈ st.visited then prim_neighbors curr rest st
    else
      match UMap.at_ st.prim_result dst with
      | .error e => .error e
      | .ok d =>
        if (cost : WithTop ℚ) < d.cost then
          prim_neighbors curr rest
            { st with
              prim_result := UMap.update st.prim_result dst
                (fun _ => { parent := curr, cost := (cost : WithTop ℚ) })
              pq := pq_push st.pq ((cost : WithTop ℚ), dst) }
        else prim_neighbors curr rest st

/-- The loop `while (!pq.empty())` of `prim`; one unit of fuel per iteration. -/
def prim_loop (edges : List (Nat × List (Nat × ℚ))) (tie : Nat → Nat) :
    Nat → prim_state → Except Err prim_state
  | 0, _ => .error .out_of_fuel
  | fuel + 1, st =>
    match pq_pop (tie fuel) st.pq with
    | none => .ok st
    | some (curr, pq') =>
      if curr.2 ∈ st.visited then prim_loop edges tie fuel { st with pq := pq' }
      else
        match UMap.at_ edges curr.2 with
        | .error e => .error e
        | .ok nbrs =>
          match prim_neighbors curr.2 nbrs
              { st with pq := pq', visited := curr.2 :: st.visited } with
          | .error e => .error e
          | .ok st' => prim_loop edges tie fuel st'

/-- The table after `clear()` and one `insert` of `{SIZE_MAX, INFINITY}` per vertex. -/
def prim_init (edges : List (Nat × List (Nat × ℚ))) : List (Nat × prim_data) :=
  edges.foldl (fun r v => UMap.insert r v.1 { parent := SIZE_MAX, cost := ⊤ }) []

/-- The table after the two assignments through `prim_result.at(source_id)`. -/
def prim_start (edges : List (Nat × List (Nat × ℚ))) (source_id : Nat) :
    List (Nat × prim_data) :=
  UMap.update
    (UMap.update (prim_init edges) source_id (fun d => { d with parent := source_id }))
    source_id (fun d => { d with cost := 0 })

namespace Graph

/-- The method `Graph::prim`. -/
def prim (g : Graph) (fuel : Nat) (tie : Nat → Nat) (source_id : Nat) : Except Err Graph :=
  if !g.contains_vertex source_id then .ok g
  else
    match UMap.at_ (prim_init g.edges) source_id with
    | .error e => .error e
    | .ok _ =>
      match prim_loop g.edges tie fuel
          { prim_result := prim_start g.edges source_id,
            pq := pq_push [] (0, source_id), visited := [] } with
      | .error e => .error e
      | .ok st => .ok { g with prim_result := st.prim_result }

/-- The method `Graph::is_path`. -/
def is_path (g : Graph) (id : Nat) : Bool :=
  UMap.contains g.prim_result id &&
    (match UMap.find g.prim_result id with
     | some d => d.parent != SIZE_MAX
     | none => false)

end Graph

/-- The parent walk of `print_path`; the stack is a list with its top first. -/
def prim_walk (prim_result : List (Nat × prim_data)) :
    Nat → Nat → List Nat → Except Err (List Nat)
  | 0, _, _ => .error .out_of_fuel
  | fuel + 1, current_v, stack =>
    match UMap.at_ prim_result current_v with
    | .error e => .error e
    | .ok d =>
      if d.parent != current_v then prim_walk prim_result fuel d.parent (d.parent :: stack)
      else .ok stack

/-- The text written while the stack is emptied: the top, then every further
element preceded by the arrow. -/
def render_stack : List Nat → String
  | [] => ""
  | top :: rest => rest.foldl (fun s v => s ++ " --> " ++ toString v) (toString top)

namespace Graph

/-- The method `Graph::print_path`; the result is the text written to `os`. -/
def print_path (g : Graph) (fuel : Nat) (dest_id : Nat) : Except Err String :=
  if !g.is_path dest_id then .ok "<no path>\n"
  else
    match prim_walk g.prim_result fuel dest_id [dest_id] with
    | .error e => .error e
    | .ok stack => .ok (render_stack stack ++ "\n")

end Graph

/-! ## Dijkstra -/

/-- The local state of `dijkstra`. -/
structure dijkstra_state where
  dijkstra_result : List (Nat × dijkstra_data)
  pq : List priority_data
  visited : List Nat
  deriving DecidableEq

/-- The loop `for (auto &neighbor : edges.at(curr.second))` of `dijkstra`. -/
def dijkstra_neighbors (curr : Nat) :
    List (Nat × ℚ) → dijkstra_state → Except Err dijkstra_state
  | [], st => .ok st
  | (dst, distance) :: rest, st =>
    if dst ∈ st.visited then dijkstra_neighbors curr rest st
    else
      match UMap.at_ st.dijkstra_result curr with
      | .error e => .error e
      | .ok c =>
        match UMap.at_ st.dijkstra_result dst with
        | .error e => .error e
        | .ok d =>
          if c.dist + (distance : WithTop ℚ) < d.dist then
            dijkstra_neighbors curr rest
              { st with
                dijkstra_result := UMap.update st.dijkstra_result dst
                  (fun _ => { parent := curr, dist := c.dist + (distance : WithTop ℚ) })
                pq := pq_push st.pq (c.dist + (distance : WithTop ℚ), dst) }
          else dijkstra_neighbors curr rest st

/-- The loop `while (!pq.empty())` of `dijkstra`; one unit of fuel per iteration. -/
def dijkstra_loop (edges : List (Nat × List (Nat × ℚ))) (tie : Nat → Nat) :
    Nat → dijkstra_state → Except Err dijkstra_state
  | 0, _ => .error .out_of_fuel
  | fuel + 1, st =>
    match pq_pop (tie fuel) st.pq with
    | none => .ok st
    | some (curr, pq') =>
      if curr.2 ∈ st.visited then dijkstra_loop edges tie fuel { st with pq := pq' }
      else
        match UMap.at_ edges curr.2 with
        | .error e => .error e
        | .ok nbrs =>
          match dijkstra_neighbors curr.2 nbrs
              { st with pq := pq', visited := curr.2 :: st.visited } with
          | .error e => .error e
          | .ok st' => dijkstra_loop edges tie fuel st'

/-- The table after `clear()` and one `insert` of `{SIZE_MAX, INFINITY}` per vertex. -/
def dijkstra_init (edges : List (Nat × List (Nat × ℚ))) : List (Nat × dijkstra_data) :=
  edges.foldl (fun r v => UMap.insert r v.1 { parent := SIZE_MAX, dist := ⊤ }) []

/-- The table after the two assignments through `dijkstra_result.at(source_id)`. -/
def dijkstra_start (edges : List (Nat × List (Nat × ℚ))) (source_id : Nat) :
    List (Nat × dijkstra_data) :=
  UMap.update
    (UMap.update (dijkstra_init edges) source_id (fun d => { d with parent := source_id }))
    source_id (fun d => { d with dist := 0 })

namespace Graph

/-- The method `Graph::dijkstra`. -/
def dijkstra (g : Graph) (fuel : Nat) (tie : Nat → Nat) (source_id : Nat) :
    Except Err Graph :=
  if !g.contains_vertex source_id then .ok g
  else
    match UMap.at_ (dijkstra_init g.edges) source_id with
    | .error e => .error e
    | .ok _ =>
      match dijkstra_loop g.edges tie fuel
          { dijkstra_result := dijkstra_start g.edges source_id,
            pq := pq_push [] (0, source_id), visited := [] } with
      | .error e => .error e
      | .ok st => .ok { g with dijkstra_result := st.dijkstra_result }

/-- The method `Graph::distance`. -/
def distance (g : Graph) (id : Nat) : WithTop ℚ :=
  match UMap.find g.dijkstra_result id with
  | none => ⊤
  | some d => d.dist

end Graph

/-- The parent walk of `print_shortest_path`; the stack is a list with its top first. -/
def dijkstra_walk (dijkstra_result : List (Nat × dijkstra_data)) :
    Nat → Nat → List Nat → Except Err (List Nat)
  | 0, _, _ => .error .out_of_fuel
  | fuel + 1, current_v, stack =>
    match UMap.at_ dijkstra_result current_v with
    | .error e => .error e
    | .ok d =>
      if d.parent != current_v then
        dijkstra_walk dijkstra_result fuel d.parent (d.parent :: stack)
      else .ok stack

namespace Graph

/-- The method `Graph::print_shortest_path`; the result is the text written to
`os`.  The decimal rendering of a `double` by `operator<<` is the argument
`show_double`. -/
def print_shortest_path (g : Graph) (show_double : WithTop ℚ → String) (fuel : Nat)
    (dest_id : Nat) : Except Err String :=
  if g.distance dest_id = ⊤ then .ok "<no path>\n"
  else
    match dijkstra_walk g.dijkstra_result fuel dest_id [dest_id] with
    | .error e => .error e
    | .ok stack =>
      .ok (render_stack stack ++ " distance: " ++ show_double (g.distance dest_id) ++ "\n")

end Graph

/-! ## Specification vocabulary -/

deriving instance DecidableEq for Except

namespace Graph

/-- The representation invariant of the adjacency storage: keys are unique in
the outer and in every inner map, and every stored neighbour is a vertex. -/
def WF (g : Graph) : Prop :=
  (UMap.keys g.edges).Nodup ∧
  (∀ e ∈ g.edges, (UMap.keys e.2).Nodup) ∧
  (∀ e ∈ g.edges, ∀ n ∈ e.2, UMap.contains g.edges n.1 = true)

instance (g : Graph) : Decidable g.WF :=
  inferInstanceAs (Decidable (_ ∧ _ ∧ _))

/-- The states a program can bring a `Graph` object into. -/
inductive Reachable : Graph → Prop
  | empty : Reachable Graph.empty
  | copy (g : Graph) : Reachable g → Reachable g.copy
  | add_vertex (g : Graph) (id : Nat) : Reachable g → Reachable (g.add_vertex id).2
  | add_edge (g : Graph) (src dest : Nat) (weight : ℚ) :
      Reachable g → Reachable (g.add_edge src dest weight).2
  | remove_vertex (g : Graph) (id : Nat) : Reachable g → Reachable (g.remove_vertex id).2
  | remove_edge (g : Graph) (src dest : Nat) :
      Reachable g → Reachable (g.remove_edge src dest).2
  | prim (g g' : Graph) (fuel : Nat) (tie : Nat → Nat) (source_id : Nat) :
      Reachable g → g.prim fuel tie source_id = .ok g' → Reachable g'
  | dijkstra (g g' : Graph) (fuel : Nat) (tie : Nat → Nat) (source_id : Nat) :
      Reachable g → g.dijkstra fuel tie source_id = .ok g' → Reachable g'

end Graph

/-! ## Directed paths -/

namespace Graph

/-- A non-empty sequence of present vertices in which each vertex is joined to
the next by an edge of the graph. -/
def is_walk (g : Graph) : List Nat → Prop
  | [] => False
  | [v] => g.contains_vertex v = true
  | a :: b :: rest => g.contains_edge a b = true ∧ is_walk g (b :: rest)

/-- The total weight of the edges along a vertex sequence. -/
def walk_cost (g : Graph) : List Nat → WithTop ℚ
  | [] => 0
  | [_] => 0
  | a :: b :: rest => g.cost a b + walk_cost g (b :: rest)

/-- The sequence `p` is a directed path of the graph from `s` to `v`. -/
def directed_path (g : Graph) (s v : Nat) (p : List Nat) : Prop :=
  p.head? = some s ∧ p.getLast? = some v ∧ g.is_walk p

/-- All edge weights are non-negative. -/
def nonneg_weights (g : Graph) : Prop := ∀ a b, 0 ≤ g.cost a b

end Graph

/-! ## A common form of the two traversals

`prim` and `dijkstra` differ only in the value offered to a neighbour: the edge
weight, or the distance of the current vertex plus the edge weight.  The
definitions of this section restate both loops over one table type with a flag
`cum` for the second form.  They are used in proofs only; the simulation
theorems relate them to `prim_loop` and `dijkstra_loop`. -/

/-- The local state of either traversal; a table entry is parent and metric. -/
structure gstate where
  tbl : List (Nat × (Nat × WithTop ℚ))
  pq : List priority_data
  visited : List Nat

/-- The metric recorded for `v`, `⊤` without an entry. -/
def gmet (tbl : List (Nat × (Nat × WithTop ℚ))) (v : Nat) : WithTop ℚ :=
  match UMap.find tbl v with
  | some e => e.2
  | none => ⊤

/-- The parent recorded for `v`, `SIZE_MAX` without an entry. -/
def gpar (tbl : List (Nat × (Nat × WithTop ℚ))) (v : Nat) : Nat :=
  match UMap.find tbl v with
  | some e => e.1
  | none => SIZE_MAX

/-- The value offered to a neighbour of `u` along an edge of weight `w`. -/
def gcand (cum : Bool) (tbl : List (Nat × (Nat × WithTop ℚ))) (u : Nat) (w : ℚ) :
    WithTop ℚ :=
  if cum then gmet tbl u + (w : WithTop ℚ) else (w : WithTop ℚ)

/-- The offered value as the code computes it, with the look-up of `curr`. -/
def gen_cand (cum : Bool) (tbl : List (Nat × (Nat × WithTop ℚ))) (curr : Nat) (w : ℚ) :
    Except Err (WithTop ℚ) :=
  if cum then
    match UMap.at_ tbl curr with
    | .error e => .error e
    | .ok c => .ok (c.2 + (w : WithTop ℚ))
  else .ok (w : WithTop ℚ)

/-- One pass of the neighbour loop. -/
def gen_relax (cum : Bool) (curr : Nat) (e : Nat × ℚ) (st : gstate) : Except Err gstate :=
  if e.1 ∈ st.visited then .ok st
  else
    match gen_cand cum st.tbl curr e.2 with
    | .error x => .error x
    | .ok nd =>
      match UMap.at_ st.tbl e.1 with
      | .error x => .error x
      | .ok d =>
        if nd < d.2 then
          .ok { tbl := UMap.update st.tbl e.1 (fun _ => (curr, nd))
                pq := pq_push st.pq (nd, e.1)
                visited := st.visited }
        else .ok st

/-- The neighbour loop. -/
def gen_neighbors (cum : Bool) (curr : Nat) : List (Nat × ℚ) → gstate → Except Err gstate
  | [], st => .ok st
  | e :: rest, st =>
    match gen_relax cum curr e st with
    | .error x => .error x
    | .ok st' => gen_neighbors cum curr rest st'

/-- The queue loop. -/
def gen_loop (cum : Bool) (edges : List (Nat × List (Nat × ℚ))) (tie : Nat → Nat) :
    Nat → gstate → Except Err gstate
  | 0, _ => .error .out_of_fuel
  | fuel + 1, st =>
    match pq_pop (tie fuel) st.pq with
    | none => .ok st
    | some (curr, pq') =>
      if curr.2 ∈ st.visited then
        gen_loop cum edges tie fuel { tbl := st.tbl, pq := pq', visited := st.visited }
      else
        match UMap.at_ edges curr.2 with
        | .error e => .error e
        | .ok nbrs =>
          match gen_neighbors cum curr.2 nbrs
              { tbl := st.tbl, pq := pq', visited := curr.2 :: st.visited } with
          | .error e => .error e
          | .ok st' => gen_loop cum edges tie fuel st'

/-- The parent walk of the two printers. -/
def gen_walk (tbl : List (Nat × (Nat × WithTop ℚ))) :
    Nat → Nat → List Nat → Except Err (List Nat)
  | 0, _, _ => .error .out_of_fuel
  | fuel + 1, current_v, stack =>
    match UMap.at_ tbl current_v with
    | .error e => .error e
    | .ok d =>
      if d.1 != current_v then gen_walk tbl fuel d.1 (d.1 :: stack)
      else .ok stack

/-- The Prim table in the common form. -/
def prim_tbl (r : List (Nat × prim_data)) : List (Nat × (Nat × WithTop ℚ)) :=
  r.map (fun e => (e.1, (e.2.parent, e.2.cost)))

/-- The Dijkstra table in the common form. -/
def dijkstra_tbl (r : List (Nat × dijkstra_data)) : List (Nat × (Nat × WithTop ℚ)) :=
  r.map (fun e => (e.1, (e.2.parent, e.2.dist)))

/-- The Prim state in the common form. -/
def prim_state.toG (st : prim_state) : gstate :=
  { tbl := prim_tbl st.prim_result, pq := st.pq, visited := st.visited }

/-- The Dijkstra state in the common form. -/
def dijkstra_state.toG (st : dijkstra_state) : gstate :=
  { tbl := dijkstra_tbl st.dijkstra_result, pq := st.pq, visited := st.visited }

/-- The pair `(v, w)` is the edge `u → v` stored in the adjacency storage. -/
def IsEdge (E : List (Nat × List (Nat × ℚ))) (u v : Nat) (w : ℚ) : Prop :=
  ∃ adj, UMap.find E u = some adj ∧ UMap.find adj v = some w

/-- Representation invariant of the adjacency storage alone (see `Graph.WF`). -/
def EdgesWF (E : List (Nat × List (Nat × ℚ))) : Prop :=
  (UMap.keys E).Nodup ∧
  (∀ e ∈ E, (UMap.keys e.2).Nodup) ∧
  (∀ e ∈ E, ∀ n ∈ e.2, UMap.contains E n.1 = true)

/-- The number of stored edges that leave a vertex not yet visited. -/
def gweight (E : List (Nat × List (Nat × ℚ))) (visited : List Nat) : Nat :=
  ((E.filter (fun e => decide (e.1 ∉ visited))).map (fun e => e.2.length)).sum

/-- The invariant of the traversal with source `s`.  Inside the neighbour loop
of `curr` the list `todo` holds the neighbours still to be handled; between
two iterations of the queue loop `todo` is empty. -/
structure GInv (E : List (Nat × List (Nat × ℚ))) (s : Nat) (cum : Bool) (curr : Nat)
    (todo : List (Nat × ℚ)) (st : gstate) : Prop where
  keys : ∀ k, UMap.contains st.tbl k = UMap.contains E k
  vis_sub : ∀ v ∈ st.visited, UMap.contains E v = true
  vis_nodup : st.visited.Nodup
  pq_sub : ∀ e ∈ st.pq, UMap.contains E e.2 = true ∧ e.1 ≠ ⊤ ∧ gmet st.tbl e.2 ≤ e.1
  src : UMap.find st.tbl s = some (s, 0)
  src_vis : s ∈ st.visited ∨ (st.visited = [] ∧ st.pq = [(0, s)])
  par_ok : ∀ v, v ≠ s → gmet st.tbl v ≠ ⊤ →
    gpar st.tbl v ∈ st.visited ∧
      ∃ w, IsEdge E (gpar st.tbl v) v w ∧ gmet st.tbl v = gcand cum st.tbl (gpar st.tbl v) w
  unreached : ∀ v, gmet st.tbl v = ⊤ →
    v ∉ st.visited ∧ (UMap.contains E v = true → UMap.find st.tbl v = some (SIZE_MAX, ⊤))
  pq_complete : ∀ v, v ∉ st.visited → gmet st.tbl v ≠ ⊤ → (gmet st.tbl v, v) ∈ st.pq
  closed : ∀ v ∈ st.visited, ∀ u w, IsEdge E v u w →
    (v = curr ∧ (u, w) ∈ todo) ∨ u ∈ st.visited ∨ gmet st.tbl u ≤ gcand cum st.tbl v w
  todo_edges : ∀ e ∈ todo, IsEdge E curr e.1 e.2
  curr_vis : todo ≠ [] → curr ∈ st.visited
  par_before : ∀ l₁ v l₂, st.visited = l₁ ++ v :: l₂ → v ≠ s → gpar st.tbl v ∈ l₂
  cut_min : cum = false → ∀ l₁ v l₂, st.visited = l₁ ++ v :: l₂ → v ≠ s →
    ∀ x ∈ l₂, ∀ u w, IsEdge E x u w → u ∉ l₂ → gmet st.tbl v ≤ (w : WithTop ℚ)

/-- The additional invariant of Dijkstra on non-negative weights. -/
structure DInv (E : List (Nat × List (Nat × ℚ))) (curr : Nat)
    (todo : List (Nat × ℚ)) (st : gstate) : Prop where
  mono : ∀ v ∈ st.visited, ∀ e ∈ st.pq, gmet st.tbl v ≤ e.1
  relaxed : ∀ v ∈ st.visited, ∀ u w, IsEdge E v u w →
    (v = curr ∧ (u, w) ∈ todo) ∨ gmet st.tbl u ≤ gmet st.tbl v + (w : WithTop ℚ)
  curr_max : todo ≠ [] → ∀ u ∈ st.visited, gmet st.tbl u ≤ gmet st.tbl curr

/-- All stored edge weights are non-negative. -/
def NonnegE (E : List (Nat × List (Nat × ℚ))) : Prop := ∀ u v w, IsEdge E u v w → 0 ≤ w

/-- The invariant of the queue loop: `GInv`, and `DInv` for Dijkstra on
non-negative weights. -/
def FInv (E : List (Nat × List (Nat × ℚ))) (s : Nat) (cum : Bool) (curr : Nat)
    (todo : List (Nat × ℚ)) (st : gstate) : Prop :=
  GInv E s cum curr todo st ∧ (cum = true → NonnegE E → DInv E curr todo st)

/-- The content of the table handed to the queue loop. -/
def start_table (E : List (Nat × List (Nat × ℚ))) (s : Nat)
    (tbl : List (Nat × (Nat × WithTop ℚ))) : Prop :=
  ∀ k, UMap.find tbl k =
    if UMap.contains E k then some (if s = k then (s, 0) else (SIZE_MAX, ⊤)) else none

/-! ## The graph of the test program -/

/-- A sequence of mutator calls, the returned flags being dropped. -/
def run_ops (g : Graph) (ops : List (Graph → Bool × Graph)) : Graph :=
  ops.foldl (fun g op => (op g).2) g

/-- The graph `G` of `graph_tests.cpp`: the vertices 1 to 7 and twelve edges,
added in the order of the test program. -/
def example_graph : Graph :=
  run_ops Graph.empty
    ([1, 2, 3, 4, 5, 6, 7].map (fun n g => g.add_vertex n) ++
      [fun g => g.add_edge 1 2 5, fun g => g.add_edge 1 3 3, fun g => g.add_edge 2 3 2,
       fun g => g.add_edge 2 5 3, fun g => g.add_edge 2 7 1, fun g => g.add_edge 3 4 7,
       fun g => g.add_edge 3 5 7, fun g => g.add_edge 4 1 2, fun g => g.add_edge 4 6 6,
       fun g => g.add_edge 5 4 2, fun g => g.add_edge 5 6 1, fun g => g.add_edge 7 5 1])

namespace Graph

/-- Two graph values describe the same graph: the same vertices, the same
edges and the same weights, whatever the order of their storage. -/
def same_graph (g h : Graph) : Prop :=
  (∀ a, h.contains_vertex a = g.contains_vertex a) ∧
  (∀ a b, h.contains_edge a b = g.contains_edge a b) ∧
  (∀ a b, h.cost a b = g.cost a b)

end Graph

/-- The distances from vertex 2 in the graph of the test program, as the
specification lists them. -/
def example_dist : Nat → WithTop ℚ
  | 1 => 6
  | 2 => 0
  | 3 => 2
  | 4 => 4
  | 5 => 2
  | 6 => 3
  | 7 => 1
  | _ => ⊤

/-- The predecessor of each vertex on its shortest path from vertex 2 in the
graph of the test program (`2 → 7 → 5 → 4 → 1`, `5 → 6`, `2 → 3`). -/
def example_parent : Nat → Nat
  | 1 => 4
  | 3 => 2
  | 4 => 5
  | 5 => 7
  | 6 => 5
  | 7 => 2
  | _ => 2

/-! ## Prim as a sequence of cheapest crossing edges -/

namespace Graph

/-- The parent recorded for `v` by the last run of `prim`. -/
def prim_parent (g : Graph) (v : Nat) : Nat :=
  match UMap.find g.prim_result v with
  | some d => d.parent
  | none => SIZE_MAX

/-- The metric recorded for `v` by the last run of `prim`. -/
def prim_cost (g : Graph) (v : Nat) : WithTop ℚ :=
  match UMap.find g.prim_result v with
  | some d => d.cost
  | none => ⊤

end Graph

/-- The list (newest first) is an order in which Prim may visit vertices from
`s` with parents `par` and metrics `met`: each vertex after the source is
joined to an earlier vertex, its parent, by an edge whose weight is its metric,
and no edge leaving the set of earlier vertices is cheaper. -/
def PrimOrder (g : Graph) (s : Nat) (par : Nat → Nat) (met : Nat → WithTop ℚ) :
    List Nat → Prop
  | [] => False
  | [v] => v = s
  | v :: u :: rest =>
    (v ∉ u :: rest ∧ par v ∈ u :: rest ∧ g.contains_edge (par v) v = true ∧
      g.cost (par v) v = met v ∧
      (∀ x ∈ u :: rest, ∀ y, y ∉ u :: rest → g.contains_edge x y = true →
        met v ≤ g.cost x y)) ∧
    PrimOrder g s par met (u :: rest)

/-- The stored edges `(x, y, w)` that leave the vertex list `l`. -/
def crossing_edges (E : List (Nat × List (Nat × ℚ))) (l : List Nat) : List (Nat × Nat × ℚ) :=
  E.flatMap (fun e =>
    if e.1 ∈ l then
      (e.2.filter (fun n => decide (n.1 ∉ l))).map (fun n => (e.1, n.1, n.2))
    else [])

/-- The cheapest edges that leave the vertex list `l`. -/
def min_crossing_edges (E : List (Nat × List (Nat × ℚ))) (l : List Nat) :
    List (Nat × Nat × ℚ) :=
  (crossing_edges E l).filter (fun e =>
    (crossing_edges E l).all (fun e' => decide (e.2.2 ≤ e'.2.2)))

/-- All sequences of `n` cheapest crossing edges from `s`: each state lists the
visited vertices, newest first, with parent and metric. -/
def prim_orders (E : List (Nat × List (Nat × ℚ))) (s : Nat) :
    Nat → List (List (Nat × Nat × WithTop ℚ))
  | 0 => [[(s, s, 0)]]
  | n + 1 =>
    (prim_orders E s n).flatMap (fun st =>
      (min_crossing_edges E (st.map (fun t => t.1))).map (fun e =>
        (e.2.1, e.1, (e.2.2 : WithTop ℚ)) :: st))

/-- The weight of the tree edge into each vertex of the graph of the test
program in Prim's tree from vertex 2. -/
def example_prim_cost : Nat → WithTop ℚ
  | 1 => 2
  | 2 => 0
  | 3 => 2
  | 4 => 2
  | 5 => 1
  | 6 => 1
  | 7 => 1
  | _ => ⊤

/-- Whether a vertex sequence is a walk can be computed. -/
def Graph.decidable_is_walk (g : Graph) : ∀ p, Decidable (g.is_walk p)
  | [] => inferInstanceAs (Decidable False)
  | [v] => inferInstanceAs (Decidable (g.contains_vertex v = true))
  | a :: b :: rest =>
    have := Graph.decidable_is_walk g (b :: rest)
    inferInstanceAs (Decidable (g.contains_edge a b = true ∧ g.is_walk (b :: rest)))

instance (g : Graph) (p : List Nat) : Decidable (g.is_walk p) := g.decidable_is_walk p

instance (g : Graph) (s v : Nat) (p : List Nat) : Decidable (g.directed_path s v p) :=
  inferInstanceAs (Decidable (_ ∧ _ ∧ _))

/-- The path from vertex 2 to each vertex in the tree of the test program. -/
def example_path : Nat → List Nat
  | 1 => [2, 7, 5, 4, 1]
  | 3 => [2, 3]
  | 4 => [2, 7, 5, 4]
  | 5 => [2, 7, 5]
  | 6 => [2, 7, 5, 6]
  | 7 => [2, 7]
  | _ => [2]

/-- The stored edges as ordered pairs. -/
def edge_list (E : List (Nat × List (Nat × ℚ))) : List (Nat × Nat) :=
  E.flatMap (fun e => e.2.map (fun n => (e.1, n.1)))

/-! ## Spanning trees -/

namespace Graph

/-- The graph encodes an undirected graph: with an edge `a → b` the edge
`b → a` is present and has the same weight. -/
def undirected (g : Graph) : Prop :=
  ∀ a b, g.contains_edge a b = true →
    g.contains_edge b a = true ∧ g.cost b a = g.cost a b

/-- The vertex `v` lies in the component of `s`: a directed path joins `s` to it. -/
def reachable (g : Graph) (s v : Nat) : Prop := ∃ p, g.directed_path s v p

/-- The map `q` is the parent map of a spanning tree of the component of `s`,
rooted at `s`: every vertex of the component other than `s` is joined to its
parent by an edge of the graph, and following the parents from any vertex of
the component leads to `s`.  The tree edges are the pairs `(q v, v)` for the
vertices `v` of the component other than `s`.  Every spanning tree of the
component has exactly one such parent map, obtained by rooting it at `s`. -/
structure spanning_tree (g : Graph) (s : Nat) (q : Nat → Nat) : Prop where
  edge : ∀ v, g.reachable s v → v ≠ s → g.contains_edge (q v) v = true
  root : ∀ v, g.reachable s v → ∃ n, q^[n] v = s

end Graph

/-- Two vertices are joined by an edge of the list `T`, in either direction. -/
def tree_adj (T : List (Nat × Nat)) (a b : Nat) : Prop := (a, b) ∈ T ∨ (b, a) ∈ T

/-- The vertex `v` is joined to `s` by `n` edges of the list `T`. -/
def tree_reach (T : List (Nat × Nat)) (s : Nat) : Nat → Nat → Prop
  | 0, v => v = s
  | n + 1, v => ∃ u, tree_reach T s n u ∧ tree_adj T u v

/-- The list `T` is the edge set of a spanning tree of the component of `s` in
an undirected graph: it lists edges of the graph between vertices of the
component, none twice, it joins `s` to every vertex of the component, and it has
one edge less than the component has vertices. -/
structure Graph.edge_tree (g : Graph) (s : Nat) (T : List (Nat × Nat)) : Prop where
  nodup : T.Nodup
  edges : ∀ e ∈ T, g.contains_edge e.1 e.2 = true ∧ g.reachable s e.1
  connects : ∀ v, g.reachable s v → ∃ n, tree_reach T s n v
  card : ∃ vs : List Nat, vs.Nodup ∧ (∀ v, v ∈ vs ↔ (g.reachable s v ∧ v ≠ s)) ∧
    T.length = vs.length

/-- The number of entries after the first occurrence of `v` in the list: with
the visited list (newest first) the position of `v` in the order of visits. -/
def rank_in : List Nat → Nat → Nat
  | [], _ => 0
  | a :: rest, v => if a = v then rest.length else rank_in rest v

/-- A triangle with the undirected edges 1-2 of weight 1, 2-3 of weight 2 and
1-3 of weight 3, each stored in both directions. -/
def example_triangle : Graph :=
  run_ops Graph.empty
    ([1, 2, 3].map (fun n g => g.add_vertex n) ++
      [fun g => g.add_edge 1 2 1, fun g => g.add_edge 2 1 1, fun g => g.add_edge 2 3 2,
       fun g => g.add_edge 3 2 2, fun g => g.add_edge 1 3 3, fun g => g.add_edge 3 1 3])

/-! ## Further example states -/

/-- A state that holds results of earlier runs: one vertex with its entry in
both result tables. -/
def example_with_results : Graph :=
  { edges := [(1, [])],
    prim_result := [(1, { parent := 1, cost := 0 })],
    dijkstra_result := [(1, { parent := 1, dist := 0 })] }

namespace Graph

/-- The in-degree of `id`: the number of stored edges with destination `id`. -/
def in_degree (g : Graph) (id : Nat) : Nat :=
  (edge_list g.edges).countP (fun e => decide (e.2 = id))

/-- The out-degree of `id`: the number of stored edges with source `id`. -/
def out_degree (g : Graph) (id : Nat) : Nat :=
  (edge_list g.edges).countP (fun e => decide (e.1 = id))

end Graph

/-- A single vertex 1 with the self-loop `1 → 1` of weight 1. -/
def example_loop : Graph := ((Graph.empty.add_vertex 1).2.add_edge 1 1 1).2

namespace Graph

/-- The states of a `Graph` object on which `prim` has never run with a present
source: the states reached from the empty graph by the mutators, copies, runs
of `dijkstra`, and calls of `prim` on an absent id. -/
inductive prim_never_run : Graph → Prop
  | empty : prim_never_run Graph.empty
  | copy (g : Graph) : prim_never_run g → prim_never_run g.copy
  | add_vertex (g : Graph) (id : Nat) : prim_never_run g → prim_never_run (g.add_vertex id).2
  | add_edge (g : Graph) (src dest : Nat) (weight : ℚ) :
      prim_never_run g → prim_never_run (g.add_edge src dest weight).2
  | remove_vertex (g : Graph) (id : Nat) :
      prim_never_run g → prim_never_run (g.remove_vertex id).2
  | remove_edge (g : Graph) (src dest : Nat) :
      prim_never_run g → prim_never_run (g.remove_edge src dest).2
  | prim_absent (g g' : Graph) (fuel : Nat) (tie : Nat → Nat) (source_id : Nat) :
      prim_never_run g → g.contains_vertex source_id = false →
      g.prim fuel tie source_id = .ok g' → prim_never_run g'
  | dijkstra (g g' : Graph) (fuel : Nat) (tie : Nat → Nat) (source_id : Nat) :
      prim_never_run g → g.dijkstra fuel tie source_id = .ok g' → prim_never_run g'

/-- The states of a `Graph` object on which `dijkstra` has never run with a
present source. -/
inductive dijkstra_never_run : Graph → Prop
  | empty : dijkstra_never_run Graph.empty
  | copy (g : Graph) : dijkstra_never_run g → dijkstra_never_run g.copy
  | add_vertex (g : Graph) (id : Nat) :
      dijkstra_never_run g → dijkstra_never_run (g.add_vertex id).2
  | add_edge (g : Graph) (src dest : Nat) (weight : ℚ) :
      dijkstra_never_run g → dijkstra_never_run (g.add_edge src dest weight).2
  | remove_vertex (g : Graph) (id : Nat) :
      dijkstra_never_run g → dijkstra_never_run (g.remove_vertex id).2
  | remove_edge (g : Graph) (src dest : Nat) :
      dijkstra_never_run g → dijkstra_never_run (g.remove_edge src dest).2
  | dijkstra_absent (g g' : Graph) (fuel : Nat) (tie : Nat → Nat) (source_id : Nat) :
      dijkstra_never_run g → g.contains_vertex source_id = false →
      g.dijkstra fuel tie source_id = .ok g' → dijkstra_never_run g'
  | prim (g g' : Graph) (fuel : Nat) (tie : Nat → Nat) (source_id : Nat) :
      dijkstra_never_run g → g.prim fuel tie source_id = .ok g' → dijkstra_never_run g'

end Graph

/-- A state that holds results of an earlier run for the ids 1 and 9, of which
only 1 is still a vertex. -/
def example_stale : Graph :=
  { edges := [(1, [])],
    prim_result := [(1, { parent := 1, cost := 0 }), (9, { parent := 1, cost := 2 })],
    dijkstra_result := [(1, { parent := 1, dist := 0 }), (9, { parent := 1, dist := 2 })] }

/-- The vertex with the largest id of a 64-bit `size_t`, and the vertex 1 with
the edge from the former to it. -/
def example_max_id : Graph :=
  (((Graph.empty.add_vertex SIZE_MAX).2.add_vertex 1).2.add_edge SIZE_MAX 1 1).2

/-- Two vertices joined in both directions by edges of negative weight. -/
def example_negative : Graph :=
  ((((Graph.empty.add_vertex 1).2.add_vertex 2).2.add_edge 1 2 (-3)).2.add_edge 2 1 (-4)).2

/-- The table (in the common form) is empty, or it is the table left by a
completed run of the traversal, Prim for `cum = false` and Dijkstra for
`cum = true`, on some well-formed graph: the tables a `Graph` object can hold. -/
def run_table (cum : Bool) (tbl : List (Nat × (Nat × WithTop ℚ))) : Prop :=
  tbl = [] ∨
    ∃ (g₀ : Graph) (s c : Nat) (st : gstate),
      g₀.WF ∧ GInv g₀.edges s cum c [] st ∧ st.pq = [] ∧ st.tbl = tbl

/-- The vertices 1 and 9 with the edge `1 → 9` of weight 2: the graph on which
the tables of `example_stale` were computed, before vertex 9 was removed. -/
def example_two : Graph :=
  (((Graph.empty.add_vertex 1).2.add_vertex 9).2.add_edge 1 9 2).2

/-! ## Dijkstra with rounded sums

The code adds two `double` values at `graph.h:302`: the exact sum is rounded to
a representable value, and is `INFINITY` when it overflows.  The definitions of
this section take that addition as the argument `fadd`, about which nothing is
assumed; on the non-negative weights of the specification every value of a run
is a finite non-negative double or `INFINITY`.  The definitions of the section
"Dijkstra" are the instance with the exact sum. -/

/-- The loop `for (auto &neighbor : edges.at(curr.second))` of `dijkstra`, the
sum `dijkstra_result.at(curr.second).dist + distance` being `fadd` of the two. -/
def dijkstra_neighbors_fl (fadd : WithTop ℚ → WithTop ℚ → WithTop ℚ) (curr : Nat) :
    List (Nat × ℚ) → dijkstra_state → Except Err dijkstra_state
  | [], st => .ok st
  | (dst, distance) :: rest, st =>
    if dst ∈ st.visited then dijkstra_neighbors_fl fadd curr rest st
    else
      match UMap.at_ st.dijkstra_result curr with
      | .error e => .error e
      | .ok c =>
        match UMap.at_ st.dijkstra_result dst with
        | .error e => .error e
        | .ok d =>
          if fadd c.dist (distance : WithTop ℚ) < d.dist then
            dijkstra_neighbors_fl fadd curr rest
              { st with
                dijkstra_result := UMap.update st.dijkstra_result dst
                  (fun _ => { parent := curr, dist := fadd c.dist (distance : WithTop ℚ) })
                pq := pq_push st.pq (fadd c.dist (distance : WithTop ℚ), dst) }
          else dijkstra_neighbors_fl fadd curr rest st

/-- The loop `while (!pq.empty())` of `dijkstra` with the addition `fadd`; one
unit of fuel per iteration. -/
def dijkstra_loop_fl (fadd : WithTop ℚ → WithTop ℚ → WithTop ℚ)
    (edges : List (Nat × List (Nat × ℚ))) (tie : Nat → Nat) :
    Nat → dijkstra_state → Except Err dijkstra_state
  | 0, _ => .error .out_of_fuel
  | fuel + 1, st =>
    match pq_pop (tie fuel) st.pq with
    | none => .ok st
    | some (curr, pq') =>
      if curr.2 ∈ st.visited then dijkstra_loop_fl fadd edges tie fuel { st with pq := pq' }
      else
        match UMap.at_ edges curr.2 with
        | .error e => .error e
        | .ok nbrs =>
          match dijkstra_neighbors_fl fadd curr.2 nbrs
              { st with pq := pq', visited := curr.2 :: st.visited } with
          | .error e => .error e
          | .ok st' => dijkstra_loop_fl fadd edges tie fuel st'

namespace Graph

/-- The method `Graph::dijkstra` with the addition `fadd` of two doubles. -/
def dijkstra_fl (g : Graph) (fadd : WithTop ℚ → WithTop ℚ → WithTop ℚ) (fuel : Nat)
    (tie : Nat → Nat) (source_id : Nat) : Except Err Graph :=
  if !g.contains_vertex source_id then .ok g
  else
    match UMap.at_ (dijkstra_init g.edges) source_id with
    | .error e => .error e
    | .ok _ =>
      match dijkstra_loop_fl fadd g.edges tie fuel
          { dijkstra_result := dijkstra_start g.edges source_id,
            pq := pq_push [] (0, source_id), visited := [] } with
      | .error e => .error e
      | .ok st => .ok { g with dijkstra_result := st.dijkstra_result }

end Graph

namespace UMap

variable {V : Type}

theorem find_nil (k : Nat) : find ([] : List (Nat × V)) k = none := rfl

theorem find_cons (k' k : Nat) (v : V) (rest : List (Nat × V)) :
    find ((k', v) :: rest) k = if k' = k then some v else find rest k := rfl

theorem find_append (m₁ m₂ : List (Nat × V)) (k : Nat) :
    find (m₁ ++ m₂) k = (find m₁ k).orElse (fun _ => find m₂ k) := by
  induction m₁ with
  | nil => simp [find]
  | cons e rest ih =>
    obtain ⟨k', v⟩ := e
    by_cases h : k' = k <;> simp [find, h, ih]

theorem find_eq_none_iff (m : List (Nat × V)) (k : Nat) :
    find m k = none ↔ k ∉ keys m := by
  induction m with
  | nil => simp [find, keys]
  | cons e rest ih =>
    obtain ⟨k', v⟩ := e
    by_cases h : k' = k
    · simp [find, keys, h]
    · simp only [find, h, if_false, ih, keys, List.map_cons, List.mem_cons, not_or]
      exact ⟨fun h' => ⟨fun e => h e.symm, h'⟩, fun h' => h'.2⟩

theorem contains_iff_mem_keys (m : List (Nat × V)) (k : Nat) :
    contains m k = true ↔ k ∈ keys m := by
  unfold contains
  rw [Option.isSome_iff_ne_none, Ne, find_eq_none_iff, not_not]

theorem contains_eq_false_iff (m : List (Nat × V)) (k : Nat) :
    contains m k = false ↔ find m k = none := by
  unfold contains
  cases find m k <;> simp

theorem mem_of_find (m : List (Nat × V)) (k : Nat) (v : V) (h : find m k = some v) :
    (k, v) ∈ m := by
  induction m with
  | nil => simp [find] at h
  | cons e rest ih =>
    obtain ⟨k', v'⟩ := e
    by_cases hk : k' = k
    · simp [find, hk] at h
      simp [hk, h]
    · simp [find, hk] at h
      exact List.mem_cons_of_mem _ (ih h)

theorem find_of_mem (m : List (Nat × V)) (k : Nat) (v : V) (hn : (keys m).Nodup)
    (h : (k, v) ∈ m) : find m k = some v := by
  induction m with
  | nil => simp at h
  | cons e rest ih =>
    obtain ⟨k', v'⟩ := e
    simp only [keys, List.map_cons, List.nodup_cons] at hn
    rcases List.mem_cons.mp h with h | h
    · simp only [Prod.mk.injEq] at h
      simp [find, h.1, h.2]
    · have hk : k' ≠ k := by
        rintro rfl
        exact hn.1 (List.mem_map_of_mem Prod.fst h)
      simp only [find, hk, if_false]
      exact ih hn.2 h

theorem find_insert (m : List (Nat × V)) (k k' : Nat) (v : V) :
    find (insert m k v) k' =
      if k = k' ∧ contains m k = false then some v else find m k' := by
  unfold insert
  by_cases hc : contains m k = true
  · simp [hc]
  · have hc' : contains m k = false := by simpa using hc
    have hn := (contains_eq_false_iff m k).mp hc'
    simp only [hc', Bool.false_eq_true, if_false, find_append, find, and_true]
    by_cases hk : k = k'
    · subst hk
      simp [hn]
    · simp only [hk, if_false]
      cases find m k' <;> simp

theorem erase_cons (k₀ k : Nat) (v₀ : V) (rest : List (Nat × V)) :
    erase ((k₀, v₀) :: rest) k = if k₀ = k then erase rest k else (k₀, v₀) :: erase rest k := by
  unfold erase
  by_cases h : k₀ = k <;> simp [List.filter_cons, h]

theorem update_cons (k₀ k : Nat) (v₀ : V) (f : V → V) (rest : List (Nat × V)) :
    update ((k₀, v₀) :: rest) k f =
      (if k₀ = k then (k₀, f v₀) else (k₀, v₀)) :: update rest k f := by
  unfold update
  simp only [List.map_cons]

theorem find_erase (m : List (Nat × V)) (k k' : Nat) :
    find (erase m k) k' = if k = k' then none else find m k' := by
  induction m with
  | nil => simp [erase, find]
  | cons e rest ih =>
    obtain ⟨k₀, v₀⟩ := e
    rw [erase_cons]
    by_cases h0 : k₀ = k
    · rw [if_pos h0, ih, find_cons]
      by_cases hk : k = k'
      · simp [hk]
      · have : ¬ k₀ = k' := fun h => hk (h0 ▸ h)
        simp [hk, this]
    · rw [if_neg h0, find_cons, find_cons, ih]
      by_cases h1 : k₀ = k'
      · have : ¬ k = k' := fun h => h0 (h1.trans h.symm)
        simp [h1, this]
      · simp [h1]

theorem find_update (m : List (Nat × V)) (k k' : Nat) (f : V → V) :
    find (update m k f) k' = if k = k' then (find m k').map f else find m k' := by
  induction m with
  | nil => simp [update, find]
  | cons e rest ih =>
    obtain ⟨k₀, v₀⟩ := e
    rw [update_cons]
    by_cases h0 : k₀ = k
    · rw [if_pos h0, find_cons, find_cons, ih]
      by_cases hk : k = k'
      · have : k₀ = k' := h0.trans hk
        simp [hk, this]
      · have : ¬ k₀ = k' := fun h => hk (h0 ▸ h)
        simp [hk, this]
    · rw [if_neg h0, find_cons, find_cons, ih]
      by_cases h1 : k₀ = k'
      · have : ¬ k = k' := fun h => h0 (h1.trans h.symm)
        simp [h1, this]
      · simp [h1]

theorem find_map_values {W : Type} (m : List (Nat × V)) (f : Nat × V → W) (k : Nat) :
    find (m.map (fun e => (e.1, f e))) k = (find m k).map (fun v => f (k, v)) := by
  induction m with
  | nil => simp [find]
  | cons e rest ih =>
    obtain ⟨k₀, v₀⟩ := e
    by_cases h0 : k₀ = k
    · subst h0
      simp [find]
    · simp [find, h0, ih]

theorem keys_update (m : List (Nat × V)) (k : Nat) (f : V → V) :
    keys (update m k f) = keys m := by
  unfold keys update
  rw [List.map_map]
  apply List.map_congr_left
  intro e _
  by_cases h : e.1 = k <;> simp [h]

theorem keys_erase (m : List (Nat × V)) (k : Nat) :
    keys (erase m k) = (keys m).filter (fun x => decide (x ≠ k)) := by
  unfold keys erase
  rw [List.filter_map]
  rfl

theorem keys_insert (m : List (Nat × V)) (k : Nat) (v : V) :
    keys (insert m k v) = if k ∈ keys m then keys m else keys m ++ [k] := by
  unfold insert
  by_cases h : contains m k = true
  · simp [h, (contains_iff_mem_keys m k).mp h]
  · have h' : k ∉ keys m := fun hk => h ((contains_iff_mem_keys m k).mpr hk)
    rw [if_neg h, if_neg h']
    simp [keys]

theorem contains_update (m : List (Nat × V)) (k k' : Nat) (f : V → V) :
    contains (update m k f) k' = contains m k' := by
  unfold contains
  rw [find_update]
  by_cases h : k = k' <;> simp [h]

end UMap

/-! ## Structural operations -/

namespace Graph

theorem add_vertex_fst (g : Graph) (id : Nat) :
    (g.add_vertex id).1 = !g.contains_vertex id := by
  unfold add_vertex
  cases g.contains_vertex id <;> simp

theorem add_edge_fst (g : Graph) (src dest : Nat) (w : ℚ) :
    (g.add_edge src dest w).1 =
      (!g.contains_edge src dest && g.contains_vertex src && g.contains_vertex dest) := by
  unfold add_edge
  cases g.contains_edge src dest <;> cases g.contains_vertex src <;>
    cases g.contains_vertex dest <;> simp

theorem remove_vertex_fst (g : Graph) (id : Nat) :
    (g.remove_vertex id).1 = g.contains_vertex id := by
  unfold remove_vertex
  cases g.contains_vertex id <;> simp

theorem remove_edge_fst (g : Graph) (src dest : Nat) :
    (g.remove_edge src dest).1 = g.contains_edge src dest := by
  unfold remove_edge
  cases g.contains_edge src dest <;> simp

theorem contains_edge_iff (g : Graph) (src dest : Nat) :
    g.contains_edge src dest = true ↔
      g.contains_vertex dest = true ∧
        ∃ adj, UMap.find g.edges src = some adj ∧ UMap.contains adj dest = true := by
  unfold contains_edge contains_vertex UMap.contains
  cases h : UMap.find g.edges src <;> cases h' : UMap.find g.edges dest <;> simp

theorem cost_eq_of_find (g : Graph) (src dest : Nat) (adj : List (Nat × ℚ)) (w : ℚ)
    (hd : g.contains_vertex dest = true) (h : UMap.find g.edges src = some adj)
    (h' : UMap.find adj dest = some w) : g.cost src dest = (w : WithTop ℚ) := by
  have hc : g.contains_edge src dest = true :=
    (contains_edge_iff g src dest).mpr ⟨hd, adj, h, by simp [UMap.contains, h']⟩
  unfold cost
  simp [hc, h, h']

theorem cost_eq_top_of_not_contains (g : Graph) (src dest : Nat)
    (h : g.contains_edge src dest = false) : g.cost src dest = ⊤ := by
  unfold cost
  simp [h]

/-- **C7** The boolean returned by each structural mutator: `add_vertex` succeeds
exactly on an absent id, `add_edge` exactly when both endpoints are present and
the edge is absent (also for a self-loop, which is not treated specially),
`remove_vertex` exactly on a present id and `remove_edge` exactly on a present
edge. -/
theorem mutators_return_value (g : Graph) (id src dest : Nat) (weight : ℚ) :
    ((g.add_vertex id).1 = true ↔ g.contains_vertex id = false) ∧
    ((g.add_edge src dest weight).1 = true ↔
      (g.contains_vertex src = true ∧ g.contains_vertex dest = true ∧
        g.contains_edge src dest = false)) ∧
    ((g.add_edge src src weight).1 = true ↔
      (g.contains_vertex src = true ∧ g.contains_edge src src = false)) ∧
    ((g.remove_vertex id).1 = true ↔ g.contains_vertex id = true) ∧
    ((g.remove_edge src dest).1 = true ↔ g.contains_edge src dest = true) := by
  refine ⟨?_, ?_, ?_, ?_, ?_⟩
  · rw [add_vertex_fst]; cases g.contains_vertex id <;> simp
  · rw [add_edge_fst]
    cases g.contains_edge src dest <;> cases g.contains_vertex src <;>
      cases g.contains_vertex dest <;> simp
  · rw [add_edge_fst]
    cases g.contains_edge src src <;> cases g.contains_vertex src <;> simp
  · rw [remove_vertex_fst]
  · rw [remove_edge_fst]

theorem contains_vertex_add_vertex (g : Graph) (id k : Nat) :
    (g.add_vertex id).2.contains_vertex k = (g.contains_vertex k || decide (id = k)) := by
  unfold add_vertex
  by_cases h : g.contains_vertex id = true
  · rw [if_pos h]
    by_cases hk : id = k
    · subst hk; simp [h]
    · simp [hk]
  · rw [if_neg h]
    have h' : UMap.contains g.edges id = false := by simpa [contains_vertex] using h
    show (UMap.find (UMap.insert g.edges id []) k).isSome = _
    rw [UMap.find_insert]
    by_cases hk : id = k
    · subst hk
      rw [if_pos ⟨rfl, h'⟩]
      simp
    · rw [if_neg (fun c => hk c.1)]
      simp [hk, contains_vertex, UMap.contains]

theorem add_vertex_of_contains (g : Graph) (id : Nat) (h : g.contains_vertex id = true) :
    g.add_vertex id = (false, g) := by
  unfold add_vertex
  rw [if_pos h]

/-- **C8** Failure is atomic: a mutator that returns `false` returns the state it
was given, adjacency storage and both result tables included.  In particular a
second `add_vertex` of the same id fails and keeps the vertex count, and
removing an absent vertex or edge changes nothing. -/
theorem mutators_failure_atomic (g : Graph) (id src dest : Nat) (weight : ℚ) :
    ((g.add_vertex id).1 = false → (g.add_vertex id).2 = g) ∧
    ((g.add_edge src dest weight).1 = false → (g.add_edge src dest weight).2 = g) ∧
    ((g.remove_vertex id).1 = false → (g.remove_vertex id).2 = g) ∧
    ((g.remove_edge src dest).1 = false → (g.remove_edge src dest).2 = g) ∧
    ((g.add_vertex id).2.add_vertex id = (false, (g.add_vertex id).2) ∧
      ((g.add_vertex id).2.add_vertex id).2.vertex_count = (g.add_vertex id).2.vertex_count) ∧
    (g.contains_vertex id = false → g.remove_vertex id = (false, g)) ∧
    (g.contains_edge src dest = false → g.remove_edge src dest = (false, g)) := by
  refine ⟨?_, ?_, ?_, ?_, ?_, ?_, ?_⟩
  · unfold add_vertex
    by_cases h : g.contains_vertex id = true <;> simp [h]
  · unfold add_edge
    split <;> simp
  · unfold remove_vertex
    by_cases h : g.contains_vertex id = true <;> simp [h]
  · unfold remove_edge
    by_cases h : g.contains_edge src dest = true <;> simp [h]
  · have h : (g.add_vertex id).2.contains_vertex id = true := by
      rw [contains_vertex_add_vertex]; simp
    have e := add_vertex_of_contains _ id h
    exact ⟨e, by rw [e]⟩
  · intro h
    unfold remove_vertex
    simp [h]
  · intro h
    unfold remove_edge
    simp [h]

/-- Witness of **C8** on the one-vertex graph: the second `add_vertex 1` fails
and returns the state unchanged. -/
theorem mutators_failure_atomic_witness :
    ((Graph.empty.add_vertex 1).2.add_vertex 1).1 = false ∧
      ((Graph.empty.add_vertex 1).2.add_vertex 1).2 = (Graph.empty.add_vertex 1).2 :=
  ⟨by decide, (mutators_failure_atomic (Graph.empty.add_vertex 1).2 1 1 1 0).1 (by decide)⟩

/-- **C9** Edge round trip: after a successful `add_edge(src, dest, w)` the edge is
present with cost `w`; after a successful `remove_edge(src, dest)` the edge is
absent and its cost is `INFINITY`. -/
theorem edge_round_trip (g : Graph) (src dest : Nat) (w : ℚ) :
    ((g.add_edge src dest w).1 = true →
      (g.add_edge src dest w).2.contains_edge src dest = true ∧
        (g.add_edge src dest w).2.cost src dest = (w : WithTop ℚ)) ∧
    ((g.remove_edge src dest).1 = true →
      (g.remove_edge src dest).2.contains_edge src dest = false ∧
        (g.remove_edge src dest).2.cost src dest = ⊤) := by
  constructor
  · intro h
    rw [add_edge_fst] at h
    simp only [Bool.and_eq_true, Bool.not_eq_true'] at h
    obtain ⟨⟨hce, hs⟩, hd⟩ := h
    have hg : (g.add_edge src dest w).2 =
        { g with edges := UMap.update g.edges src (fun adj => UMap.insert adj dest w) } := by
      unfold add_edge
      simp [hce, hs, hd]
    rw [hg]
    obtain ⟨adj, hadj⟩ : ∃ adj, UMap.find g.edges src = some adj := by
      have := hs
      unfold contains_vertex UMap.contains at this
      exact Option.isSome_iff_exists.mp this
    have hnot : UMap.contains adj dest = false := by
      by_contra hc
      have hc' : UMap.contains adj dest = true := by simpa using hc
      have := (contains_edge_iff g src dest).mpr ⟨hd, adj, hadj, hc'⟩
      rw [hce] at this
      cases this
    have hd' : contains_vertex
        { g with edges := UMap.update g.edges src (fun adj => UMap.insert adj dest w) } dest
        = true := by
      simp only [contains_vertex, UMap.contains_update]
      exact hd
    have hf : UMap.find (UMap.update g.edges src (fun adj => UMap.insert adj dest w)) src =
        some (UMap.insert adj dest w) := by
      rw [UMap.find_update, if_pos rfl, hadj]; rfl
    have hfd : UMap.find (UMap.insert adj dest w) dest = some w := by
      rw [UMap.find_insert]; simp [hnot]
    refine ⟨(contains_edge_iff _ src dest).mpr ⟨hd', _, hf, by simp [UMap.contains, hfd]⟩, ?_⟩
    exact cost_eq_of_find _ src dest _ w hd' hf hfd
  · intro h
    rw [remove_edge_fst] at h
    have hg : (g.remove_edge src dest).2 =
        { g with edges := UMap.update g.edges src (fun adj => UMap.erase adj dest) } := by
      unfold remove_edge
      simp [h]
    rw [hg]
    have hno : contains_edge
        { g with edges := UMap.update g.edges src (fun adj => UMap.erase adj dest) } src dest
        = false := by
      by_contra hc
      have hc' := (contains_edge_iff _ src dest).mp (by simpa using hc)
      obtain ⟨_, adj', hf, hcd⟩ := hc'
      simp only [UMap.find_update, if_pos rfl] at hf
      cases hfs : UMap.find g.edges src with
      | none => simp [hfs] at hf
      | some adj =>
        simp only [hfs, Option.map_some', Option.some.injEq, if_true] at hf
        subst hf
        simp [UMap.contains, UMap.find_erase] at hcd
    exact ⟨hno, cost_eq_top_of_not_contains _ _ _ hno⟩

/-- Witness of **C9**: adding the edge 1 → 2 of weight 5 to the graph with the
vertices 1 and 2. -/
theorem edge_round_trip_witness :
    (((Graph.empty.add_vertex 1).2.add_vertex 2).2.add_edge 1 2 5).2.contains_edge 1 2 = true ∧
      (((Graph.empty.add_vertex 1).2.add_vertex 2).2.add_edge 1 2 5).2.cost 1 2 =
        ((5 : ℚ) : WithTop ℚ) :=
  (edge_round_trip ((Graph.empty.add_vertex 1).2.add_vertex 2).2 1 2 5).1 (by decide)

end Graph

namespace UMap

variable {V : Type}

theorem mem_erase_iff (m : List (Nat × V)) (k : Nat) (n : Nat × V) :
    n ∈ erase m k ↔ n ∈ m ∧ n.1 ≠ k := by
  unfold erase
  simp [List.mem_filter]

theorem nodup_keys_erase (m : List (Nat × V)) (k : Nat) (h : (keys m).Nodup) :
    (keys (erase m k)).Nodup := by
  rw [keys_erase]
  exact h.filter _

theorem nodup_keys_insert (m : List (Nat × V)) (k : Nat) (v : V) (h : (keys m).Nodup) :
    (keys (insert m k v)).Nodup := by
  rw [keys_insert]
  by_cases hk : k ∈ keys m
  · rw [if_pos hk]; exact h
  · rw [if_neg hk]
    exact List.Nodup.append h (List.nodup_singleton k) (by simpa using hk)

theorem mem_insert (m : List (Nat × V)) (k : Nat) (v : V) (n : Nat × V)
    (h : n ∈ insert m k v) : n ∈ m ∨ n = (k, v) := by
  unfold insert at h
  by_cases hc : contains m k = true
  · rw [if_pos hc] at h; exact Or.inl h
  · rw [if_neg hc] at h
    simpa using h

theorem mem_update (m : List (Nat × V)) (k : Nat) (f : V → V) (e' : Nat × V)
    (h : e' ∈ update m k f) :
    ∃ e ∈ m, e'.1 = e.1 ∧ (e'.2 = e.2 ∨ (e.1 = k ∧ e'.2 = f e.2)) := by
  unfold update at h
  obtain ⟨e, he, rfl⟩ := List.mem_map.mp h
  refine ⟨e, he, ?_⟩
  by_cases hk : e.1 = k
  · simp [hk]
  · simp [hk]

theorem not_mem_of_contains_false (m : List (Nat × V)) (k : Nat) (n : Nat × V)
    (h : contains m k = false) (hn : n ∈ m) : n.1 ≠ k := by
  rintro rfl
  have : contains m n.1 = true :=
    (contains_iff_mem_keys m n.1).mpr (List.mem_map_of_mem Prod.fst hn)
  rw [h] at this
  cases this

end UMap

namespace Graph

theorem prim_edges (g g' : Graph) (fuel : Nat) (tie : Nat → Nat) (s : Nat)
    (h : g.prim fuel tie s = .ok g') : g'.edges = g.edges := by
  unfold prim at h
  split at h
  · cases h; rfl
  · split at h
    · cases h
    · split at h
      · cases h
      · cases h; rfl

theorem dijkstra_edges (g g' : Graph) (fuel : Nat) (tie : Nat → Nat) (s : Nat)
    (h : g.dijkstra fuel tie s = .ok g') : g'.edges = g.edges := by
  unfold dijkstra at h
  split at h
  · cases h; rfl
  · split at h
    · cases h
    · split at h
      · cases h
      · cases h; rfl

theorem WF_of_edges_eq (g g' : Graph) (h : g'.edges = g.edges) (hw : g.WF) : g'.WF := by
  unfold WF at hw ⊢
  rw [h]
  exact hw

theorem WF_empty : Graph.empty.WF := by decide

theorem WF_add_vertex (g : Graph) (id : Nat) (hw : g.WF) : (g.add_vertex id).2.WF := by
  unfold add_vertex
  by_cases h : g.contains_vertex id = true
  · rw [if_pos h]; exact hw
  · rw [if_neg h]
    obtain ⟨h1, h2, h3⟩ := hw
    have hc : UMap.contains g.edges id = false := by simpa [contains_vertex] using h
    have he : UMap.insert g.edges id [] = g.edges ++ [(id, [])] := by
      unfold UMap.insert; simp [hc]
    refine ⟨UMap.nodup_keys_insert _ _ _ h1, ?_, ?_⟩
    · intro e he'
      simp only [he, List.mem_append, List.mem_singleton] at he'
      rcases he' with he' | rfl
      · exact h2 e he'
      · simp [UMap.keys]
    · intro e he' n hn
      simp only [he, List.mem_append, List.mem_singleton] at he'
      rcases he' with he' | rfl
      · have := h3 e he' n hn
        rw [UMap.contains_iff_mem_keys] at this ⊢
        show n.1 ∈ UMap.keys (UMap.insert g.edges id [])
        rw [UMap.keys_insert]
        split
        · exact this
        · exact List.mem_append_left _ this
      · simp at hn

theorem WF_add_edge (g : Graph) (src dest : Nat) (w : ℚ) (hw : g.WF) :
    (g.add_edge src dest w).2.WF := by
  unfold add_edge
  split
  · exact hw
  · rename_i hg
    simp only [Bool.or_eq_true, Bool.not_eq_true', not_or, Bool.not_eq_false] at hg
    obtain ⟨⟨_, _⟩, hd⟩ := hg
    obtain ⟨h1, h2, h3⟩ := hw
    unfold WF
    dsimp only
    refine ⟨?_, ?_, ?_⟩
    · rw [UMap.keys_update]; exact h1
    · intro e' he'
      obtain ⟨e, he, _, h | ⟨_, h⟩⟩ := UMap.mem_update _ _ _ _ he'
      · rw [h]; exact h2 e he
      · rw [h]; exact UMap.nodup_keys_insert _ _ _ (h2 e he)
    · intro e' he' n hn
      rw [UMap.contains_update]
      obtain ⟨e, he, _, h | ⟨_, h⟩⟩ := UMap.mem_update _ _ _ _ he'
      · rw [h] at hn; exact h3 e he n hn
      · rw [h] at hn
        rcases UMap.mem_insert _ _ _ _ hn with hn | rfl
        · exact h3 e he n hn
        · exact hd

theorem WF_remove_edge (g : Graph) (src dest : Nat) (hw : g.WF) :
    (g.remove_edge src dest).2.WF := by
  unfold remove_edge
  split
  · exact hw
  · obtain ⟨h1, h2, h3⟩ := hw
    unfold WF
    dsimp only
    refine ⟨?_, ?_, ?_⟩
    · rw [UMap.keys_update]; exact h1
    · intro e' he'
      obtain ⟨e, he, _, h | ⟨_, h⟩⟩ := UMap.mem_update _ _ _ _ he'
      · rw [h]; exact h2 e he
      · rw [h]; exact UMap.nodup_keys_erase _ _ (h2 e he)
    · intro e' he' n hn
      rw [UMap.contains_update]
      obtain ⟨e, he, _, h | ⟨_, h⟩⟩ := UMap.mem_update _ _ _ _ he'
      · rw [h] at hn; exact h3 e he n hn
      · rw [h] at hn
        exact h3 e he n ((UMap.mem_erase_iff _ _ _).mp hn).1

/-- The adjacency storage after a successful `remove_vertex`. -/
theorem remove_vertex_edges (g : Graph) (id : Nat) (h : g.contains_vertex id = true) :
    (g.remove_vertex id).2.edges =
      (UMap.erase g.edges id).map (fun lst =>
        (lst.1, if UMap.contains lst.2 id then UMap.erase lst.2 id else lst.2)) := by
  unfold remove_vertex
  simp [h]

theorem find_remove_vertex (g : Graph) (id k : Nat) (h : g.contains_vertex id = true) :
    UMap.find (g.remove_vertex id).2.edges k =
      if id = k then none
      else (UMap.find g.edges k).map (fun adj =>
        if UMap.contains adj id then UMap.erase adj id else adj) := by
  rw [remove_vertex_edges g id h]
  rw [UMap.find_map_values (UMap.erase g.edges id)
    (fun lst => if UMap.contains lst.2 id then UMap.erase lst.2 id else lst.2) k]
  rw [UMap.find_erase]
  by_cases hk : id = k
  · simp [hk]
  · simp [hk]

theorem WF_remove_vertex (g : Graph) (id : Nat) (hw : g.WF) : (g.remove_vertex id).2.WF := by
  by_cases h : g.contains_vertex id = true
  swap
  · unfold remove_vertex
    simp only [h, Bool.not_eq_true] at *
    simpa [h] using hw
  obtain ⟨h1, h2, h3⟩ := hw
  have hmem : ∀ e' ∈ (g.remove_vertex id).2.edges, ∃ e ∈ g.edges, e.1 ≠ id ∧ e'.1 = e.1 ∧
      (∀ n ∈ e'.2, n ∈ e.2 ∧ n.1 ≠ id) ∧
      (e'.2 = e.2 ∨ e'.2 = UMap.erase e.2 id) := by
    intro e' he'
    rw [remove_vertex_edges g id h] at he'
    obtain ⟨e, he, rfl⟩ := List.mem_map.mp he'
    obtain ⟨he1, he2⟩ := (UMap.mem_erase_iff _ _ _).mp he
    refine ⟨e, he1, he2, rfl, ?_, ?_⟩
    · intro n hn
      by_cases hc : UMap.contains e.2 id = true
      · simp only [hc, if_true] at hn
        exact (UMap.mem_erase_iff _ _ _).mp hn
      · simp only [hc, if_false] at hn
        exact ⟨hn, UMap.not_mem_of_contains_false _ _ _ (by simpa using hc) hn⟩
    · by_cases hc : UMap.contains e.2 id = true
      · right; simp [hc]
      · left; simp [hc]
  refine ⟨?_, ?_, ?_⟩
  · rw [remove_vertex_edges g id h]
    unfold UMap.keys
    rw [List.map_map]
    exact UMap.nodup_keys_erase _ _ h1
  · intro e' he'
    obtain ⟨e, he, _, _, _, h | h⟩ := hmem e' he'
    · rw [h]; exact h2 e he
    · rw [h]; exact UMap.nodup_keys_erase _ _ (h2 e he)
  · intro e' he' n hn
    obtain ⟨e, he, _, _, hall, _⟩ := hmem e' he'
    obtain ⟨hn1, hn2⟩ := hall n hn
    have := h3 e he n hn1
    unfold UMap.contains at this ⊢
    rw [find_remove_vertex g id n.1 h, if_neg (fun c => hn2 c.symm)]
    cases hf : UMap.find g.edges n.1 with
    | none => simp [hf] at this
    | some adj => simp

/-- Every state a program can reach satisfies the representation invariant. -/
theorem Reachable.WF {g : Graph} (h : g.Reachable) : g.WF := by
  induction h with
  | empty => exact WF_empty
  | copy g _ ih => exact ih
  | add_vertex g id _ ih => exact WF_add_vertex g id ih
  | add_edge g src dest w _ ih => exact WF_add_edge g src dest w ih
  | remove_vertex g id _ ih => exact WF_remove_vertex g id ih
  | remove_edge g src dest _ ih => exact WF_remove_edge g src dest ih
  | prim g g' fuel tie s _ hp ih => exact WF_of_edges_eq g g' (prim_edges g g' fuel tie s hp) ih
  | dijkstra g g' fuel tie s _ hp ih =>
    exact WF_of_edges_eq g g' (dijkstra_edges g g' fuel tie s hp) ih

end Graph

namespace UMap

variable {V : Type}

theorem length_erase (m : List (Nat × V)) (k : Nat) (hn : (keys m).Nodup)
    (hk : contains m k = true) : (erase m k).length + 1 = m.length := by
  induction m with
  | nil => simp [contains, find] at hk
  | cons e rest ih =>
    obtain ⟨k₀, v₀⟩ := e
    simp only [keys, List.map_cons, List.nodup_cons] at hn
    rw [erase_cons]
    by_cases h0 : k₀ = k
    · subst h0
      rw [if_pos rfl]
      have : erase rest k₀ = rest := by
        unfold erase
        rw [List.filter_eq_self]
        intro a ha
        have : a.1 ≠ k₀ := by
          rintro rfl
          exact hn.1 (List.mem_map_of_mem Prod.fst ha)
        simpa using this
      rw [this]
      rfl
    · rw [if_neg h0]
      have hk' : contains rest k = true := by
        simpa [contains, find, h0] using hk
      simp only [List.length_cons]
      rw [ih hn.2 hk']

end UMap

namespace Graph

theorem find_pruned (adj : List (Nat × ℚ)) (id b : Nat) (hb : b ≠ id) :
    UMap.find (if UMap.contains adj id then UMap.erase adj id else adj) b = UMap.find adj b := by
  split
  · rw [UMap.find_erase, if_neg (fun c => hb c.symm)]
  · rfl

theorem contains_vertex_remove_vertex (g : Graph) (id a : Nat)
    (h : g.contains_vertex id = true) :
    (g.remove_vertex id).2.contains_vertex a = (g.contains_vertex a && decide (a ≠ id)) := by
  unfold contains_vertex UMap.contains at *
  rw [find_remove_vertex g id a h]
  by_cases ha : id = a
  · simp [ha]
  · have : a ≠ id := fun c => ha c.symm
    cases UMap.find g.edges a <;> simp [ha, this]

theorem contains_edge_remove_vertex (g : Graph) (id a b : Nat)
    (h : g.contains_vertex id = true) (ha : a ≠ id) (hb : b ≠ id) :
    (g.remove_vertex id).2.contains_edge a b = g.contains_edge a b := by
  have hfind := find_remove_vertex g id a h
  rw [if_neg (fun c => ha c.symm)] at hfind
  unfold contains_edge
  rw [contains_vertex_remove_vertex g id a h, contains_vertex_remove_vertex g id b h, hfind]
  cases hf : UMap.find g.edges a with
  | none => simp
  | some adj =>
    simp only [ha, hb, ne_eq, not_false_eq_true, decide_True, Bool.and_true, Option.map_some']
    have := find_pruned adj id b hb
    unfold UMap.contains at this ⊢
    rw [this]

theorem cost_remove_vertex (g : Graph) (id a b : Nat)
    (h : g.contains_vertex id = true) (ha : a ≠ id) (hb : b ≠ id) :
    (g.remove_vertex id).2.cost a b = g.cost a b := by
  have hfind := find_remove_vertex g id a h
  rw [if_neg (fun c => ha c.symm)] at hfind
  unfold cost
  rw [contains_edge_remove_vertex g id a b h ha hb, hfind]
  cases hf : UMap.find g.edges a with
  | none => simp
  | some adj =>
    simp only [Option.map_some', Option.some_bind]
    rw [find_pruned adj id b hb]

/-- **C10** A successful `remove_vertex(id)` on a graph built by the public
operations removes the vertex and exactly the edges incident to it: the vertex
is gone, the vertex count drops by one, no edge from or to `id` is left, no
adjacency mapping lists `id` any more, and for all `a`, `b` other than `id` the
answers of `contains_vertex`, `contains_edge` and `cost` are unchanged. -/
theorem remove_vertex_exact (g : Graph) (id : Nat) (hr : g.Reachable)
    (hp : g.contains_vertex id = true) :
    (g.remove_vertex id).1 = true ∧
    (g.remove_vertex id).2.contains_vertex id = false ∧
    (g.remove_vertex id).2.vertex_count + 1 = g.vertex_count ∧
    (∀ a, (g.remove_vertex id).2.contains_edge id a = false ∧
      (g.remove_vertex id).2.contains_edge a id = false) ∧
    (∀ e ∈ (g.remove_vertex id).2.edges, UMap.contains e.2 id = false) ∧
    (∀ a, a ≠ id → (g.remove_vertex id).2.contains_vertex a = g.contains_vertex a) ∧
    (∀ a b, a ≠ id → b ≠ id →
      (g.remove_vertex id).2.contains_edge a b = g.contains_edge a b ∧
        (g.remove_vertex id).2.cost a b = g.cost a b) := by
  have hgone : (g.remove_vertex id).2.contains_vertex id = false := by
    rw [contains_vertex_remove_vertex g id id hp]; simp
  refine ⟨by rw [remove_vertex_fst]; exact hp, hgone, ?_, ?_, ?_, ?_, ?_⟩
  · unfold vertex_count
    rw [remove_vertex_edges g id hp, List.length_map]
    exact UMap.length_erase _ _ hr.WF.1 hp
  · intro a
    unfold contains_edge
    simp [hgone]
  · intro e he
    rw [remove_vertex_edges g id hp] at he
    obtain ⟨e₀, _, rfl⟩ := List.mem_map.mp he
    by_cases hc : UMap.contains e₀.2 id = true
    · simp only [hc, if_true]
      unfold UMap.contains
      rw [UMap.find_erase, if_pos rfl]
      rfl
    · simp only [hc, if_false]
      simpa using hc
  · intro a ha
    rw [contains_vertex_remove_vertex g id a hp]
    simp [ha]
  · intro a b ha hb
    exact ⟨contains_edge_remove_vertex g id a b hp ha hb, cost_remove_vertex g id a b hp ha hb⟩

/-- Witness of **C10**: removing vertex 2 from the graph with vertices 1, 2 and
the edge 1 → 2. -/
theorem remove_vertex_exact_witness :
    ((((Graph.empty.add_vertex 1).2.add_vertex 2).2.add_edge 1 2 5).2.remove_vertex 2).2.vertex_count
        + 1 = (((Graph.empty.add_vertex 1).2.add_vertex 2).2.add_edge 1 2 5).2.vertex_count :=
  (remove_vertex_exact (((Graph.empty.add_vertex 1).2.add_vertex 2).2.add_edge 1 2 5).2 2
    (Reachable.add_edge _ 1 2 5
      (Reachable.add_vertex _ 2 (Reachable.add_vertex _ 1 Reachable.empty)))
    (by decide)).2.2.1

end Graph

/-! ## The priority queue -/

theorem exists_min_key (pq : List priority_data) (h : pq ≠ []) :
    ∃ x ∈ pq, ∀ y ∈ pq, x.1 ≤ y.1 := by
  induction pq with
  | nil => exact absurd rfl h
  | cons a rest ih =>
    by_cases hr : rest = []
    · subst hr
      exact ⟨a, List.mem_cons_self _ _, fun y hy => by
        rw [List.mem_singleton] at hy; rw [hy]⟩
    · obtain ⟨x, hx, hmin⟩ := ih hr
      by_cases hax : a.1 ≤ x.1
      · refine ⟨a, List.mem_cons_self _ _, fun y hy => ?_⟩
        rcases List.mem_cons.mp hy with rfl | hy
        · exact le_refl _
        · exact le_trans hax (hmin y hy)
      · refine ⟨x, List.mem_cons_of_mem _ hx, fun y hy => ?_⟩
        rcases List.mem_cons.mp hy with rfl | hy
        · exact le_of_lt (lt_of_not_le hax)
        · exact hmin y hy

theorem mem_pq_top_candidates (pq : List priority_data) (x : priority_data) :
    x ∈ pq_top_candidates pq ↔ x ∈ pq ∧ ∀ y ∈ pq, x.1 ≤ y.1 := by
  unfold pq_top_candidates PairComparison
  simp only [List.mem_filter, List.all_eq_true, Bool.not_eq_true', decide_eq_false_iff_not,
    gt_iff_lt, not_lt]

theorem pq_pop_eq_none (tie : Nat) (pq : List priority_data) :
    pq_pop tie pq = none ↔ pq = [] := by
  constructor
  · intro h
    by_contra hne
    obtain ⟨x, hx, hmin⟩ := exists_min_key pq hne
    have hmem : x ∈ pq_top_candidates pq := (mem_pq_top_candidates pq x).mpr ⟨hx, hmin⟩
    have hlen : 0 < (pq_top_candidates pq).length := List.length_pos_of_mem hmem
    have hlt : tie % (pq_top_candidates pq).length < (pq_top_candidates pq).length :=
      Nat.mod_lt _ hlen
    unfold pq_pop at h
    rw [List.getElem?_eq_getElem hlt] at h
    simp at h
  · rintro rfl
    rfl

theorem pq_pop_eq_some (tie : Nat) (pq pq' : List priority_data) (top : priority_data)
    (h : pq_pop tie pq = some (top, pq')) :
    top ∈ pq ∧ pq' = pq.erase top ∧ ∀ y ∈ pq, top.1 ≤ y.1 := by
  unfold pq_pop at h
  split at h
  · cases h
  · rename_i x hx
    simp only [Option.some.injEq, Prod.mk.injEq] at h
    obtain ⟨rfl, rfl⟩ := h
    have hmem : x ∈ pq_top_candidates pq := List.getElem?_mem hx
    obtain ⟨h1, h2⟩ := (mem_pq_top_candidates pq x).mp hmem
    exact ⟨h1, rfl, h2⟩

/-- Every entry with the smallest key is returned for some value of `tie`: the
model of the queue leaves the choice among equal keys open. -/
theorem pq_pop_complete (pq : List priority_data) (x : priority_data) (hx : x ∈ pq)
    (hmin : ∀ y ∈ pq, x.1 ≤ y.1) : ∃ tie, pq_pop tie pq = some (x, pq.erase x) := by
  have hmem : x ∈ pq_top_candidates pq := (mem_pq_top_candidates pq x).mpr ⟨hx, hmin⟩
  obtain ⟨i, hi, hget⟩ := List.getElem_of_mem hmem
  refine ⟨i, ?_⟩
  unfold pq_pop
  rw [Nat.mod_eq_of_lt hi, List.getElem?_eq_getElem hi, hget]

/-! ## Table look-ups -/

theorem gmet_of_find (tbl : List (Nat × (Nat × WithTop ℚ))) (v : Nat) (e : Nat × WithTop ℚ)
    (h : UMap.find tbl v = some e) : gmet tbl v = e.2 := by
  unfold gmet; rw [h]

theorem gpar_of_find (tbl : List (Nat × (Nat × WithTop ℚ))) (v : Nat) (e : Nat × WithTop ℚ)
    (h : UMap.find tbl v = some e) : gpar tbl v = e.1 := by
  unfold gpar; rw [h]

theorem find_of_gmet_ne_top (tbl : List (Nat × (Nat × WithTop ℚ))) (v : Nat)
    (h : gmet tbl v ≠ ⊤) : ∃ e, UMap.find tbl v = some e := by
  unfold gmet at h
  cases hf : UMap.find tbl v with
  | none => rw [hf] at h; exact absurd rfl h
  | some e => exact ⟨e, rfl⟩

theorem gmet_update (tbl : List (Nat × (Nat × WithTop ℚ))) (dst v p : Nat) (nd : WithTop ℚ)
    (h : UMap.contains tbl dst = true) :
    gmet (UMap.update tbl dst (fun _ => (p, nd))) v = if dst = v then nd else gmet tbl v := by
  unfold gmet
  rw [UMap.find_update]
  by_cases hv : dst = v
  · subst hv
    obtain ⟨e, he⟩ := Option.isSome_iff_exists.mp h
    simp [he]
  · simp [hv]

theorem gpar_update (tbl : List (Nat × (Nat × WithTop ℚ))) (dst v p : Nat) (nd : WithTop ℚ)
    (h : UMap.contains tbl dst = true) :
    gpar (UMap.update tbl dst (fun _ => (p, nd))) v = if dst = v then p else gpar tbl v := by
  unfold gpar
  rw [UMap.find_update]
  by_cases hv : dst = v
  · subst hv
    obtain ⟨e, he⟩ := Option.isSome_iff_exists.mp h
    simp [he]
  · simp [hv]

theorem gcand_update (cum : Bool) (tbl : List (Nat × (Nat × WithTop ℚ))) (dst u p : Nat)
    (nd : WithTop ℚ) (w : ℚ) (h : UMap.contains tbl dst = true) (hne : dst ≠ u) :
    gcand cum (UMap.update tbl dst (fun _ => (p, nd))) u w = gcand cum tbl u w := by
  unfold gcand
  rw [gmet_update tbl dst u p nd h, if_neg hne]

theorem gen_cand_eq (cum : Bool) (tbl : List (Nat × (Nat × WithTop ℚ))) (curr : Nat) (w : ℚ)
    (h : UMap.contains tbl curr = true) : gen_cand cum tbl curr w = .ok (gcand cum tbl curr w) := by
  unfold gen_cand gcand gmet UMap.at_
  obtain ⟨e, he⟩ := Option.isSome_iff_exists.mp h
  cases cum <;> simp [he]

theorem IsEdge.unique {E : List (Nat × List (Nat × ℚ))} {u v : Nat} {w w' : ℚ}
    (h : IsEdge E u v w) (h' : IsEdge E u v w') : w = w' := by
  obtain ⟨adj, h1, h2⟩ := h
  obtain ⟨adj', h1', h2'⟩ := h'
  rw [h1] at h1'
  cases h1'
  rw [h2] at h2'
  cases h2'
  rfl

theorem IsEdge.contains_left {E : List (Nat × List (Nat × ℚ))} {u v : Nat} {w : ℚ}
    (h : IsEdge E u v w) : UMap.contains E u = true := by
  obtain ⟨adj, h1, _⟩ := h
  unfold UMap.contains; rw [h1]; rfl

theorem IsEdge.contains_right {E : List (Nat × List (Nat × ℚ))} {u v : Nat} {w : ℚ}
    (hwf : EdgesWF E) (h : IsEdge E u v w) : UMap.contains E v = true := by
  obtain ⟨adj, h1, h2⟩ := h
  exact hwf.2.2 (u, adj) (UMap.mem_of_find E u adj h1) (v, w) (UMap.mem_of_find adj v w h2)

theorem IsEdge.of_mem {E : List (Nat × List (Nat × ℚ))} {u : Nat} {adj : List (Nat × ℚ)}
    (hwf : EdgesWF E) (h : UMap.find E u = some adj) (e : Nat × ℚ) (he : e ∈ adj) :
    IsEdge E u e.1 e.2 :=
  ⟨adj, h, UMap.find_of_mem adj e.1 e.2
    (hwf.2.1 (u, adj) (UMap.mem_of_find E u adj h)) he⟩

theorem IsEdge.mem {E : List (Nat × List (Nat × ℚ))} {u v : Nat} {w : ℚ}
    {adj : List (Nat × ℚ)} (h : IsEdge E u v w) (hf : UMap.find E u = some adj) :
    (v, w) ∈ adj := by
  obtain ⟨adj', h1, h2⟩ := h
  rw [hf] at h1
  cases h1
  exact UMap.mem_of_find adj v w h2

/-! ## The invariant is kept by the neighbour loop -/

theorem GInv.relax_skip {E : List (Nat × List (Nat × ℚ))} {s : Nat} {cum : Bool} {curr : Nat}
    {e : Nat × ℚ} {rest : List (Nat × ℚ)} {st : gstate}
    (h : GInv E s cum curr (e :: rest) st)
    (hdone : e.1 ∈ st.visited ∨ gmet st.tbl e.1 ≤ gcand cum st.tbl curr e.2) :
    GInv E s cum curr rest st where
  keys := h.keys
  vis_sub := h.vis_sub
  vis_nodup := h.vis_nodup
  pq_sub := h.pq_sub
  src := h.src
  src_vis := h.src_vis
  par_ok := h.par_ok
  unreached := h.unreached
  pq_complete := h.pq_complete
  closed := by
    intro v hv u w huw
    rcases h.closed v hv u w huw with ⟨rfl, hmem⟩ | h' | h'
    · rcases List.mem_cons.mp hmem with heq | hmem
      · subst heq
        rcases hdone with hd | hd
        · exact Or.inr (Or.inl hd)
        · exact Or.inr (Or.inr hd)
      · exact Or.inl ⟨rfl, hmem⟩
    · exact Or.inr (Or.inl h')
    · exact Or.inr (Or.inr h')
  todo_edges := fun e' he' => h.todo_edges e' (List.mem_cons_of_mem _ he')
  curr_vis := fun _ => h.curr_vis (List.cons_ne_nil _ _)
  par_before := h.par_before
  cut_min := h.cut_min

theorem GInv.relax_update {E : List (Nat × List (Nat × ℚ))} {s : Nat} {cum : Bool} {curr : Nat}
    {e : Nat × ℚ} {rest : List (Nat × ℚ)} {st : gstate} (hwf : EdgesWF E)
    (h : GInv E s cum curr (e :: rest) st) (hnv : e.1 ∉ st.visited)
    (hlt : gcand cum st.tbl curr e.2 < gmet st.tbl e.1) :
    GInv E s cum curr rest
      { tbl := UMap.update st.tbl e.1 (fun _ => (curr, gcand cum st.tbl curr e.2))
        pq := pq_push st.pq (gcand cum st.tbl curr e.2, e.1)
        visited := st.visited } := by
  have hcv : curr ∈ st.visited := h.curr_vis (List.cons_ne_nil _ _)
  have hedge : IsEdge E curr e.1 e.2 := h.todo_edges e (List.mem_cons_self _ _)
  have hcE : UMap.contains E e.1 = true := hedge.contains_right hwf
  have hct : UMap.contains st.tbl e.1 = true := by rw [h.keys]; exact hcE
  have hsv : s ∈ st.visited := by
    rcases h.src_vis with h' | ⟨h', _⟩
    · exact h'
    · rw [h'] at hcv; cases hcv
  have hne_vis : ∀ v ∈ st.visited, e.1 ≠ v := fun v hv c => hnv (c ▸ hv)
  have hnd : gcand cum st.tbl curr e.2 ≠ ⊤ := ne_top_of_lt hlt
  have hmet : ∀ v, gmet (UMap.update st.tbl e.1 (fun _ => (curr, gcand cum st.tbl curr e.2))) v
      = if e.1 = v then gcand cum st.tbl curr e.2 else gmet st.tbl v :=
    fun v => gmet_update st.tbl e.1 v curr _ hct
  have hpar : ∀ v, gpar (UMap.update st.tbl e.1 (fun _ => (curr, gcand cum st.tbl curr e.2))) v
      = if e.1 = v then curr else gpar st.tbl v :=
    fun v => gpar_update st.tbl e.1 v curr _ hct
  have hcand : ∀ v w, e.1 ≠ v →
      gcand cum (UMap.update st.tbl e.1 (fun _ => (curr, gcand cum st.tbl curr e.2))) v w
        = gcand cum st.tbl v w :=
    fun v w hv => gcand_update cum st.tbl e.1 v curr _ w hct hv
  have hmet_le : ∀ v,
      gmet (UMap.update st.tbl e.1 (fun _ => (curr, gcand cum st.tbl curr e.2))) v
        ≤ gmet st.tbl v := by
    intro v
    rw [hmet]
    split
    · rename_i hv; subst hv; exact le_of_lt hlt
    · exact le_refl _
  refine
    { keys := ?_, vis_sub := h.vis_sub, vis_nodup := h.vis_nodup, pq_sub := ?_, src := ?_,
      src_vis := Or.inl hsv, par_ok := ?_, unreached := ?_, pq_complete := ?_, closed := ?_,
      todo_edges := fun e' he' => h.todo_edges e' (List.mem_cons_of_mem _ he'),
      curr_vis := fun _ => hcv, par_before := ?_, cut_min := ?_ }
  · intro k
    dsimp only
    rw [UMap.contains_update]; exact h.keys k
  · intro e' he'
    dsimp only
    rcases List.mem_cons.mp he' with rfl | he'
    · refine ⟨hcE, hnd, ?_⟩
      rw [hmet]; simp
    · obtain ⟨h1, h2, h3⟩ := h.pq_sub e' he'
      exact ⟨h1, h2, le_trans (hmet_le _) h3⟩
  · dsimp only
    rw [UMap.find_update, if_neg (hne_vis s hsv)]
    exact h.src
  · intro v hvs hv
    dsimp only at hv ⊢
    rw [hpar, hmet]
    by_cases hev : e.1 = v
    · subst hev
      simp only [if_true]
      exact ⟨hcv, e.2, hedge, (hcand curr e.2 (hne_vis curr hcv)).symm⟩
    · simp only [hev, if_false]
      have hv' : gmet st.tbl v ≠ ⊤ := by
        rwa [hmet, if_neg hev] at hv
      obtain ⟨h1, w, h2, h3⟩ := h.par_ok v hvs hv'
      exact ⟨h1, w, h2, by rw [hcand _ _ (hne_vis _ h1)]; exact h3⟩
  · intro v hv
    dsimp only at hv ⊢
    rw [hmet] at hv
    by_cases hev : e.1 = v
    · rw [if_pos hev] at hv; exact absurd hv hnd
    · rw [if_neg hev] at hv
      obtain ⟨h1, h2⟩ := h.unreached v hv
      refine ⟨h1, fun hc => ?_⟩
      rw [UMap.find_update, if_neg hev]
      exact h2 hc
  · intro v hv hm
    dsimp only at hv hm ⊢
    rw [hmet] at hm ⊢
    unfold pq_push
    by_cases hev : e.1 = v
    · subst hev
      simp
    · rw [if_neg hev] at hm ⊢
      exact List.mem_cons_of_mem _ (h.pq_complete v hv hm)
  · intro v hv u w huw
    dsimp only at hv ⊢
    rw [hcand v w (hne_vis v hv)]
    rcases h.closed v hv u w huw with ⟨rfl, hmem⟩ | h' | h'
    · rcases List.mem_cons.mp hmem with heq | hmem
      · subst heq
        right; right
        rw [hmet]; simp
      · exact Or.inl ⟨rfl, hmem⟩
    · exact Or.inr (Or.inl h')
    · exact Or.inr (Or.inr (le_trans (hmet_le u) h'))
  · intro l₁ v l₂ hl hvs
    dsimp only at hl ⊢
    have hvv : v ∈ st.visited := by
      have : v ∈ l₁ ++ v :: l₂ := List.mem_append_right _ (List.mem_cons_self _ _)
      exact hl ▸ this
    rw [hpar, if_neg (hne_vis v hvv)]
    exact h.par_before l₁ v l₂ hl hvs
  · intro hc l₁ v l₂ hl hvs x hx u w huw hu
    dsimp only at hl ⊢
    have hvv : v ∈ st.visited := by
      have : v ∈ l₁ ++ v :: l₂ := List.mem_append_right _ (List.mem_cons_self _ _)
      exact hl ▸ this
    rw [hmet, if_neg (hne_vis v hvv)]
    exact h.cut_min hc l₁ v l₂ hl hvs x hx u w huw hu

theorem DInv.keep_skip {E : List (Nat × List (Nat × ℚ))} {curr : Nat}
    {e : Nat × ℚ} {rest : List (Nat × ℚ)} {st : gstate}
    (h : DInv E curr (e :: rest) st)
    (hdone : gmet st.tbl e.1 ≤ gmet st.tbl curr + (e.2 : WithTop ℚ)) :
    DInv E curr rest st where
  mono := h.mono
  relaxed := by
    intro v hv u w huw
    rcases h.relaxed v hv u w huw with ⟨rfl, hmem⟩ | h'
    · rcases List.mem_cons.mp hmem with heq | hmem
      · subst heq
        exact Or.inr hdone
      · exact Or.inl ⟨rfl, hmem⟩
    · exact Or.inr h'
  curr_max := fun _ => h.curr_max (List.cons_ne_nil _ _)

theorem le_add_coe_of_nonneg (a : WithTop ℚ) (w : ℚ) (hw : 0 ≤ w) :
    a ≤ a + (w : WithTop ℚ) := by
  have : (0 : WithTop ℚ) ≤ (w : WithTop ℚ) := by exact_mod_cast hw
  calc a = a + 0 := (add_zero a).symm
    _ ≤ a + (w : WithTop ℚ) := add_le_add_left this a

theorem DInv.keep_update {E : List (Nat × List (Nat × ℚ))} {s : Nat} {curr : Nat}
    {e : Nat × ℚ} {rest : List (Nat × ℚ)} {st : gstate} (hwf : EdgesWF E) (hnn : NonnegE E)
    (hg : GInv E s true curr (e :: rest) st)
    (h : DInv E curr (e :: rest) st) (hnv : e.1 ∉ st.visited)
    (hlt : gcand true st.tbl curr e.2 < gmet st.tbl e.1) :
    DInv E curr rest
      { tbl := UMap.update st.tbl e.1 (fun _ => (curr, gcand true st.tbl curr e.2))
        pq := pq_push st.pq (gcand true st.tbl curr e.2, e.1)
        visited := st.visited } := by
  have hcv : curr ∈ st.visited := hg.curr_vis (List.cons_ne_nil _ _)
  have hedge : IsEdge E curr e.1 e.2 := hg.todo_edges e (List.mem_cons_self _ _)
  have hcE : UMap.contains E e.1 = true := hedge.contains_right hwf
  have hct : UMap.contains st.tbl e.1 = true := by rw [hg.keys]; exact hcE
  have hne_vis : ∀ v ∈ st.visited, e.1 ≠ v := fun v hv c => hnv (c ▸ hv)
  have hmet : ∀ v, gmet (UMap.update st.tbl e.1 (fun _ => (curr, gcand true st.tbl curr e.2))) v
      = if e.1 = v then gcand true st.tbl curr e.2 else gmet st.tbl v :=
    fun v => gmet_update st.tbl e.1 v curr _ hct
  have hmet_vis : ∀ v ∈ st.visited,
      gmet (UMap.update st.tbl e.1 (fun _ => (curr, gcand true st.tbl curr e.2))) v
        = gmet st.tbl v := fun v hv => by rw [hmet, if_neg (hne_vis v hv)]
  have hmet_le : ∀ v,
      gmet (UMap.update st.tbl e.1 (fun _ => (curr, gcand true st.tbl curr e.2))) v
        ≤ gmet st.tbl v := by
    intro v
    rw [hmet]
    split
    · rename_i hv; subst hv; exact le_of_lt hlt
    · exact le_refl _
  have hcand : gcand true st.tbl curr e.2 = gmet st.tbl curr + (e.2 : WithTop ℚ) := by
    unfold gcand; simp
  refine { mono := ?_, relaxed := ?_, curr_max := ?_ }
  · intro v hv e' he'
    dsimp only at hv he' ⊢
    rw [hmet_vis v hv]
    rcases List.mem_cons.mp he' with rfl | he'
    · dsimp only
      rw [hcand]
      exact le_trans (h.curr_max (List.cons_ne_nil _ _) v hv)
        (le_add_coe_of_nonneg _ _ (hnn _ _ _ hedge))
    · exact h.mono v hv e' he'
  · intro v hv u w huw
    dsimp only at hv ⊢
    rw [hmet_vis v hv]
    rcases h.relaxed v hv u w huw with ⟨rfl, hmem⟩ | h'
    · rcases List.mem_cons.mp hmem with heq | hmem
      · subst heq
        right
        rw [hmet, if_pos rfl, hcand]
      · exact Or.inl ⟨rfl, hmem⟩
    · exact Or.inr (le_trans (hmet_le u) h')
  · intro _ u hu
    dsimp only at hu ⊢
    rw [hmet_vis u hu, hmet_vis curr hcv]
    exact h.curr_max (List.cons_ne_nil _ _) u hu

theorem FInv.relax {E : List (Nat × List (Nat × ℚ))} {s : Nat} {cum : Bool} {curr : Nat}
    {e : Nat × ℚ} {rest : List (Nat × ℚ)} {st : gstate} (hwf : EdgesWF E)
    (h : FInv E s cum curr (e :: rest) st) :
    ∃ st', gen_relax cum curr e st = .ok st' ∧ FInv E s cum curr rest st' ∧
      st'.visited = st.visited ∧ st'.pq.length ≤ st.pq.length + 1 := by
  obtain ⟨hg, hd⟩ := h
  have hcv : curr ∈ st.visited := hg.curr_vis (List.cons_ne_nil _ _)
  have hedge : IsEdge E curr e.1 e.2 := hg.todo_edges e (List.mem_cons_self _ _)
  have hcE : UMap.contains E e.1 = true := hedge.contains_right hwf
  have hct : UMap.contains st.tbl e.1 = true := by rw [hg.keys]; exact hcE
  have hcc : UMap.contains st.tbl curr = true := by rw [hg.keys]; exact hg.vis_sub curr hcv
  unfold gen_relax
  by_cases hv : e.1 ∈ st.visited
  · rw [if_pos hv]
    refine ⟨st, rfl, ⟨hg.relax_skip (Or.inl hv), fun hc hnn => ?_⟩, rfl, Nat.le_succ _⟩
    exact (hd hc hnn).keep_skip
      (le_trans ((hd hc hnn).curr_max (List.cons_ne_nil _ _) e.1 hv)
        (le_add_coe_of_nonneg _ _ (hnn _ _ _ hedge)))
  · rw [if_neg hv, gen_cand_eq cum st.tbl curr e.2 hcc]
    obtain ⟨d, hd'⟩ := Option.isSome_iff_exists.mp hct
    have hat : UMap.at_ st.tbl e.1 = .ok d := by unfold UMap.at_; rw [hd']
    have hmd : gmet st.tbl e.1 = d.2 := gmet_of_find _ _ _ hd'
    simp only [hat]
    rw [← hmd]
    by_cases hlt : gcand cum st.tbl curr e.2 < gmet st.tbl e.1
    · rw [if_pos hlt]
      refine ⟨_, rfl, ⟨hg.relax_update hwf hv hlt, fun hc hnn => ?_⟩, rfl, by simp [pq_push]⟩
      subst hc
      exact (hd rfl hnn).keep_update hwf hnn hg hv hlt
    · rw [if_neg hlt]
      refine ⟨st, rfl, ⟨hg.relax_skip (Or.inr (not_lt.mp hlt)), fun hc hnn => ?_⟩, rfl,
        Nat.le_succ _⟩
      subst hc
      have : gcand true st.tbl curr e.2 = gmet st.tbl curr + (e.2 : WithTop ℚ) := by
        unfold gcand; simp
      exact (hd rfl hnn).keep_skip (this ▸ not_lt.mp hlt)

theorem FInv.neighbors {E : List (Nat × List (Nat × ℚ))} {s : Nat} {cum : Bool} {curr : Nat}
    (hwf : EdgesWF E) (todo : List (Nat × ℚ)) (st : gstate)
    (h : FInv E s cum curr todo st) :
    ∃ st', gen_neighbors cum curr todo st = .ok st' ∧ FInv E s cum curr [] st' ∧
      st'.visited = st.visited ∧ st'.pq.length ≤ st.pq.length + todo.length := by
  induction todo generalizing st with
  | nil => exact ⟨st, rfl, h, rfl, Nat.le_refl _⟩
  | cons e rest ih =>
    obtain ⟨st₁, h1, h2, h3, h4⟩ := h.relax hwf
    obtain ⟨st₂, h5, h6, h7, h8⟩ := ih st₁ h2
    refine ⟨st₂, ?_, h6, h7.trans h3, ?_⟩
    · unfold gen_neighbors
      rw [h1]
      exact h5
    · simp only [List.length_cons]
      omega

/-! ## The invariant is kept by the queue loop -/

theorem GInv.pop_skip {E : List (Nat × List (Nat × ℚ))} {s : Nat} {cum : Bool} {c : Nat}
    {st : gstate} {top : priority_data}
    (h : GInv E s cum c [] st) (hv : top.2 ∈ st.visited) :
    GInv E s cum c [] { tbl := st.tbl, pq := st.pq.erase top, visited := st.visited } where
  keys := h.keys
  vis_sub := h.vis_sub
  vis_nodup := h.vis_nodup
  pq_sub := fun e he => h.pq_sub e (List.mem_of_mem_erase he)
  src := h.src
  src_vis := by
    rcases h.src_vis with h' | ⟨h', _⟩
    · exact Or.inl h'
    · rw [h'] at hv; cases hv
  par_ok := h.par_ok
  unreached := h.unreached
  pq_complete := by
    intro v hvn hm
    have hne : (gmet st.tbl v, v) ≠ top := by
      rintro rfl
      exact hvn hv
    exact (List.mem_erase_of_ne hne).mpr (h.pq_complete v hvn hm)
  closed := h.closed
  todo_edges := h.todo_edges
  curr_vis := h.curr_vis
  par_before := h.par_before
  cut_min := h.cut_min

theorem DInv.keep_pop_skip {E : List (Nat × List (Nat × ℚ))} {c : Nat}
    {st : gstate} {top : priority_data} (h : DInv E c [] st) :
    DInv E c [] { tbl := st.tbl, pq := st.pq.erase top, visited := st.visited } where
  mono := fun v hv e he => h.mono v hv e (List.mem_of_mem_erase he)
  relaxed := h.relaxed
  curr_max := h.curr_max

theorem GInv.pop_visit {E : List (Nat × List (Nat × ℚ))} {s : Nat} {cum : Bool} {c : Nat}
    {st : gstate} {top : priority_data} {adj : List (Nat × ℚ)} (hwf : EdgesWF E)
    (h : GInv E s cum c [] st) (htop : top ∈ st.pq) (hmin : ∀ y ∈ st.pq, top.1 ≤ y.1)
    (hv : top.2 ∉ st.visited) (hadj : UMap.find E top.2 = some adj) :
    GInv E s cum top.2 adj
      { tbl := st.tbl, pq := st.pq.erase top, visited := top.2 :: st.visited } := by
  obtain ⟨ht1, ht2, ht3⟩ := h.pq_sub top htop
  have hfin : gmet st.tbl top.2 ≠ ⊤ := fun hc => ht2 (top_le_iff.mp (hc ▸ ht3))
  refine
    { keys := h.keys, vis_sub := ?_, vis_nodup := List.nodup_cons.mpr ⟨hv, h.vis_nodup⟩,
      pq_sub := fun e he => h.pq_sub e (List.mem_of_mem_erase he), src := h.src,
      src_vis := ?_, par_ok := ?_, unreached := ?_, pq_complete := ?_, closed := ?_,
      todo_edges := fun e he => IsEdge.of_mem hwf hadj e he,
      curr_vis := fun _ => List.mem_cons_self _ _, par_before := ?_, cut_min := ?_ }
  · intro v hv'
    rcases List.mem_cons.mp hv' with rfl | hv'
    · exact ht1
    · exact h.vis_sub v hv'
  · left
    rcases h.src_vis with h' | ⟨_, h'⟩
    · exact List.mem_cons_of_mem _ h'
    · rw [h', List.mem_singleton] at htop
      rw [htop]
      exact List.mem_cons_self _ _
  · intro v hvs hm
    obtain ⟨h1, h2⟩ := h.par_ok v hvs hm
    exact ⟨List.mem_cons_of_mem _ h1, h2⟩
  · intro v hm
    obtain ⟨h1, h2⟩ := h.unreached v hm
    refine ⟨?_, h2⟩
    intro hc
    rcases List.mem_cons.mp hc with rfl | hc
    · exact hfin hm
    · exact h1 hc
  · intro v hvn hm
    dsimp only at hvn ⊢
    have hvn' : v ∉ st.visited := fun hc => hvn (List.mem_cons_of_mem _ hc)
    have hne : (gmet st.tbl v, v) ≠ top := by
      rintro rfl
      exact hvn (List.mem_cons_self _ _)
    exact (List.mem_erase_of_ne hne).mpr (h.pq_complete v hvn' hm)
  · intro v hv' u w huw
    dsimp only at hv' ⊢
    rcases List.mem_cons.mp hv' with rfl | hv'
    · exact Or.inl ⟨rfl, huw.mem hadj⟩
    · rcases h.closed v hv' u w huw with ⟨_, hmem⟩ | h' | h'
      · cases hmem
      · exact Or.inr (Or.inl (List.mem_cons_of_mem _ h'))
      · exact Or.inr (Or.inr h')
  · intro l₁ v l₂ hl hvs
    dsimp only at hl ⊢
    cases l₁ with
    | nil =>
      simp only [List.nil_append, List.cons.injEq] at hl
      obtain ⟨rfl, rfl⟩ := hl
      exact (h.par_ok _ hvs hfin).1
    | cons a l₁' =>
      simp only [List.cons_append, List.cons.injEq] at hl
      exact h.par_before l₁' v l₂ hl.2 hvs
  · intro hc l₁ v l₂ hl hvs x hx u w huw hu
    dsimp only at hl ⊢
    cases l₁ with
    | nil =>
      simp only [List.nil_append, List.cons.injEq] at hl
      obtain ⟨rfl, rfl⟩ := hl
      rcases h.closed x hx u w huw with ⟨_, hmem⟩ | h' | h'
      · cases hmem
      · exact absurd h' hu
      · have hw : gcand cum st.tbl x w = (w : WithTop ℚ) := by
          unfold gcand; simp [hc]
        rw [hw] at h'
        have hfu : gmet st.tbl u ≠ ⊤ := fun hc' =>
          WithTop.coe_ne_top (top_le_iff.mp (hc' ▸ h'))
        have := hmin _ (h.pq_complete u hu hfu)
        exact le_trans ht3 (le_trans this h')
    | cons a l₁' =>
      simp only [List.cons_append, List.cons.injEq] at hl
      exact h.cut_min hc l₁' v l₂ hl.2 hvs x hx u w huw hu

theorem DInv.keep_pop_visit {E : List (Nat × List (Nat × ℚ))} {s : Nat} {c : Nat}
    {st : gstate} {top : priority_data} {adj : List (Nat × ℚ)}
    (hg : GInv E s true c [] st) (h : DInv E c [] st)
    (htop : top ∈ st.pq) (hmin : ∀ y ∈ st.pq, top.1 ≤ y.1)
    (hv : top.2 ∉ st.visited) (hadj : UMap.find E top.2 = some adj) :
    DInv E top.2 adj
      { tbl := st.tbl, pq := st.pq.erase top, visited := top.2 :: st.visited } := by
  obtain ⟨ht1, ht2, ht3⟩ := hg.pq_sub top htop
  have hfin : gmet st.tbl top.2 ≠ ⊤ := fun hc => ht2 (top_le_iff.mp (hc ▸ ht3))
  have hkey : top.1 ≤ gmet st.tbl top.2 := hmin _ (hg.pq_complete top.2 hv hfin)
  refine { mono := ?_, relaxed := ?_, curr_max := ?_ }
  · intro v hv' e he
    dsimp only at hv' he ⊢
    have he' : e ∈ st.pq := List.mem_of_mem_erase he
    rcases List.mem_cons.mp hv' with rfl | hv'
    · exact le_trans ht3 (hmin e he')
    · exact h.mono v hv' e he'
  · intro v hv' u w huw
    dsimp only at hv' ⊢
    rcases List.mem_cons.mp hv' with rfl | hv'
    · exact Or.inl ⟨rfl, huw.mem hadj⟩
    · rcases h.relaxed v hv' u w huw with ⟨_, hmem⟩ | h'
      · cases hmem
      · exact Or.inr h'
  · intro _ u hu
    dsimp only at hu ⊢
    rcases List.mem_cons.mp hu with rfl | hu
    · exact le_refl _
    · exact le_trans (h.mono u hu top htop) hkey

theorem gweight_cons (k : Nat) (a : List (Nat × ℚ)) (rest : List (Nat × List (Nat × ℚ)))
    (visited : List Nat) :
    gweight ((k, a) :: rest) visited =
      (if k ∈ visited then 0 else a.length) + gweight rest visited := by
  unfold gweight
  by_cases h : k ∈ visited
  · simp [List.filter_cons, h]
  · simp [List.filter_cons, h]

theorem gweight_cons_le (E : List (Nat × List (Nat × ℚ))) (v : Nat) (visited : List Nat) :
    gweight E (v :: visited) ≤ gweight E visited := by
  induction E with
  | nil => simp [gweight]
  | cons e rest ih =>
    obtain ⟨k, a⟩ := e
    rw [gweight_cons, gweight_cons]
    by_cases h1 : k ∈ visited
    · rw [if_pos h1, if_pos (List.mem_cons_of_mem _ h1)]
      omega
    · rw [if_neg h1]
      split <;> omega

theorem gweight_visit (E : List (Nat × List (Nat × ℚ))) (v : Nat) (visited : List Nat)
    (adj : List (Nat × ℚ)) (hv : v ∉ visited) (hadj : UMap.find E v = some adj) :
    gweight E (v :: visited) + adj.length ≤ gweight E visited := by
  induction E with
  | nil => simp [UMap.find] at hadj
  | cons e rest ih =>
    obtain ⟨k, a⟩ := e
    rw [UMap.find_cons] at hadj
    rw [gweight_cons, gweight_cons]
    by_cases hk : k = v
    · subst hk
      rw [if_pos rfl] at hadj
      cases hadj
      have := gweight_cons_le rest k visited
      rw [if_pos (List.mem_cons_self _ _), if_neg hv]
      omega
    · rw [if_neg hk] at hadj
      have := ih hadj
      by_cases h1 : k ∈ visited
      · rw [if_pos h1, if_pos (List.mem_cons_of_mem _ h1)]
        omega
      · have h3 : k ∉ v :: visited := by
          simp only [List.mem_cons, not_or]; exact ⟨hk, h1⟩
        rw [if_neg h1, if_neg h3]
        omega

theorem FInv.loop {E : List (Nat × List (Nat × ℚ))} {s : Nat} {cum : Bool}
    (hwf : EdgesWF E) (tie : Nat → Nat) (fuel : Nat) (st : gstate) (c : Nat)
    (h : FInv E s cum c [] st) (hfuel : st.pq.length + gweight E st.visited < fuel) :
    ∃ st' c', gen_loop cum E tie fuel st = .ok st' ∧ FInv E s cum c' [] st' ∧ st'.pq = [] := by
  induction fuel generalizing st c with
  | zero => omega
  | succ fuel ih =>
    unfold gen_loop
    cases hpop : pq_pop (tie fuel) st.pq with
    | none => exact ⟨st, c, rfl, h, (pq_pop_eq_none _ _).mp hpop⟩
    | some r =>
      obtain ⟨top, pq'⟩ := r
      obtain ⟨htop, rfl, hmin⟩ := pq_pop_eq_some _ _ _ _ hpop
      have hlen : (st.pq.erase top).length + 1 = st.pq.length := by
        rw [List.length_erase_of_mem htop]
        have := List.length_pos_of_mem htop
        omega
      dsimp only
      by_cases hv : top.2 ∈ st.visited
      · rw [if_pos hv]
        apply ih _ c ⟨h.1.pop_skip hv, fun hc hnn => (h.2 hc hnn).keep_pop_skip⟩
        dsimp only
        omega
      · rw [if_neg hv]
        have hcE := (h.1.pq_sub top htop).1
        obtain ⟨adj, hadj⟩ := Option.isSome_iff_exists.mp hcE
        have hat : UMap.at_ E top.2 = .ok adj := by unfold UMap.at_; rw [hadj]
        simp only [hat]
        have hinv : FInv E s cum top.2 adj
            { tbl := st.tbl, pq := st.pq.erase top, visited := top.2 :: st.visited } := by
          refine ⟨h.1.pop_visit hwf htop hmin hv hadj, fun hc hnn => ?_⟩
          subst hc
          exact (h.2 rfl hnn).keep_pop_visit h.1 htop hmin hv hadj
        obtain ⟨st₁, h1, h2, h3, h4⟩ := hinv.neighbors hwf adj _
        rw [h1]
        dsimp only at h3 h4 ⊢
        apply ih st₁ top.2 h2
        have := gweight_visit E top.2 st.visited adj hv hadj
        rw [h3]
        omega

/-! ## The two traversals in the common form -/

theorem find_prim_tbl (r : List (Nat × prim_data)) (k : Nat) :
    UMap.find (prim_tbl r) k = (UMap.find r k).map (fun d => (d.parent, d.cost)) := by
  unfold prim_tbl
  rw [UMap.find_map_values r (fun e => (e.2.parent, e.2.cost)) k]

theorem find_dijkstra_tbl (r : List (Nat × dijkstra_data)) (k : Nat) :
    UMap.find (dijkstra_tbl r) k = (UMap.find r k).map (fun d => (d.parent, d.dist)) := by
  unfold dijkstra_tbl
  rw [UMap.find_map_values r (fun e => (e.2.parent, e.2.dist)) k]

theorem prim_tbl_update (r : List (Nat × prim_data)) (k p : Nat) (c : WithTop ℚ) :
    prim_tbl (UMap.update r k (fun _ => { parent := p, cost := c })) =
      UMap.update (prim_tbl r) k (fun _ => (p, c)) := by
  unfold prim_tbl UMap.update
  rw [List.map_map, List.map_map]
  apply List.map_congr_left
  intro e _
  by_cases h : e.1 = k <;> simp [h]

theorem dijkstra_tbl_update (r : List (Nat × dijkstra_data)) (k p : Nat) (c : WithTop ℚ) :
    dijkstra_tbl (UMap.update r k (fun _ => { parent := p, dist := c })) =
      UMap.update (dijkstra_tbl r) k (fun _ => (p, c)) := by
  unfold dijkstra_tbl UMap.update
  rw [List.map_map, List.map_map]
  apply List.map_congr_left
  intro e _
  by_cases h : e.1 = k <;> simp [h]

theorem at_prim_tbl (r : List (Nat × prim_data)) (k : Nat) :
    UMap.at_ (prim_tbl r) k = (UMap.at_ r k).map (fun d => (d.parent, d.cost)) := by
  unfold UMap.at_
  rw [find_prim_tbl]
  cases UMap.find r k <;> rfl

theorem at_dijkstra_tbl (r : List (Nat × dijkstra_data)) (k : Nat) :
    UMap.at_ (dijkstra_tbl r) k = (UMap.at_ r k).map (fun d => (d.parent, d.dist)) := by
  unfold UMap.at_
  rw [find_dijkstra_tbl]
  cases UMap.find r k <;> rfl

theorem prim_neighbors_sim (curr : Nat) (l : List (Nat × ℚ)) (st : prim_state) :
    (prim_neighbors curr l st).map prim_state.toG = gen_neighbors false curr l st.toG := by
  induction l generalizing st with
  | nil => rfl
  | cons e rest ih =>
    obtain ⟨dst, w⟩ := e
    unfold prim_neighbors gen_neighbors gen_relax gen_cand
    have hvis : st.toG.visited = st.visited := rfl
    have htbl : st.toG.tbl = prim_tbl st.prim_result := rfl
    by_cases hv : dst ∈ st.visited
    · simp only [hvis, hv, if_true]
      exact ih st
    · simp only [hvis, hv, if_false, htbl, at_prim_tbl, Bool.false_eq_true]
      cases hat : UMap.at_ st.prim_result dst with
      | error x => rfl
      | ok d =>
        simp only [Except.map]
        by_cases hlt : (w : WithTop ℚ) < d.cost
        · simp only [hlt, if_true]
          refine Eq.trans (ih _) ?_
          simp only [prim_state.toG, prim_tbl_update]
        · simp only [hlt, if_false]
          exact ih st

theorem dijkstra_neighbors_sim (curr : Nat) (l : List (Nat × ℚ)) (st : dijkstra_state) :
    (dijkstra_neighbors curr l st).map dijkstra_state.toG =
      gen_neighbors true curr l st.toG := by
  induction l generalizing st with
  | nil => rfl
  | cons e rest ih =>
    obtain ⟨dst, w⟩ := e
    unfold dijkstra_neighbors gen_neighbors gen_relax gen_cand
    have hvis : st.toG.visited = st.visited := rfl
    have htbl : st.toG.tbl = dijkstra_tbl st.dijkstra_result := rfl
    by_cases hv : dst ∈ st.visited
    · simp only [hvis, hv, if_true]
      exact ih st
    · simp only [hvis, hv, if_false, htbl, at_dijkstra_tbl, if_true]
      cases hc : UMap.at_ st.dijkstra_result curr with
      | error x => rfl
      | ok c =>
        simp only [Except.map]
        cases hat : UMap.at_ st.dijkstra_result dst with
        | error x => rfl
        | ok d =>
          simp only []
          by_cases hlt : c.dist + (w : WithTop ℚ) < d.dist
          · simp only [hlt, if_true]
            refine Eq.trans (ih _) ?_
            simp only [dijkstra_state.toG, dijkstra_tbl_update]
          · simp only [hlt, if_false]
            exact ih st

theorem prim_loop_sim (E : List (Nat × List (Nat × ℚ))) (tie : Nat → Nat) (fuel : Nat)
    (st : prim_state) :
    (prim_loop E tie fuel st).map prim_state.toG = gen_loop false E tie fuel st.toG := by
  induction fuel generalizing st with
  | zero => rfl
  | succ fuel ih =>
    unfold prim_loop gen_loop
    have hpq : st.toG.pq = st.pq := rfl
    have hvis : st.toG.visited = st.visited := rfl
    rw [hpq]
    cases hpop : pq_pop (tie fuel) st.pq with
    | none => rfl
    | some r =>
      obtain ⟨top, pq'⟩ := r
      simp only [hvis]
      by_cases hv : top.2 ∈ st.visited
      · simp only [hv, if_true]
        exact ih _
      · simp only [hv, if_false]
        cases hat : UMap.at_ E top.2 with
        | error x => rfl
        | ok nbrs =>
          simp only []
          have hs := prim_neighbors_sim top.2 nbrs
            { st with pq := pq', visited := top.2 :: st.visited }
          have htoG : prim_state.toG { st with pq := pq', visited := top.2 :: st.visited } =
              { tbl := st.toG.tbl, pq := pq', visited := top.2 :: st.visited } := rfl
          rw [htoG] at hs
          rw [← hs]
          cases hn : prim_neighbors top.2 nbrs
              { st with pq := pq', visited := top.2 :: st.visited } with
          | error x => rfl
          | ok st' =>
            simp only [Except.map]
            exact ih st'

theorem dijkstra_loop_sim (E : List (Nat × List (Nat × ℚ))) (tie : Nat → Nat) (fuel : Nat)
    (st : dijkstra_state) :
    (dijkstra_loop E tie fuel st).map dijkstra_state.toG =
      gen_loop true E tie fuel st.toG := by
  induction fuel generalizing st with
  | zero => rfl
  | succ fuel ih =>
    unfold dijkstra_loop gen_loop
    have hpq : st.toG.pq = st.pq := rfl
    have hvis : st.toG.visited = st.visited := rfl
    rw [hpq]
    cases hpop : pq_pop (tie fuel) st.pq with
    | none => rfl
    | some r =>
      obtain ⟨top, pq'⟩ := r
      simp only [hvis]
      by_cases hv : top.2 ∈ st.visited
      · simp only [hv, if_true]
        exact ih _
      · simp only [hv, if_false]
        cases hat : UMap.at_ E top.2 with
        | error x => rfl
        | ok nbrs =>
          simp only []
          have hs := dijkstra_neighbors_sim top.2 nbrs
            { st with pq := pq', visited := top.2 :: st.visited }
          have htoG : dijkstra_state.toG { st with pq := pq', visited := top.2 :: st.visited } =
              { tbl := st.toG.tbl, pq := pq', visited := top.2 :: st.visited } := rfl
          rw [htoG] at hs
          rw [← hs]
          cases hn : dijkstra_neighbors top.2 nbrs
              { st with pq := pq', visited := top.2 :: st.visited } with
          | error x => rfl
          | ok st' =>
            simp only [Except.map]
            exact ih st'

theorem prim_walk_sim (r : List (Nat × prim_data)) (fuel v : Nat) (stack : List Nat) :
    prim_walk r fuel v stack = gen_walk (prim_tbl r) fuel v stack := by
  induction fuel generalizing v stack with
  | zero => rfl
  | succ fuel ih =>
    unfold prim_walk gen_walk
    rw [at_prim_tbl]
    cases UMap.at_ r v with
    | error x => rfl
    | ok d =>
      simp only [Except.map]
      split
      · exact ih _ _
      · rfl

theorem dijkstra_walk_sim (r : List (Nat × dijkstra_data)) (fuel v : Nat) (stack : List Nat) :
    dijkstra_walk r fuel v stack = gen_walk (dijkstra_tbl r) fuel v stack := by
  induction fuel generalizing v stack with
  | zero => rfl
  | succ fuel ih =>
    unfold dijkstra_walk gen_walk
    rw [at_dijkstra_tbl]
    cases UMap.at_ r v with
    | error x => rfl
    | ok d =>
      simp only [Except.map]
      split
      · exact ih _ _
      · rfl

/-! ## The initial state -/

theorem contains_cons {V : Type} (k₀ k : Nat) (a : V) (rest : List (Nat × V)) :
    UMap.contains ((k₀, a) :: rest) k = (decide (k₀ = k) || UMap.contains rest k) := by
  unfold UMap.contains
  rw [UMap.find_cons]
  by_cases h : k₀ = k <;> simp [h]

theorem find_foldl_insert {α V : Type} (E : List (Nat × α)) (d : V) (acc : List (Nat × V))
    (k : Nat) :
    UMap.find (E.foldl (fun r v => UMap.insert r v.1 d) acc) k =
      if UMap.contains acc k then UMap.find acc k
      else if UMap.contains E k then some d else none := by
  induction E generalizing acc with
  | nil =>
    simp only [List.foldl_nil]
    by_cases h : UMap.contains acc k = true
    · rw [if_pos h]
    · rw [if_neg h]
      have : UMap.find acc k = none :=
        (UMap.contains_eq_false_iff acc k).mp (by simpa using h)
      rw [this]
      rfl
  | cons e rest ih =>
    obtain ⟨k₀, a⟩ := e
    simp only [List.foldl_cons]
    rw [ih, contains_cons]
    have hc : UMap.contains (UMap.insert acc k₀ d) k =
        (UMap.contains acc k || decide (k₀ = k)) := by
      unfold UMap.contains
      rw [UMap.find_insert]
      by_cases h1 : k₀ = k
      · subst h1
        cases hf : UMap.find acc k₀ <;> simp [UMap.contains, hf]
      · simp [h1]
    rw [hc]
    by_cases h : UMap.contains acc k = true
    · have hf : UMap.find (UMap.insert acc k₀ d) k = UMap.find acc k := by
        rw [UMap.find_insert]
        by_cases h1 : k₀ = k
        · subst h1
          rw [if_neg]
          rw [h]; simp
        · rw [if_neg (fun c => h1 c.1)]
      rw [h, Bool.true_or, if_pos rfl, if_pos rfl, hf]
    · have h' : UMap.contains acc k = false := by simpa using h
      rw [h', Bool.false_or]
      by_cases h1 : k₀ = k
      · subst h1
        have hf : UMap.find (UMap.insert acc k₀ d) k₀ = some d := by
          rw [UMap.find_insert, if_pos ⟨rfl, h'⟩]
        simp [hf]
      · simp [h1]


theorem prim_start_table (E : List (Nat × List (Nat × ℚ))) (s : Nat) :
    start_table E s (prim_tbl (prim_start E s)) := by
  intro k
  unfold prim_start prim_init
  rw [find_prim_tbl, UMap.find_update, UMap.find_update, find_foldl_insert]
  have hnil : UMap.contains ([] : List (Nat × prim_data)) k = false := rfl
  rw [hnil]
  by_cases hc : UMap.contains E k = true
  · by_cases hs : s = k
    · simp [hc, hs]
    · simp [hc, hs]
  · by_cases hs : s = k
    · simp [hc, hs]
    · simp [hc, hs]

theorem dijkstra_start_table (E : List (Nat × List (Nat × ℚ))) (s : Nat) :
    start_table E s (dijkstra_tbl (dijkstra_start E s)) := by
  intro k
  unfold dijkstra_start dijkstra_init
  rw [find_dijkstra_tbl, UMap.find_update, UMap.find_update, find_foldl_insert]
  have hnil : UMap.contains ([] : List (Nat × dijkstra_data)) k = false := rfl
  rw [hnil]
  by_cases hc : UMap.contains E k = true
  · by_cases hs : s = k
    · simp [hc, hs]
    · simp [hc, hs]
  · by_cases hs : s = k
    · simp [hc, hs]
    · simp [hc, hs]

theorem FInv.start {E : List (Nat × List (Nat × ℚ))} {s : Nat} (cum : Bool) (c : Nat)
    {tbl : List (Nat × (Nat × WithTop ℚ))} (ht : start_table E s tbl)
    (hs : UMap.contains E s = true) :
    FInv E s cum c [] { tbl := tbl, pq := pq_push [] (0, s), visited := [] } := by
  have hsrc : UMap.find tbl s = some (s, 0) := by rw [ht s, if_pos hs, if_pos rfl]
  have hmet : ∀ v, v ≠ s → gmet tbl v = ⊤ := by
    intro v hv
    unfold gmet
    rw [ht v]
    by_cases hc : UMap.contains E v = true
    · rw [if_pos hc, if_neg (fun c => hv c.symm)]
    · rw [if_neg hc]
  have hmets : gmet tbl s = 0 := gmet_of_find _ _ _ hsrc
  refine ⟨?_, fun _ _ => ?_⟩
  · refine
      { keys := ?_, vis_sub := ?_, vis_nodup := List.nodup_nil, pq_sub := ?_, src := hsrc,
        src_vis := Or.inr ⟨rfl, rfl⟩, par_ok := ?_, unreached := ?_, pq_complete := ?_,
        closed := ?_, todo_edges := ?_, curr_vis := fun h => absurd rfl h,
        par_before := ?_, cut_min := ?_ }
    · intro k
      dsimp only
      unfold UMap.contains
      rw [ht k]
      by_cases hc : UMap.contains E k = true
      · rw [if_pos hc]
        unfold UMap.contains at hc
        rw [hc]; rfl
      · rw [if_neg hc]
        unfold UMap.contains at hc
        simp only [Bool.not_eq_true] at hc
        rw [hc]; rfl
    · intro v hv; cases hv
    · intro e he
      unfold pq_push at he
      rw [List.mem_singleton] at he
      subst he
      dsimp only
      refine ⟨hs, WithTop.zero_ne_top, ?_⟩
      rw [hmets]
    · intro v hv hm
      exact absurd (hmet v hv) hm
    · intro v hm
      dsimp only at hm ⊢
      refine ⟨List.not_mem_nil _, fun hc => ?_⟩
      have hvs : s ≠ v := by
        rintro rfl
        rw [hmets] at hm
        exact WithTop.zero_ne_top hm
      rw [ht v, if_pos hc, if_neg hvs]
    · intro v _ hm
      dsimp only at hm ⊢
      have hvs : v = s := by
        by_contra hne
        exact hm (hmet v hne)
      subst hvs
      rw [hmets]
      exact List.mem_cons_self _ _
    · intro v hv; cases hv
    · intro e he; cases he
    · intro l₁ v l₂ hl
      dsimp only at hl
      cases l₁ <;> cases hl
    · intro _ l₁ v l₂ hl
      dsimp only at hl
      cases l₁ <;> cases hl
  · exact
      { mono := fun v hv => by cases hv
        relaxed := fun v hv => by cases hv
        curr_max := fun h => absurd rfl h }

theorem foldl_edge_count (E : List (Nat × List (Nat × ℚ))) (n : Nat) :
    E.foldl (fun count lst => count + lst.2.length) n = n + gweight E [] := by
  induction E generalizing n with
  | nil => simp [gweight]
  | cons e rest ih =>
    obtain ⟨k, a⟩ := e
    rw [List.foldl_cons, ih, gweight_cons, if_neg (List.not_mem_nil _)]
    dsimp only
    omega

theorem edge_count_eq_gweight (g : Graph) : g.edge_count = gweight g.edges [] := by
  unfold Graph.edge_count
  rw [foldl_edge_count]
  omega

/-- The queue loop of the common form returns, with an empty queue and the
invariant, when started with more fuel than one plus the number of edges. -/
theorem gen_run {E : List (Nat × List (Nat × ℚ))} {s : Nat} (cum : Bool) (hwf : EdgesWF E)
    (hs : UMap.contains E s = true) {tbl : List (Nat × (Nat × WithTop ℚ))}
    (ht : start_table E s tbl) (tie : Nat → Nat) (fuel : Nat)
    (hfuel : gweight E [] + 1 < fuel) :
    ∃ st c, gen_loop cum E tie fuel { tbl := tbl, pq := pq_push [] (0, s), visited := [] }
        = .ok st ∧ FInv E s cum c [] st ∧ st.pq = [] := by
  have h0 := FInv.start cum 0 ht hs
  obtain ⟨st', c', h1, h2, h3⟩ := h0.loop hwf tie fuel _ 0 (by
    dsimp only [pq_push]
    simp only [List.length_singleton]
    omega)
  exact ⟨st', c', h1, h2, h3⟩

theorem Graph.WF.edgesWF {g : Graph} (h : g.WF) : EdgesWF g.edges := h

/-- The method `prim` returns on every well-formed graph and present source,
given enough fuel; the table it leaves is the final table of the queue loop. -/
theorem prim_run (g : Graph) (hwf : g.WF) (s : Nat) (hs : g.contains_vertex s = true)
    (fuel : Nat) (tie : Nat → Nat) (hfuel : g.edge_count + 1 < fuel) :
    ∃ g' st c, g.prim fuel tie s = .ok g' ∧ g'.edges = g.edges ∧
      g'.dijkstra_result = g.dijkstra_result ∧ prim_tbl g'.prim_result = st.tbl ∧
      FInv g.edges s false c [] st ∧ st.pq = [] := by
  rw [edge_count_eq_gweight] at hfuel
  obtain ⟨st, c, h1, h2, h3⟩ :=
    gen_run false hwf.edgesWF hs (prim_start_table g.edges s) tie fuel hfuel
  have hsim := prim_loop_sim g.edges tie fuel
    { prim_result := prim_start g.edges s, pq := pq_push [] (0, s), visited := [] }
  have htoG : prim_state.toG
      { prim_result := prim_start g.edges s, pq := pq_push [] (0, s), visited := [] } =
      { tbl := prim_tbl (prim_start g.edges s), pq := pq_push [] (0, s), visited := [] } := rfl
  rw [htoG, h1] at hsim
  cases hl : prim_loop g.edges tie fuel
      { prim_result := prim_start g.edges s, pq := pq_push [] (0, s), visited := [] } with
  | error x => rw [hl] at hsim; cases hsim
  | ok pst =>
    rw [hl] at hsim
    simp only [Except.map, Except.ok.injEq] at hsim
    have hinit : ∃ d, UMap.at_ (prim_init g.edges) s = .ok d := by
      unfold UMap.at_ prim_init
      rw [find_foldl_insert]
      have : UMap.contains g.edges s = true := hs
      rw [this]
      exact ⟨_, rfl⟩
    obtain ⟨d, hd⟩ := hinit
    refine ⟨{ g with prim_result := pst.prim_result }, st, c, ?_, rfl, rfl, ?_, h2, h3⟩
    · unfold Graph.prim
      simp only [hs, Bool.not_true, Bool.false_eq_true, if_false, hd, hl]
    · rw [← hsim]; rfl

/-- The method `dijkstra` returns on every well-formed graph and present
source, given enough fuel; the table it leaves is the final table of the queue
loop. -/
theorem dijkstra_run (g : Graph) (hwf : g.WF) (s : Nat) (hs : g.contains_vertex s = true)
    (fuel : Nat) (tie : Nat → Nat) (hfuel : g.edge_count + 1 < fuel) :
    ∃ g' st c, g.dijkstra fuel tie s = .ok g' ∧ g'.edges = g.edges ∧
      g'.prim_result = g.prim_result ∧ dijkstra_tbl g'.dijkstra_result = st.tbl ∧
      FInv g.edges s true c [] st ∧ st.pq = [] := by
  rw [edge_count_eq_gweight] at hfuel
  obtain ⟨st, c, h1, h2, h3⟩ :=
    gen_run true hwf.edgesWF hs (dijkstra_start_table g.edges s) tie fuel hfuel
  have hsim := dijkstra_loop_sim g.edges tie fuel
    { dijkstra_result := dijkstra_start g.edges s, pq := pq_push [] (0, s), visited := [] }
  have htoG : dijkstra_state.toG
      { dijkstra_result := dijkstra_start g.edges s, pq := pq_push [] (0, s), visited := [] } =
      { tbl := dijkstra_tbl (dijkstra_start g.edges s), pq := pq_push [] (0, s),
        visited := [] } := rfl
  rw [htoG, h1] at hsim
  cases hl : dijkstra_loop g.edges tie fuel
      { dijkstra_result := dijkstra_start g.edges s, pq := pq_push [] (0, s),
        visited := [] } with
  | error x => rw [hl] at hsim; cases hsim
  | ok pst =>
    rw [hl] at hsim
    simp only [Except.map, Except.ok.injEq] at hsim
    have hinit : ∃ d, UMap.at_ (dijkstra_init g.edges) s = .ok d := by
      unfold UMap.at_ dijkstra_init
      rw [find_foldl_insert]
      have : UMap.contains g.edges s = true := hs
      rw [this]
      exact ⟨_, rfl⟩
    obtain ⟨d, hd⟩ := hinit
    refine ⟨{ g with dijkstra_result := pst.dijkstra_result }, st, c, ?_, rfl, rfl, ?_, h2, h3⟩
    · unfold Graph.dijkstra
      simp only [hs, Bool.not_true, Bool.false_eq_true, if_false, hd, hl]
    · rw [← hsim]; rfl

/-! ## Edges and walks of the graph -/

namespace Graph

theorem isEdge_iff (g : Graph) (hwf : g.WF) (u v : Nat) (w : ℚ) :
    IsEdge g.edges u v w ↔ g.contains_edge u v = true ∧ g.cost u v = (w : WithTop ℚ) := by
  constructor
  · intro h
    have hv : g.contains_vertex v = true := h.contains_right hwf.edgesWF
    obtain ⟨adj, h1, h2⟩ := h
    exact ⟨(contains_edge_iff g u v).mpr ⟨hv, adj, h1, by simp [UMap.contains, h2]⟩,
      cost_eq_of_find g u v adj w hv h1 h2⟩
  · rintro ⟨h1, h2⟩
    obtain ⟨hv, adj, h3, h4⟩ := (contains_edge_iff g u v).mp h1
    obtain ⟨w', h5⟩ := Option.isSome_iff_exists.mp h4
    have := cost_eq_of_find g u v adj w' hv h3 h5
    rw [h2] at this
    have hw : w = w' := by exact_mod_cast this
    subst hw
    exact ⟨adj, h3, h5⟩

theorem exists_isEdge (g : Graph) (u v : Nat) (h : g.contains_edge u v = true) :
    ∃ w, IsEdge g.edges u v w := by
  obtain ⟨_, adj, h3, h4⟩ := (contains_edge_iff g u v).mp h
  obtain ⟨w', h5⟩ := Option.isSome_iff_exists.mp h4
  exact ⟨w', adj, h3, h5⟩

theorem contains_vertex_of_edge (g : Graph) (u v : Nat) (h : g.contains_edge u v = true) :
    g.contains_vertex u = true ∧ g.contains_vertex v = true := by
  obtain ⟨hv, adj, h3, _⟩ := (contains_edge_iff g u v).mp h
  refine ⟨?_, hv⟩
  unfold contains_vertex UMap.contains
  rw [h3]; rfl

theorem is_walk_snoc (g : Graph) (p : List Nat) (u v : Nat) :
    g.is_walk (p ++ [u, v]) ↔ g.is_walk (p ++ [u]) ∧ g.contains_edge u v = true := by
  induction p with
  | nil =>
    simp only [List.nil_append, is_walk]
    constructor
    · intro h; exact ⟨(contains_vertex_of_edge g u v h.1).1, h.1⟩
    · intro h; exact ⟨h.2, (contains_vertex_of_edge g u v h.2).2⟩
  | cons a rest ih =>
    cases rest with
    | nil =>
      simp only [List.nil_append, List.cons_append, is_walk] at ih ⊢
      rw [ih]
      exact and_assoc.symm
    | cons b rest' =>
      have ih' : g.is_walk (b :: (rest' ++ [u, v])) ↔
          g.is_walk (b :: (rest' ++ [u])) ∧ g.contains_edge u v = true := ih
      show (g.contains_edge a b = true ∧ g.is_walk (b :: (rest' ++ [u, v]))) ↔
        (g.contains_edge a b = true ∧ g.is_walk (b :: (rest' ++ [u]))) ∧ _
      rw [ih']
      exact and_assoc.symm

theorem walk_cost_snoc (g : Graph) (p : List Nat) (u v : Nat) :
    g.walk_cost (p ++ [u, v]) = g.walk_cost (p ++ [u]) + g.cost u v := by
  induction p with
  | nil => simp [walk_cost]
  | cons a rest ih =>
    cases rest with
    | nil =>
      show g.cost a u + (g.cost u v + 0) = g.cost a u + 0 + g.cost u v
      rw [add_zero, add_zero]
    | cons b rest' =>
      have ih' : g.walk_cost (b :: (rest' ++ [u, v])) =
          g.walk_cost (b :: (rest' ++ [u])) + g.cost u v := ih
      show g.cost a b + g.walk_cost (b :: (rest' ++ [u, v])) =
        g.cost a b + g.walk_cost (b :: (rest' ++ [u])) + g.cost u v
      rw [ih', add_assoc]

theorem walk_cost_ne_top (g : Graph) (p : List Nat) (h : g.is_walk p) :
    g.walk_cost p ≠ ⊤ := by
  induction p with
  | nil => cases h
  | cons a rest ih =>
    cases rest with
    | nil => simp [walk_cost]
    | cons b rest' =>
      simp only [is_walk] at h
      simp only [walk_cost]
      obtain ⟨w, hw⟩ := exists_isEdge g a b h.1
      obtain ⟨adj, h1, h2⟩ := hw
      have := cost_eq_of_find g a b adj w (contains_vertex_of_edge g a b h.1).2 h1 h2
      rw [this]
      exact WithTop.add_ne_top.mpr ⟨WithTop.coe_ne_top, ih h.2⟩

theorem head?_snoc2 (p : List Nat) (u v : Nat) : (p ++ [u, v]).head? = (p ++ [u]).head? := by
  cases p <;> rfl

theorem directed_path_single (g : Graph) (s v : Nat) (h : g.directed_path s v [v]) : v = s := by
  have := h.1
  simp only [List.head?_cons, Option.some.injEq] at this
  exact this

theorem directed_path_snoc (g : Graph) (s u v : Nat) (p : List Nat) :
    g.directed_path s v (p ++ [u, v]) ↔
      g.directed_path s u (p ++ [u]) ∧ g.contains_edge u v = true := by
  unfold directed_path
  rw [head?_snoc2, is_walk_snoc]
  have h1 : (p ++ [u, v]).getLast? = some v := by
    rw [show p ++ [u, v] = (p ++ [u]) ++ [v] by simp]
    exact List.getLast?_concat _
  have h2 : (p ++ [u]).getLast? = some u := List.getLast?_concat _
  simp only [h1, h2, true_and]
  exact and_assoc.symm

end Graph

/-! ## The final state -/

theorem GInv.visited_iff {E : List (Nat × List (Nat × ℚ))} {s : Nat} {cum : Bool} {c : Nat}
    {todo : List (Nat × ℚ)} {st : gstate} (h : GInv E s cum c todo st) (hpq : st.pq = [])
    (v : Nat) : v ∈ st.visited ↔ gmet st.tbl v ≠ ⊤ := by
  constructor
  · intro hv hm
    exact (h.unreached v hm).1 hv
  · intro hm
    by_contra hv
    have := h.pq_complete v hv hm
    rw [hpq] at this
    cases this

theorem GInv.source_visited {E : List (Nat × List (Nat × ℚ))} {s : Nat} {cum : Bool} {c : Nat}
    {todo : List (Nat × ℚ)} {st : gstate} (h : GInv E s cum c todo st) (hpq : st.pq = []) :
    s ∈ st.visited := by
  rcases h.src_vis with h' | ⟨_, h'⟩
  · exact h'
  · rw [hpq] at h'; cases h'

theorem gcand_ne_top (cum : Bool) (tbl : List (Nat × (Nat × WithTop ℚ))) (u : Nat) (w : ℚ)
    (h : gmet tbl u ≠ ⊤) : gcand cum tbl u w ≠ ⊤ := by
  unfold gcand
  cases cum
  · simp
  · simp only [if_true]
    exact WithTop.add_ne_top.mpr ⟨h, WithTop.coe_ne_top⟩

theorem GInv.edge_closed {E : List (Nat × List (Nat × ℚ))} {s : Nat} {cum : Bool} {c : Nat}
    {st : gstate} (h : GInv E s cum c [] st) (hpq : st.pq = []) {u v : Nat} {w : ℚ}
    (hu : u ∈ st.visited) (he : IsEdge E u v w) : v ∈ st.visited := by
  rcases h.closed u hu v w he with ⟨_, hmem⟩ | h' | h'
  · cases hmem
  · exact h'
  · rw [h.visited_iff hpq]
    intro hm
    rw [hm, top_le_iff] at h'
    exact gcand_ne_top cum st.tbl u w ((h.visited_iff hpq u).mp hu) h'

theorem GInv.reach_visited {g : Graph} {s : Nat} {cum : Bool} {c : Nat}
    {st : gstate} (h : GInv g.edges s cum c [] st) (hpq : st.pq = []) (p : List Nat) :
    ∀ v, g.directed_path s v p → v ∈ st.visited := by
  induction p using List.reverseRecOn with
  | nil => intro v hp; cases hp.2.2
  | append_singleton p' v' ih =>
    intro v hp
    have hv : v' = v := by
      have := hp.2.1
      rw [List.getLast?_concat] at this
      exact Option.some.inj this
    subst hv
    induction p' using List.reverseRecOn with
    | nil =>
      have := Graph.directed_path_single g s v' hp
      rw [this]
      exact h.source_visited hpq
    | append_singleton p'' u _ =>
      rw [List.append_assoc] at hp
      obtain ⟨hp', he⟩ := (Graph.directed_path_snoc g s u v' p'').mp hp
      obtain ⟨w, hw⟩ := Graph.exists_isEdge g u v' he
      exact h.edge_closed hpq (ih u hp') hw

/-- The parent walk from a visited vertex returns the stack extended by a
simple directed path from the source, whose vertices were all visited earlier;
for Dijkstra the cost of the path is the recorded distance. -/
theorem gen_walk_path {g : Graph} (hwf : g.WF) {s : Nat} {cum : Bool} {c : Nat}
    {todo : List (Nat × ℚ)} {st : gstate} (h : GInv g.edges s cum c todo st) (fuel : Nat) :
    ∀ (l₁ : List Nat) (v : Nat) (l₂ : List Nat) (stack : List Nat),
      st.visited = l₁ ++ v :: l₂ → l₂.length < fuel →
      ∃ q, gen_walk st.tbl fuel v (v :: stack) = .ok (q ++ v :: stack) ∧
        g.directed_path s v (q ++ [v]) ∧ (∀ x ∈ q, x ∈ l₂) ∧ (q ++ [v]).Nodup ∧
        (cum = true → g.walk_cost (q ++ [v]) = gmet st.tbl v) := by
  induction fuel with
  | zero => intro _ _ _ _ _ hlt; omega
  | succ fuel ih =>
    intro l₁ v l₂ stack hl hlt
    have hvv : v ∈ st.visited := by
      rw [hl]; exact List.mem_append_right _ (List.mem_cons_self _ _)
    have hvE : UMap.contains g.edges v = true := h.vis_sub v hvv
    have hvt : UMap.contains st.tbl v = true := by rw [h.keys]; exact hvE
    obtain ⟨d, hd⟩ := Option.isSome_iff_exists.mp hvt
    have hat : UMap.at_ st.tbl v = .ok d := by unfold UMap.at_; rw [hd]
    have hpar : gpar st.tbl v = d.1 := gpar_of_find _ _ _ hd
    have hnd : (l₁ ++ v :: l₂).Nodup := hl ▸ h.vis_nodup
    have hvl₂ : v ∉ l₂ := by
      have := (List.nodup_append.mp hnd).2.1
      exact (List.nodup_cons.mp this).1
    unfold gen_walk
    simp only [hat]
    by_cases hvs : v = s
    · subst hvs
      rw [h.src] at hd
      cases hd
      refine ⟨[], by simp, ?_, by simp, by simp, fun _ => ?_⟩
      · exact ⟨rfl, rfl, hvE⟩
      · rw [gmet_of_find _ _ _ h.src]
        rfl
    · have hp := h.par_before l₁ v l₂ hl hvs
      rw [hpar] at hp
      have hne : d.1 ≠ v := fun hc => hvl₂ (hc ▸ hp)
      have hfin : gmet st.tbl v ≠ ⊤ := fun hm => (h.unreached v hm).1 hvv
      obtain ⟨_, w, hw1, hw2⟩ := h.par_ok v hvs hfin
      rw [hpar] at hw1 hw2
      obtain ⟨a, b, hab⟩ := List.append_of_mem hp
      have hl' : st.visited = (l₁ ++ v :: a) ++ d.1 :: b := by
        rw [hl, hab]; simp
      have hblt : b.length < fuel := by
        have : l₂.length = a.length + (b.length + 1) := by rw [hab]; simp
        omega
      obtain ⟨q', h1, h2, h3, h4, h5⟩ := ih (l₁ ++ v :: a) d.1 b (v :: stack) hl' hblt
      have hedge := (Graph.isEdge_iff g hwf d.1 v w).mp hw1
      have hq'l₂ : ∀ x ∈ q' ++ [d.1], x ∈ l₂ := by
        intro x hx
        rcases List.mem_append.mp hx with hx | hx
        · rw [hab]
          exact List.mem_append_right _ (List.mem_cons_of_mem _ (h3 x hx))
        · rw [List.mem_singleton] at hx
          rw [hx]; exact hp
      refine ⟨q' ++ [d.1], ?_, ?_, hq'l₂, ?_, fun hc => ?_⟩
      · have : (d.1 != v) = true := by simpa using hne
        rw [if_pos this, h1]
        simp
      · rw [List.append_assoc]
        exact (Graph.directed_path_snoc g s d.1 v q').mpr ⟨h2, hedge.1⟩
      · rw [List.nodup_append]
        refine ⟨h4, List.nodup_singleton v, ?_⟩
        intro x hx hx'
        rw [List.mem_singleton] at hx'
        subst hx'
        exact hvl₂ (hq'l₂ x hx)
      · rw [List.append_assoc]
        show g.walk_cost (q' ++ [d.1, v]) = _
        rw [Graph.walk_cost_snoc, h5 hc, hedge.2, hw2]
        unfold gcand
        simp [hc]

/-! ## Prim: the vertices reached -/

theorem is_path_iff_tbl (g : Graph) (v : Nat) :
    g.is_path v = true ↔
      ∃ e, UMap.find (prim_tbl g.prim_result) v = some e ∧ e.1 ≠ SIZE_MAX := by
  unfold Graph.is_path UMap.contains
  rw [find_prim_tbl]
  cases UMap.find g.prim_result v with
  | none => simp
  | some d => simp

theorem find_prim_result_of_tbl (r : List (Nat × prim_data)) (v p : Nat) (m : WithTop ℚ)
    (h : UMap.find (prim_tbl r) v = some (p, m)) :
    UMap.find r v = some { parent := p, cost := m } := by
  rw [find_prim_tbl] at h
  cases hf : UMap.find r v with
  | none => rw [hf] at h; cases h
  | some d =>
    rw [hf] at h
    simp only [Option.map_some', Option.some.injEq, Prod.mk.injEq] at h
    obtain ⟨h1, h2⟩ := h
    cases d
    simp only at h1 h2
    rw [h1, h2]

/-- **C3** On a well-formed graph without a vertex of id `SIZE_MAX`, `prim(s)`
from a present source returns, and afterwards `is_path(v)` holds exactly for
the present vertices `v` that a directed path joins to `s` (the source
included); a present vertex without such a path keeps the entry
`{SIZE_MAX, INFINITY}` and `is_path` is false for it.  This holds for every
choice among equal keys and every iteration order. -/
theorem prim_reaches_exactly_reachable (g : Graph) (s : Nat) (fuel : Nat) (tie : Nat → Nat)
    (hwf : g.WF) (hmax : g.contains_vertex SIZE_MAX = false)
    (hs : g.contains_vertex s = true) (hfuel : g.edge_count + 1 < fuel) :
    ∃ g', g.prim fuel tie s = .ok g' ∧ g'.edges = g.edges ∧
      ∀ v, (g'.is_path v = true ↔
          (g.contains_vertex v = true ∧ ∃ p, g.directed_path s v p)) ∧
        (g.contains_vertex v = true → (¬ ∃ p, g.directed_path s v p) →
          UMap.find g'.prim_result v = some { parent := SIZE_MAX, cost := ⊤ } ∧
            g'.is_path v = false) := by
  obtain ⟨g', st, c, hrun, hedges, _, htbl, ⟨hinv, _⟩, hpq⟩ :=
    prim_run g hwf s hs fuel tie hfuel
  refine ⟨g', hrun, hedges, fun v => ?_⟩
  have hne_max : ∀ x, UMap.contains g.edges x = true → x ≠ SIZE_MAX := by
    rintro x hx rfl
    have : g.contains_vertex SIZE_MAX = true := hx
    rw [hmax] at this
    cases this
  have hreach : (g'.is_path v = true ↔
      (g.contains_vertex v = true ∧ ∃ p, g.directed_path s v p)) := by
    rw [is_path_iff_tbl, htbl]
    constructor
    · rintro ⟨e, he1, he2⟩
      have hcv : UMap.contains g.edges v = true := by
        rw [← hinv.keys]; unfold UMap.contains; rw [he1]; rfl
      have hfin : gmet st.tbl v ≠ ⊤ := by
        intro hm
        have := (hinv.unreached v hm).2 hcv
        rw [he1] at this
        cases this
        exact he2 rfl
      have hvis := (hinv.visited_iff hpq v).mpr hfin
      obtain ⟨l₁, l₂, hl⟩ := List.append_of_mem hvis
      obtain ⟨q, _, hq, _⟩ :=
        gen_walk_path hwf hinv (l₂.length + 1) l₁ v l₂ [] hl (Nat.lt_succ_self _)
      exact ⟨hcv, _, hq⟩
    · rintro ⟨_, p, hp⟩
      have hvis := hinv.reach_visited hpq p v hp
      have hfin := (hinv.visited_iff hpq v).mp hvis
      obtain ⟨e, he⟩ := find_of_gmet_ne_top _ _ hfin
      refine ⟨e, he, ?_⟩
      rw [← gpar_of_find _ _ _ he]
      by_cases hvs : v = s
      · subst hvs
        rw [gpar_of_find _ _ _ hinv.src]
        exact hne_max v hs
      · exact hne_max _ (hinv.vis_sub _ (hinv.par_ok v hvs hfin).1)
  refine ⟨hreach, fun hcv hno => ?_⟩
  have hnv : v ∉ st.visited := by
    intro hvis
    obtain ⟨l₁, l₂, hl⟩ := List.append_of_mem hvis
    obtain ⟨q, _, hq, _⟩ :=
      gen_walk_path hwf hinv (l₂.length + 1) l₁ v l₂ [] hl (Nat.lt_succ_self _)
    exact hno ⟨_, hq⟩
  have hm : gmet st.tbl v = ⊤ := by
    by_contra hm
    exact hnv ((hinv.visited_iff hpq v).mpr hm)
  have hfind := (hinv.unreached v hm).2 hcv
  rw [← htbl] at hfind
  refine ⟨find_prim_result_of_tbl _ _ _ _ hfind, ?_⟩
  by_contra hc
  have hc' : g'.is_path v = true := by simpa using hc
  exact hno (hreach.mp hc').2

/-! ## Dijkstra: shortest distances -/

theorem NonnegE_of_nonneg_weights (g : Graph) (hwf : g.WF) (h : g.nonneg_weights) :
    NonnegE g.edges := by
  intro u v w he
  have := (Graph.isEdge_iff g hwf u v w).mp he
  have h0 := h u v
  rw [this.2] at h0
  exact_mod_cast h0

theorem distance_eq_gmet (g : Graph) (v : Nat) :
    g.distance v = gmet (dijkstra_tbl g.dijkstra_result) v := by
  unfold Graph.distance gmet
  rw [find_dijkstra_tbl]
  cases UMap.find g.dijkstra_result v <;> rfl

theorem DInv.lower_bound {g : Graph} (hwf : g.WF) {s : Nat} {c : Nat} {st : gstate}
    (hg : GInv g.edges s true c [] st) (hd : DInv g.edges c [] st) (hpq : st.pq = [])
    (p : List Nat) : ∀ v, g.directed_path s v p → gmet st.tbl v ≤ g.walk_cost p := by
  induction p using List.reverseRecOn with
  | nil => intro v hp; cases hp.2.2
  | append_singleton p' v' ih =>
    intro v hp
    have hv : v' = v := by
      have := hp.2.1
      rw [List.getLast?_concat] at this
      exact Option.some.inj this
    subst hv
    induction p' using List.reverseRecOn with
    | nil =>
      have := Graph.directed_path_single g s v' hp
      rw [this, gmet_of_find _ _ _ hg.src]
      exact le_refl _
    | append_singleton p'' u _ =>
      rw [List.append_assoc] at hp ⊢
      obtain ⟨hp', he⟩ := (Graph.directed_path_snoc g s u v' p'').mp hp
      obtain ⟨w, hw⟩ := Graph.exists_isEdge g u v' he
      have hu := hg.reach_visited hpq _ u hp'
      have hcost := ((Graph.isEdge_iff g hwf u v' w).mp hw).2
      show gmet st.tbl v' ≤ g.walk_cost (p'' ++ [u, v'])
      rw [Graph.walk_cost_snoc, hcost]
      rcases hd.relaxed u hu v' w hw with ⟨_, hmem⟩ | h'
      · cases hmem
      · exact le_trans h' (add_le_add_right (ih u hp') _)

/-- The distances left by `dijkstra`: the run returns, the source has distance
0, every recorded distance is a lower bound of the cost of every directed path
from the source, a finite distance is the cost of a simple directed path from
the source, and the distance is infinite exactly without such a path. -/
theorem dijkstra_spec (g : Graph) (s : Nat) (fuel : Nat) (tie : Nat → Nat)
    (hwf : g.WF) (hnn : g.nonneg_weights) (hs : g.contains_vertex s = true)
    (hfuel : g.edge_count + 1 < fuel) :
    ∃ g', g.dijkstra fuel tie s = .ok g' ∧ g'.edges = g.edges ∧
      g'.prim_result = g.prim_result ∧ g'.distance s = 0 ∧
      ∀ v, (∀ p, g.directed_path s v p → g'.distance v ≤ g.walk_cost p) ∧
        (g'.distance v ≠ ⊤ →
          ∃ p, g.directed_path s v p ∧ p.Nodup ∧ g.walk_cost p = g'.distance v) ∧
        (g'.distance v = ⊤ ↔ ¬ ∃ p, g.directed_path s v p) := by
  obtain ⟨g', st, c, hrun, hedges, hprim, htbl, ⟨hinv, hdinv⟩, hpq⟩ :=
    dijkstra_run g hwf s hs fuel tie hfuel
  have hd := hdinv rfl (NonnegE_of_nonneg_weights g hwf hnn)
  have hdist : ∀ v, g'.distance v = gmet st.tbl v := fun v => by
    rw [distance_eq_gmet, htbl]
  refine ⟨g', hrun, hedges, hprim, ?_, fun v => ?_⟩
  · rw [hdist, gmet_of_find _ _ _ hinv.src]
  have hlow : ∀ p, g.directed_path s v p → g'.distance v ≤ g.walk_cost p := by
    intro p hp
    rw [hdist]
    exact hd.lower_bound hwf hinv hpq p v hp
  have hex : g'.distance v ≠ ⊤ →
      ∃ p, g.directed_path s v p ∧ p.Nodup ∧ g.walk_cost p = g'.distance v := by
    intro hfin
    rw [hdist] at hfin ⊢
    have hvis := (hinv.visited_iff hpq v).mpr hfin
    obtain ⟨l₁, l₂, hl⟩ := List.append_of_mem hvis
    obtain ⟨q, _, hq, _, hq2, hq3⟩ :=
      gen_walk_path hwf hinv (l₂.length + 1) l₁ v l₂ [] hl (Nat.lt_succ_self _)
    exact ⟨_, hq, hq2, hq3 rfl⟩
  refine ⟨hlow, hex, ?_⟩
  constructor
  · rintro htop ⟨p, hp⟩
    have := hlow p hp
    rw [htop, top_le_iff] at this
    exact Graph.walk_cost_ne_top g p hp.2.2 this
  · intro hno
    by_contra hfin
    obtain ⟨p, hp, _⟩ := hex hfin
    exact hno ⟨p, hp⟩

namespace Graph

theorem same_graph.is_walk {g h : Graph} (hs : g.same_graph h) (p : List Nat) :
    h.is_walk p ↔ g.is_walk p := by
  induction p with
  | nil => exact Iff.rfl
  | cons a rest ih =>
    cases rest with
    | nil =>
      show h.contains_vertex a = true ↔ g.contains_vertex a = true
      rw [hs.1]
    | cons b rest' =>
      show (h.contains_edge a b = true ∧ h.is_walk (b :: rest')) ↔
        (g.contains_edge a b = true ∧ g.is_walk (b :: rest'))
      rw [hs.2.1, ih]

theorem same_graph.walk_cost {g h : Graph} (hs : g.same_graph h) (p : List Nat) :
    h.walk_cost p = g.walk_cost p := by
  induction p with
  | nil => rfl
  | cons a rest ih =>
    cases rest with
    | nil => rfl
    | cons b rest' =>
      show h.cost a b + h.walk_cost (b :: rest') = g.cost a b + g.walk_cost (b :: rest')
      rw [hs.2.2, ih]

theorem same_graph.directed_path {g h : Graph} (hs : g.same_graph h) (s v : Nat)
    (p : List Nat) : h.directed_path s v p ↔ g.directed_path s v p := by
  unfold Graph.directed_path
  rw [hs.is_walk]

end Graph

theorem Graph.nonneg_weights_of_stored (g : Graph)
    (h : ∀ e ∈ g.edges, ∀ n ∈ e.2, (0 : ℚ) ≤ n.2) : g.nonneg_weights := by
  intro a b
  unfold Graph.cost
  split
  · cases h1 : UMap.find g.edges a with
    | none => simp
    | some adj =>
      cases h2 : UMap.find adj b with
      | none => simp [h2]
      | some w =>
        simp only [Option.some_bind, h2]
        have := h (a, adj) (UMap.mem_of_find _ _ _ h1) (b, w) (UMap.mem_of_find _ _ _ h2)
        exact_mod_cast this
  · exact le_top

/-- Two runs of `dijkstra` from the same source, on two storage orders of the
same graph and with different choices among equal keys, leave the same
distances. -/
theorem dijkstra_distances_agree (g h : Graph) (s : Nat) (fuel fuel' : Nat)
    (tie tie' : Nat → Nat) (hwf : g.WF) (hwf' : h.WF) (hnn : g.nonneg_weights)
    (hs : g.contains_vertex s = true) (hsame : g.same_graph h)
    (hfuel : g.edge_count + 1 < fuel) (hfuel' : h.edge_count + 1 < fuel') :
    ∃ g' h', g.dijkstra fuel tie s = .ok g' ∧ h.dijkstra fuel' tie' s = .ok h' ∧
      ∀ v, h'.distance v = g'.distance v := by
  obtain ⟨g', hrun, _, _, _, hchar⟩ := dijkstra_spec g s fuel tie hwf hnn hs hfuel
  have hnn' : h.nonneg_weights := fun a b => by rw [hsame.2.2]; exact hnn a b
  have hs' : h.contains_vertex s = true := by rw [hsame.1]; exact hs
  obtain ⟨h', hrun', _, _, _, hchar'⟩ := dijkstra_spec h s fuel' tie' hwf' hnn' hs' hfuel'
  refine ⟨g', h', hrun, hrun', fun v => ?_⟩
  obtain ⟨a1, a2, a3⟩ := hchar v
  obtain ⟨b1, b2, b3⟩ := hchar' v
  by_cases hg : g'.distance v = ⊤
  · rw [hg, b3]
    rintro ⟨p, hp⟩
    exact a3.mp hg ⟨p, (hsame.directed_path s v p).mp hp⟩
  · have hh : h'.distance v ≠ ⊤ := by
      intro hc
      obtain ⟨p, hp, _⟩ := a2 hg
      exact b3.mp hc ⟨p, (hsame.directed_path s v p).mpr hp⟩
    obtain ⟨p, hp, _, hpc⟩ := a2 hg
    obtain ⟨q, hq, _, hqc⟩ := b2 hh
    apply le_antisymm
    · rw [← hpc, ← hsame.walk_cost p]
      exact b1 p ((hsame.directed_path s v p).mpr hp)
    · rw [← hqc, hsame.walk_cost q]
      exact a1 q ((hsame.directed_path s v q).mp hq)

/-- **C1** On a well-formed graph with non-negative weights, `dijkstra(s)` from a
present source returns, and afterwards `distance(s) = 0` and for every id `v`:
`distance(v)` is at most the cost of every directed path from `s` to `v`, a
finite `distance(v)` is the cost of some (simple) directed path from `s` to
`v`, so it is the minimum, and `distance(v) = INFINITY` exactly when there is no
directed path from `s` to `v`.  The distances are the same for every choice
among equal keys (`tie`) and for every storage order of the same graph. -/
theorem dijkstra_shortest_distances (g : Graph) (s : Nat) (fuel : Nat) (tie : Nat → Nat)
    (hwf : g.WF) (hnn : g.nonneg_weights) (hs : g.contains_vertex s = true)
    (hfuel : g.edge_count + 1 < fuel) :
    ∃ g', g.dijkstra fuel tie s = .ok g' ∧ g'.distance s = 0 ∧
      (∀ v, (∀ p, g.directed_path s v p → g'.distance v ≤ g.walk_cost p) ∧
        (g'.distance v ≠ ⊤ →
          ∃ p, g.directed_path s v p ∧ p.Nodup ∧ g.walk_cost p = g'.distance v) ∧
        (g'.distance v = ⊤ ↔ ¬ ∃ p, g.directed_path s v p)) ∧
      (∀ (h : Graph) (fuel' : Nat) (tie' : Nat → Nat), h.WF → g.same_graph h →
        h.edge_count + 1 < fuel' →
        ∃ h', h.dijkstra fuel' tie' s = .ok h' ∧ ∀ v, h'.distance v = g'.distance v) := by
  obtain ⟨g', hrun, _, _, h0, hchar⟩ := dijkstra_spec g s fuel tie hwf hnn hs hfuel
  refine ⟨g', hrun, h0, hchar, ?_⟩
  intro h fuel' tie' hwf' hsame hfuel'
  obtain ⟨g'', h', hrun'', hrun', hagree⟩ :=
    dijkstra_distances_agree g h s fuel fuel' tie tie' hwf hwf' hnn hs hsame hfuel hfuel'
  rw [hrun] at hrun''
  cases hrun''
  exact ⟨h', hrun', hagree⟩

/-- Witness of **C1** on the graph of the test program with source 2. -/
theorem dijkstra_shortest_distances_witness :
    ∃ g', example_graph.dijkstra 20 (fun _ => 0) 2 = .ok g' ∧ g'.distance 2 = 0 ∧
      (∀ v, (∀ p, example_graph.directed_path 2 v p → g'.distance v ≤ example_graph.walk_cost p) ∧
        (g'.distance v ≠ ⊤ →
          ∃ p, example_graph.directed_path 2 v p ∧ p.Nodup ∧
            example_graph.walk_cost p = g'.distance v) ∧
        (g'.distance v = ⊤ ↔ ¬ ∃ p, example_graph.directed_path 2 v p)) ∧
      (∀ (h : Graph) (fuel' : Nat) (tie' : Nat → Nat), h.WF → example_graph.same_graph h →
        h.edge_count + 1 < fuel' →
        ∃ h', h.dijkstra fuel' tie' 2 = .ok h' ∧ ∀ v, h'.distance v = g'.distance v) :=
  dijkstra_shortest_distances example_graph 2 20 (fun _ => 0) (by decide!)
    (Graph.nonneg_weights_of_stored example_graph (by decide!)) (by decide!) (by decide!)

/-- Witness of **C3** on the graph of the test program with source 6, from which
no other vertex can be reached. -/
theorem prim_reaches_exactly_reachable_witness :
    ∃ g', example_graph.prim 20 (fun _ => 0) 6 = .ok g' ∧ g'.edges = example_graph.edges ∧
      ∀ v, (g'.is_path v = true ↔
          (example_graph.contains_vertex v = true ∧ ∃ p, example_graph.directed_path 6 v p)) ∧
        (example_graph.contains_vertex v = true → (¬ ∃ p, example_graph.directed_path 6 v p) →
          UMap.find g'.prim_result v = some { parent := SIZE_MAX, cost := ⊤ } ∧
            g'.is_path v = false) :=
  prim_reaches_exactly_reachable example_graph 6 20 (fun _ => 0) (by decide!) (by decide!)
    (by decide!) (by decide!)

/-! ## Printing the shortest path -/

theorem GInv.visited_length_le {E : List (Nat × List (Nat × ℚ))} {s : Nat} {cum : Bool}
    {c : Nat} {todo : List (Nat × ℚ)} {st : gstate} (h : GInv E s cum c todo st) :
    st.visited.length ≤ E.length := by
  have hsub : st.visited ⊆ UMap.keys E := fun v hv =>
    (UMap.contains_iff_mem_keys E v).mp (h.vis_sub v hv)
  have := (List.Nodup.subperm h.vis_nodup hsub).length_le
  simpa [UMap.keys] using this

/-! ## Dijkstra on the graph of the test program -/

theorem example_graph_WF : example_graph.WF := by decide!

theorem example_graph_vertices (u : Nat) (h : example_graph.contains_vertex u = true) :
    u ∈ [1, 2, 3, 4, 5, 6, 7] := by
  have := (UMap.contains_iff_mem_keys example_graph.edges u).mp h
  have hk : UMap.keys example_graph.edges = [1, 2, 3, 4, 5, 6, 7] := by decide!
  rw [hk] at this
  exact this

theorem example_graph_tight :
    ∀ v ∈ [1, 3, 4, 5, 6, 7], ∀ u ∈ [1, 2, 3, 4, 5, 6, 7],
      example_graph.contains_edge u v = true →
      example_dist v = example_dist u + example_graph.cost u v → u = example_parent v := by
  decide!

theorem example_graph_distances :
    (example_graph.dijkstra 20 (fun _ => 0) 2).map
        (fun g => [1, 2, 3, 4, 5, 6, 7].map g.distance) =
      .ok ([1, 2, 3, 4, 5, 6, 7].map example_dist) := by
  decide!

theorem gen_walk_pos (tbl : List (Nat × (Nat × WithTop ℚ))) (fuel v p : Nat) (m : WithTop ℚ)
    (stack : List Nat) (hf : 0 < fuel) (h : UMap.find tbl v = some (p, m)) :
    gen_walk tbl fuel v stack =
      if p != v then gen_walk tbl (fuel - 1) p (p :: stack) else .ok stack := by
  obtain ⟨n, rfl⟩ : ∃ n, fuel = n + 1 := ⟨fuel - 1, by omega⟩
  rw [show n + 1 - 1 = n from rfl]
  conv_lhs => unfold gen_walk UMap.at_
  rw [h]

/-- The table left by `dijkstra(2)` on any storage order of the graph of the
test program. -/
theorem example_table (g : Graph) (hwf : g.WF) (hsame : example_graph.same_graph g)
    (g' : Graph) (st : gstate) (c : Nat) (hinv : GInv g.edges 2 true c [] st)
    (htbl : dijkstra_tbl g'.dijkstra_result = st.tbl)
    (hdist : ∀ v ∈ [1, 2, 3, 4, 5, 6, 7], g'.distance v = example_dist v) :
    ∀ v ∈ [1, 2, 3, 4, 5, 6, 7],
      UMap.find st.tbl v = some (example_parent v, example_dist v) := by
  have hmet : ∀ v ∈ [1, 2, 3, 4, 5, 6, 7], gmet st.tbl v = example_dist v := by
    intro v hv
    rw [← htbl, ← distance_eq_gmet]
    exact hdist v hv
  have hfin : ∀ v ∈ [1, 2, 3, 4, 5, 6, 7], example_dist v ≠ ⊤ := by decide!
  intro v hv
  by_cases hv2 : v = 2
  · subst hv2
    exact hinv.src
  · have hv' : v ∈ [1, 3, 4, 5, 6, 7] := by
      simp only [List.mem_cons, List.mem_singleton, List.not_mem_nil, or_false] at hv ⊢
      omega
    have hne : gmet st.tbl v ≠ ⊤ := by rw [hmet v hv]; exact hfin v hv
    obtain ⟨e, he⟩ := find_of_gmet_ne_top _ _ hne
    obtain ⟨_, w, hedge, hcand⟩ := hinv.par_ok v hv2 hne
    obtain ⟨hce, hcost⟩ := (Graph.isEdge_iff g hwf _ _ _).mp hedge
    rw [hsame.2.1] at hce
    rw [hsame.2.2] at hcost
    have hu := example_graph_vertices _ (Graph.contains_vertex_of_edge _ _ _ hce).1
    have hc : gcand true st.tbl (gpar st.tbl v) w =
        gmet st.tbl (gpar st.tbl v) + (w : WithTop ℚ) := by
      unfold gcand; simp
    rw [hc, hmet v hv, hmet _ hu, ← hcost] at hcand
    have hp := example_graph_tight v hv' _ hu hce hcand
    have h1 := gpar_of_find _ _ _ he
    have h2 := gmet_of_find _ _ _ he
    rw [hp] at h1
    rw [hmet v hv] at h2
    have : e = (example_parent v, example_dist v) := Prod.ext h1.symm h2.symm
    rw [he, this]

theorem example_walks (tbl : List (Nat × (Nat × WithTop ℚ)))
    (h : ∀ v ∈ [1, 2, 3, 4, 5, 6, 7], ∃ m, UMap.find tbl v = some (example_parent v, m))
    (fuel : Nat) (hf : 7 ≤ fuel) :
    gen_walk tbl fuel 1 [1] = .ok [2, 7, 5, 4, 1] ∧
    gen_walk tbl fuel 2 [2] = .ok [2] ∧
    gen_walk tbl fuel 3 [3] = .ok [2, 3] ∧
    gen_walk tbl fuel 4 [4] = .ok [2, 7, 5, 4] ∧
    gen_walk tbl fuel 5 [5] = .ok [2, 7, 5] ∧
    gen_walk tbl fuel 6 [6] = .ok [2, 7, 5, 6] ∧
    gen_walk tbl fuel 7 [7] = .ok [2, 7] := by
  obtain ⟨m1, h1⟩ : ∃ m, UMap.find tbl 1 = some (4, m) := h 1 (by decide)
  obtain ⟨m2, h2⟩ : ∃ m, UMap.find tbl 2 = some (2, m) := h 2 (by decide)
  obtain ⟨m3, h3⟩ : ∃ m, UMap.find tbl 3 = some (2, m) := h 3 (by decide)
  obtain ⟨m4, h4⟩ : ∃ m, UMap.find tbl 4 = some (5, m) := h 4 (by decide)
  obtain ⟨m5, h5⟩ : ∃ m, UMap.find tbl 5 = some (7, m) := h 5 (by decide)
  obtain ⟨m6, h6⟩ : ∃ m, UMap.find tbl 6 = some (5, m) := h 6 (by decide)
  obtain ⟨m7, h7⟩ : ∃ m, UMap.find tbl 7 = some (2, m) := h 7 (by decide)
  have w2 : ∀ n stack, 0 < n → gen_walk tbl n 2 stack = .ok stack := by
    intro n stack hn
    rw [gen_walk_pos tbl n 2 2 _ stack hn h2, if_neg (by decide)]
  have w7 : ∀ n stack, 1 < n → gen_walk tbl n 7 stack = .ok (2 :: stack) := by
    intro n stack hn
    rw [gen_walk_pos tbl n 7 2 _ stack (by omega) h7, if_pos (by decide),
      w2 _ _ (by omega)]
  have w5 : ∀ n stack, 2 < n → gen_walk tbl n 5 stack = .ok (2 :: 7 :: stack) := by
    intro n stack hn
    rw [gen_walk_pos tbl n 5 7 _ stack (by omega) h5, if_pos (by decide),
      w7 _ _ (by omega)]
  have w4 : ∀ n stack, 3 < n → gen_walk tbl n 4 stack = .ok (2 :: 7 :: 5 :: stack) := by
    intro n stack hn
    rw [gen_walk_pos tbl n 4 5 _ stack (by omega) h4, if_pos (by decide),
      w5 _ _ (by omega)]
  refine ⟨?_, w2 _ _ (by omega), ?_, w4 _ _ (by omega), w5 _ _ (by omega), ?_,
    w7 _ _ (by omega)⟩
  · rw [gen_walk_pos tbl fuel 1 4 _ _ (by omega) h1, if_pos (by decide), w4 _ _ (by omega)]
  · rw [gen_walk_pos tbl fuel 3 2 _ _ (by omega) h3, if_pos (by decide), w2 _ _ (by omega)]
  · rw [gen_walk_pos tbl fuel 6 5 _ _ (by omega) h6, if_pos (by decide), w5 _ _ (by omega)]

/-- **C2** On the seven-vertex graph of the test program, in any storage order
and for every choice among equal keys, `dijkstra(2)` returns and yields the
distances 0, 1, 2, 4, 3, 6, 2 for the vertices 2, 7, 5, 4, 6, 1, 3, and
`print_shortest_path` writes the vertex sequences 2,7,5 for 5; 2,7,5,4 for 4;
2,7,5,6 for 6; 2,7,5,4,1 for 1; and 2,3 for 3, each followed by the distance. -/
theorem dijkstra_example_graph (g : Graph) (fuel : Nat) (tie : Nat → Nat)
    (show_double : WithTop ℚ → String) (walk_fuel : Nat)
    (hwf : g.WF) (hsame : example_graph.same_graph g) (hfuel : g.edge_count + 1 < fuel)
    (hwalk : g.vertex_count ≤ walk_fuel) :
    ∃ g', g.dijkstra fuel tie 2 = .ok g' ∧
      g'.distance 2 = 0 ∧ g'.distance 7 = 1 ∧ g'.distance 5 = 2 ∧ g'.distance 4 = 4 ∧
      g'.distance 6 = 3 ∧ g'.distance 1 = 6 ∧ g'.distance 3 = 2 ∧
      g'.print_shortest_path show_double walk_fuel 5 =
        .ok ("2 --> 7 --> 5 distance: " ++ show_double 2 ++ "\n") ∧
      g'.print_shortest_path show_double walk_fuel 4 =
        .ok ("2 --> 7 --> 5 --> 4 distance: " ++ show_double 4 ++ "\n") ∧
      g'.print_shortest_path show_double walk_fuel 6 =
        .ok ("2 --> 7 --> 5 --> 6 distance: " ++ show_double 3 ++ "\n") ∧
      g'.print_shortest_path show_double walk_fuel 1 =
        .ok ("2 --> 7 --> 5 --> 4 --> 1 distance: " ++ show_double 6 ++ "\n") ∧
      g'.print_shortest_path show_double walk_fuel 3 =
        .ok ("2 --> 3 distance: " ++ show_double 2 ++ "\n") := by
  have hs : g.contains_vertex 2 = true := by rw [hsame.1]; decide!
  obtain ⟨g', st, c, hrun, _, _, htbl, ⟨hinv, _⟩, hpq⟩ :=
    dijkstra_run g hwf 2 hs fuel tie hfuel
  obtain ⟨eg', g'', hrun_eg, hrun_g, hagree⟩ :=
    dijkstra_distances_agree example_graph g 2 20 fuel (fun _ => 0) tie example_graph_WF hwf
      (Graph.nonneg_weights_of_stored example_graph (by decide!)) (by decide!) hsame
      (by decide!) hfuel
  rw [hrun] at hrun_g
  cases hrun_g
  have hD := example_graph_distances
  rw [hrun_eg] at hD
  simp only [Except.map, Except.ok.injEq, List.map_cons, List.map_nil, List.cons.injEq,
    and_true] at hD
  obtain ⟨d1, d2, d3, d4, d5, d6, d7⟩ := hD
  have hdist : ∀ v ∈ [1, 2, 3, 4, 5, 6, 7], g'.distance v = example_dist v := by
    intro v hv
    rw [hagree v]
    simp only [List.mem_cons, List.mem_singleton, List.not_mem_nil, or_false] at hv
    rcases hv with rfl | rfl | rfl | rfl | rfl | rfl | rfl
    · exact d1
    · exact d2
    · exact d3
    · exact d4
    · exact d5
    · exact d6
    · exact d7
  have htable := example_table g hwf hsame g' st c hinv htbl hdist
  have hvis : ∀ v ∈ [1, 2, 3, 4, 5, 6, 7], v ∈ st.visited := by
    intro v hv
    rw [hinv.visited_iff hpq, gmet_of_find _ _ _ (htable v hv)]
    revert v
    decide!
  have h7 : 7 ≤ walk_fuel := by
    have h1 := (List.Nodup.subperm (by decide : [1, 2, 3, 4, 5, 6, 7].Nodup) hvis).length_le
    have h2 := hinv.visited_length_le
    have h3 : g.vertex_count = g.edges.length := rfl
    simp only [List.length_cons, List.length_nil] at h1
    omega
  obtain ⟨w1, _, w3, w4, w5, w6, _⟩ :=
    example_walks st.tbl (fun v hv => ⟨_, htable v hv⟩) walk_fuel h7
  have e1 : g'.distance 1 = 6 := hdist 1 (by decide)
  have e2 : g'.distance 2 = 0 := hdist 2 (by decide)
  have e3 : g'.distance 3 = 2 := hdist 3 (by decide)
  have e4 : g'.distance 4 = 4 := hdist 4 (by decide)
  have e5 : g'.distance 5 = 2 := hdist 5 (by decide)
  have e6 : g'.distance 6 = 3 := hdist 6 (by decide)
  have e7 : g'.distance 7 = 1 := hdist 7 (by decide)
  have hprint : ∀ d (p : List Nat) (x : WithTop ℚ), g'.distance d = x → x ≠ ⊤ →
      gen_walk st.tbl walk_fuel d [d] = .ok p →
      g'.print_shortest_path show_double walk_fuel d =
        .ok (render_stack p ++ " distance: " ++ show_double x ++ "\n") := by
    intro d p x hx hne hw
    unfold Graph.print_shortest_path
    rw [hx, if_neg hne, dijkstra_walk_sim, htbl, hw]
  refine ⟨g', hrun, e2, e7, e5, e4, e6, e1, e3, ?_, ?_, ?_, ?_, ?_⟩
  · exact hprint 5 _ 2 e5 (by decide!) w5
  · exact hprint 4 _ 4 e4 (by decide!) w4
  · exact hprint 6 _ 3 e6 (by decide!) w6
  · exact hprint 1 _ 6 e1 (by decide!) w1
  · exact hprint 3 _ 2 e3 (by decide!) w3

theorem same_graph_refl (g : Graph) : g.same_graph g :=
  ⟨fun _ => rfl, fun _ _ => rfl, fun _ _ => rfl⟩

/-- Witness of **C2**: the graph as the test program builds it. -/
theorem dijkstra_example_graph_witness :
    ∃ g', example_graph.dijkstra 20 (fun _ => 0) 2 = .ok g' ∧
      g'.distance 2 = 0 ∧ g'.distance 7 = 1 ∧ g'.distance 5 = 2 ∧ g'.distance 4 = 4 ∧
      g'.distance 6 = 3 ∧ g'.distance 1 = 6 ∧ g'.distance 3 = 2 ∧
      g'.print_shortest_path (fun _ => "") 7 5 =
        .ok ("2 --> 7 --> 5 distance: " ++ (fun _ => "") 2 ++ "\n") ∧
      g'.print_shortest_path (fun _ => "") 7 4 =
        .ok ("2 --> 7 --> 5 --> 4 distance: " ++ (fun _ => "") 4 ++ "\n") ∧
      g'.print_shortest_path (fun _ => "") 7 6 =
        .ok ("2 --> 7 --> 5 --> 6 distance: " ++ (fun _ => "") 3 ++ "\n") ∧
      g'.print_shortest_path (fun _ => "") 7 1 =
        .ok ("2 --> 7 --> 5 --> 4 --> 1 distance: " ++ (fun _ => "") 6 ++ "\n") ∧
      g'.print_shortest_path (fun _ => "") 7 3 =
        .ok ("2 --> 3 distance: " ++ (fun _ => "") 2 ++ "\n") :=
  dijkstra_example_graph example_graph 20 (fun _ => 0) (fun _ => "") 7 example_graph_WF
    (same_graph_refl example_graph) (by decide!) (by decide!)

/-! ## Prim as a sequence of cheapest crossing edges -/

theorem GInv.last_is_source {E : List (Nat × List (Nat × ℚ))} {s : Nat} {cum : Bool} {c : Nat}
    {todo : List (Nat × ℚ)} {st : gstate} (h : GInv E s cum c todo st)
    (l₁ l₂ : List Nat) (hl : st.visited = l₁ ++ l₂) (hne : l₂ ≠ []) : s ∈ l₂ := by
  obtain ⟨l₂', z, rfl⟩ : ∃ l₂' z, l₂ = l₂' ++ [z] := by
    rcases List.eq_nil_or_concat l₂ with h' | ⟨l, z, h'⟩
    · exact absurd h' hne
    · exact ⟨l, z, by rw [h']; simp⟩
  have hz : z = s := by
    by_contra hzs
    have := h.par_before (l₁ ++ l₂') z [] (by rw [hl]; simp) hzs
    cases this
  rw [hz]
  exact List.mem_append_right _ (List.mem_singleton_self _)

theorem GInv.primOrder {g : Graph} (hwf : g.WF) {s : Nat} {c : Nat}
    {todo : List (Nat × ℚ)} {st : gstate} (h : GInv g.edges s false c todo st)
    (l₂ : List Nat) : ∀ l₁, st.visited = l₁ ++ l₂ → l₂ ≠ [] →
      PrimOrder g s (gpar st.tbl) (gmet st.tbl) l₂ := by
  induction l₂ with
  | nil => intro _ _ hne; exact absurd rfl hne
  | cons v rest ih =>
    intro l₁ hl _
    cases rest with
    | nil =>
      have := h.last_is_source l₁ [v] hl (List.cons_ne_nil _ _)
      exact (List.mem_singleton.mp this).symm
    | cons u rest' =>
      have hnd : (l₁ ++ v :: u :: rest').Nodup := hl ▸ h.vis_nodup
      have hvn : v ∉ u :: rest' := (List.nodup_cons.mp (List.nodup_append.mp hnd).2.1).1
      have hs_in : s ∈ u :: rest' :=
        h.last_is_source (l₁ ++ [v]) (u :: rest') (by rw [hl]; simp) (List.cons_ne_nil _ _)
      have hvs : v ≠ s := fun hc => hvn (hc ▸ hs_in)
      have hvv : v ∈ st.visited := by
        rw [hl]; exact List.mem_append_right _ (List.mem_cons_self _ _)
      have hfin : gmet st.tbl v ≠ ⊤ := fun hm => (h.unreached v hm).1 hvv
      obtain ⟨_, w, hw1, hw2⟩ := h.par_ok v hvs hfin
      have hedge := (Graph.isEdge_iff g hwf _ _ _).mp hw1
      have hw2' : gmet st.tbl v = (w : WithTop ℚ) := by
        rw [hw2]; unfold gcand; simp
      refine ⟨⟨hvn, h.par_before l₁ v (u :: rest') hl hvs, hedge.1, ?_, ?_⟩, ?_⟩
      · rw [hedge.2, hw2']
      · intro x hx y hy hxy
        obtain ⟨w', hw'⟩ := Graph.exists_isEdge g x y hxy
        rw [((Graph.isEdge_iff g hwf _ _ _).mp hw').2]
        exact h.cut_min rfl l₁ v (u :: rest') hl hvs x hx y w' hw' hy
      · exact ih (l₁ ++ [v]) (by rw [hl]; simp) (List.cons_ne_nil _ _)

theorem PrimOrder.congr {g h : Graph} (hs : g.same_graph h) (s : Nat) (par : Nat → Nat)
    (met : Nat → WithTop ℚ) (l : List Nat) :
    PrimOrder h s par met l ↔ PrimOrder g s par met l := by
  induction l with
  | nil => exact Iff.rfl
  | cons v rest ih =>
    cases rest with
    | nil => exact Iff.rfl
    | cons u rest' =>
      unfold PrimOrder
      rw [ih]
      simp only [hs.2.1, hs.2.2]

theorem mem_crossing_edges {E : List (Nat × List (Nat × ℚ))} (hwf : EdgesWF E) (l : List Nat)
    (x y : Nat) (w : ℚ) :
    (x, y, w) ∈ crossing_edges E l ↔ x ∈ l ∧ y ∉ l ∧ IsEdge E x y w := by
  unfold crossing_edges
  rw [List.mem_flatMap]
  constructor
  · rintro ⟨e, he, hmem⟩
    by_cases hel : e.1 ∈ l
    · rw [if_pos hel] at hmem
      obtain ⟨n, hn, heq⟩ := List.mem_map.mp hmem
      rw [List.mem_filter] at hn
      simp only [Prod.mk.injEq] at heq
      obtain ⟨rfl, rfl, rfl⟩ := heq
      refine ⟨hel, by simpa using hn.2, ?_⟩
      have hf : UMap.find E e.1 = some e.2 := UMap.find_of_mem E e.1 e.2 hwf.1 he
      exact IsEdge.of_mem hwf hf n hn.1
    · rw [if_neg hel] at hmem
      cases hmem
  · rintro ⟨hx, hy, adj, h1, h2⟩
    refine ⟨(x, adj), UMap.mem_of_find _ _ _ h1, ?_⟩
    rw [if_pos hx]
    refine List.mem_map.mpr ⟨(y, w), ?_, rfl⟩
    rw [List.mem_filter]
    exact ⟨UMap.mem_of_find _ _ _ h2, by simpa using hy⟩

theorem PrimOrder.mem_prim_orders {g : Graph} (hwf : g.WF) {s : Nat} {par : Nat → Nat}
    {met : Nat → WithTop ℚ} (hps : par s = s) (hms : met s = 0) (l : List Nat)
    (h : PrimOrder g s par met l) :
    l.map (fun v => (v, par v, met v)) ∈ prim_orders g.edges s (l.length - 1) := by
  induction l with
  | nil => cases h
  | cons v rest ih =>
    cases rest with
    | nil =>
      have hv : v = s := h
      subst hv
      simp [prim_orders, hps, hms]
    | cons u rest' =>
      obtain ⟨⟨hvn, hp, hce, hcost, hmin⟩, hrest⟩ := h
      have ih' := ih hrest
      simp only [List.length_cons, Nat.add_sub_cancel] at ih' ⊢
      show _ ∈ prim_orders g.edges s (rest'.length + 1)
      unfold prim_orders
      rw [List.mem_flatMap]
      refine ⟨_, ih', ?_⟩
      have hmap : ((u :: rest').map (fun v => (v, par v, met v))).map (fun t => t.1)
          = u :: rest' := by
        rw [List.map_map]
        exact List.map_id'' (fun _ => rfl) _
      rw [hmap]
      obtain ⟨w, hw⟩ := Graph.exists_isEdge g (par v) v hce
      have hcw := ((Graph.isEdge_iff g hwf _ _ _).mp hw).2
      have hmw : met v = (w : WithTop ℚ) := by rw [← hcost, hcw]
      refine List.mem_map.mpr ⟨(par v, v, w), ?_, ?_⟩
      · unfold min_crossing_edges
        rw [List.mem_filter]
        refine ⟨(mem_crossing_edges hwf.edgesWF _ _ _ _).mpr ⟨hp, hvn, hw⟩, ?_⟩
        rw [List.all_eq_true]
        rintro ⟨x, y, w'⟩ he'
        obtain ⟨hx, hy, hxy⟩ := (mem_crossing_edges hwf.edgesWF _ _ _ _).mp he'
        have hxy' := (Graph.isEdge_iff g hwf _ _ _).mp hxy
        have := hmin x hx y hy hxy'.1
        rw [hmw, hxy'.2] at this
        simpa using this
      · simp only [List.map_cons, hmw]

/-! ## Prim on the graph of the test program -/

set_option maxRecDepth 100000 in
theorem example_paths_ok :
    ∀ v ∈ [1, 2, 3, 4, 5, 6, 7], example_graph.directed_path 2 v (example_path v) := by
  decide!

set_option maxRecDepth 100000 in
theorem example_six_edges :
    ∀ t ∈ List.sublistsLen 6 (edge_list example_graph.edges),
      (9 : WithTop ℚ) ≤ (t.map (fun e => example_graph.cost e.1 e.2)).sum := by
  decide!

theorem example_prim_orders :
    ∀ st ∈ prim_orders example_graph.edges 2 6, ∀ e ∈ st,
      e.2 = (example_parent e.1, example_prim_cost e.1) := by
  decide!

theorem example_tree_costs :
    ∀ v ∈ [1, 3, 4, 5, 6, 7],
      example_graph.cost (example_parent v) v = example_prim_cost v := by
  decide!

theorem mem_edge_list (g : Graph) (a b : Nat) (h : g.contains_edge a b = true) :
    (a, b) ∈ edge_list g.edges := by
  obtain ⟨w, adj, h1, h2⟩ := Graph.exists_isEdge g a b h
  unfold edge_list
  rw [List.mem_flatMap]
  exact ⟨(a, adj), UMap.mem_of_find _ _ _ h1,
    List.mem_map.mpr ⟨(b, w), UMap.mem_of_find _ _ _ h2, rfl⟩⟩

theorem prim_parent_eq_gpar (g : Graph) (v : Nat) :
    g.prim_parent v = gpar (prim_tbl g.prim_result) v := by
  unfold Graph.prim_parent gpar
  rw [find_prim_tbl]
  cases UMap.find g.prim_result v <;> rfl

theorem prim_cost_eq_gmet (g : Graph) (v : Nat) :
    g.prim_cost v = gmet (prim_tbl g.prim_result) v := by
  unfold Graph.prim_cost gmet
  rw [find_prim_tbl]
  cases UMap.find g.prim_result v <;> rfl

/-- The table left by `prim(2)` on any storage order of the graph of the test
program, for every choice among equal keys. -/
theorem example_prim_table (g : Graph) (hwf : g.WF) (hsame : example_graph.same_graph g)
    (st : gstate) (c : Nat) (hinv : GInv g.edges 2 false c [] st) (hpq : st.pq = []) :
    ∀ v ∈ [1, 2, 3, 4, 5, 6, 7],
      UMap.find st.tbl v = some (example_parent v, example_prim_cost v) := by
  have hvis : ∀ v ∈ [1, 2, 3, 4, 5, 6, 7], v ∈ st.visited := fun v hv =>
    hinv.reach_visited hpq _ v
      ((hsame.directed_path 2 v _).mpr (example_paths_ok v hv))
  have hsub : st.visited ⊆ [1, 2, 3, 4, 5, 6, 7] := by
    intro v hv
    have : g.contains_vertex v = true := hinv.vis_sub v hv
    rw [hsame.1] at this
    exact example_graph_vertices v this
  have hlen : st.visited.length = 7 := by
    have h1 := (List.Nodup.subperm (by decide : [1, 2, 3, 4, 5, 6, 7].Nodup) hvis).length_le
    have h2 := (List.Nodup.subperm hinv.vis_nodup hsub).length_le
    simp only [List.length_cons, List.length_nil] at h1 h2
    omega
  have hne : st.visited ≠ [] := by
    intro hc; rw [hc] at hlen; cases hlen
  have hord := (PrimOrder.congr hsame 2 _ _ _).mp
    (hinv.primOrder hwf st.visited [] rfl hne)
  have hmem := PrimOrder.mem_prim_orders example_graph_WF
    (gpar_of_find _ _ _ hinv.src : gpar st.tbl 2 = 2)
    (gmet_of_find _ _ _ hinv.src : gmet st.tbl 2 = 0) st.visited hord
  rw [hlen] at hmem
  intro v hv
  have hv' := hvis v hv
  have he := example_prim_orders _ hmem (v, gpar st.tbl v, gmet st.tbl v)
    (List.mem_map.mpr ⟨v, hv', rfl⟩)
  simp only [Prod.mk.injEq] at he
  have hfin : gmet st.tbl v ≠ ⊤ := (hinv.visited_iff hpq v).mp hv'
  obtain ⟨e, hfe⟩ := find_of_gmet_ne_top _ _ hfin
  have h1 := gpar_of_find _ _ _ hfe
  have h2 := gmet_of_find _ _ _ hfe
  have : e = (example_parent v, example_prim_cost v) :=
    Prod.ext (by rw [← h1]; exact he.1) (by rw [← h2]; exact he.2)
  rw [hfe, this]

/-- **C5** On the seven-vertex graph of the test program, in any storage order
and for every choice among equal keys, `prim(2)` returns and covers all seven
vertices: `is_path(n)` holds for `n` from 1 to 7 and the parent chain printed by
`print_path(n)` starts at vertex 2.  The recorded metric of each vertex is the
weight of its tree edge, the tree edges weigh 9 in total, and no six distinct
edges of the graph weigh less, so that 9 is the weight of a minimum spanning
tree of the seven vertices. -/
theorem prim_example_graph (g : Graph) (fuel : Nat) (tie : Nat → Nat) (walk_fuel : Nat)
    (hwf : g.WF) (hsame : example_graph.same_graph g) (hfuel : g.edge_count + 1 < fuel)
    (hwalk : g.vertex_count ≤ walk_fuel) :
    ∃ g', g.prim fuel tie 2 = .ok g' ∧
      (∀ n ∈ [1, 2, 3, 4, 5, 6, 7], g'.is_path n = true) ∧
      g'.print_path walk_fuel 1 = .ok "2 --> 7 --> 5 --> 4 --> 1\n" ∧
      g'.print_path walk_fuel 2 = .ok "2\n" ∧
      g'.print_path walk_fuel 3 = .ok "2 --> 3\n" ∧
      g'.print_path walk_fuel 4 = .ok "2 --> 7 --> 5 --> 4\n" ∧
      g'.print_path walk_fuel 5 = .ok "2 --> 7 --> 5\n" ∧
      g'.print_path walk_fuel 6 = .ok "2 --> 7 --> 5 --> 6\n" ∧
      g'.print_path walk_fuel 7 = .ok "2 --> 7\n" ∧
      (∀ v ∈ [1, 3, 4, 5, 6, 7], g'.prim_cost v = g.cost (g'.prim_parent v) v) ∧
      ([1, 3, 4, 5, 6, 7].map (fun v => g.cost (g'.prim_parent v) v)).sum = 9 ∧
      (∀ t : List (Nat × Nat), t.Nodup → t.length = 6 →
        (∀ e ∈ t, g.contains_edge e.1 e.2 = true) →
        (9 : WithTop ℚ) ≤ (t.map (fun e => g.cost e.1 e.2)).sum) := by
  have hs : g.contains_vertex 2 = true := by rw [hsame.1]; decide!
  obtain ⟨g', st, c, hrun, _, _, htbl, ⟨hinv, _⟩, hpq⟩ := prim_run g hwf 2 hs fuel tie hfuel
  have htable := example_prim_table g hwf hsame st c hinv hpq
  have hvis : ∀ v ∈ [1, 2, 3, 4, 5, 6, 7], v ∈ st.visited := by
    intro v hv
    rw [hinv.visited_iff hpq, gmet_of_find _ _ _ (htable v hv)]
    revert v
    decide!
  have h7 : 7 ≤ walk_fuel := by
    have h1 := (List.Nodup.subperm (by decide : [1, 2, 3, 4, 5, 6, 7].Nodup) hvis).length_le
    have h2 := hinv.visited_length_le
    have h3 : g.vertex_count = g.edges.length := rfl
    simp only [List.length_cons, List.length_nil] at h1
    omega
  have hpath : ∀ n ∈ [1, 2, 3, 4, 5, 6, 7], g'.is_path n = true := by
    intro n hn
    rw [is_path_iff_tbl, htbl]
    refine ⟨_, htable n hn, ?_⟩
    revert n
    decide!
  obtain ⟨w1, w2, w3, w4, w5, w6, w7⟩ :=
    example_walks st.tbl (fun v hv => ⟨_, htable v hv⟩) walk_fuel h7
  have hprint : ∀ d (p : List Nat), d ∈ [1, 2, 3, 4, 5, 6, 7] →
      gen_walk st.tbl walk_fuel d [d] = .ok p →
      g'.print_path walk_fuel d = .ok (render_stack p ++ "\n") := by
    intro d p hd hw
    unfold Graph.print_path
    rw [hpath d hd, prim_walk_sim, htbl, hw]
    rfl
  have hpar : ∀ v ∈ [1, 2, 3, 4, 5, 6, 7], g'.prim_parent v = example_parent v := by
    intro v hv
    rw [prim_parent_eq_gpar, htbl, gpar_of_find _ _ _ (htable v hv)]
  have hcost : ∀ v ∈ [1, 2, 3, 4, 5, 6, 7], g'.prim_cost v = example_prim_cost v := by
    intro v hv
    rw [prim_cost_eq_gmet, htbl, gmet_of_find _ _ _ (htable v hv)]
  have hsubl : ∀ v ∈ [1, 3, 4, 5, 6, 7], v ∈ [1, 2, 3, 4, 5, 6, 7] := by decide
  have hedge : ∀ v ∈ [1, 3, 4, 5, 6, 7],
      g.cost (g'.prim_parent v) v = example_prim_cost v := by
    intro v hv
    rw [hpar v (hsubl v hv), hsame.2.2]
    exact example_tree_costs v hv
  refine ⟨g', hrun, hpath, hprint 1 _ (by decide) w1, hprint 2 _ (by decide) w2,
    hprint 3 _ (by decide) w3, hprint 4 _ (by decide) w4, hprint 5 _ (by decide) w5,
    hprint 6 _ (by decide) w6, hprint 7 _ (by decide) w7, ?_, ?_, ?_⟩
  · intro v hv
    rw [hedge v hv, hcost v (hsubl v hv)]
  · rw [List.map_congr_left hedge]
    decide!
  · intro t hnd hlen hedges
    have hsub : t ⊆ edge_list example_graph.edges := by
      intro e he
      have := hedges e he
      rw [hsame.2.1] at this
      exact mem_edge_list example_graph e.1 e.2 this
    obtain ⟨l, hl1, hl2⟩ := List.Nodup.subperm hnd hsub
    have hl3 : l ∈ List.sublistsLen 6 (edge_list example_graph.edges) :=
      List.mem_sublistsLen.mpr ⟨hl2, by rw [hl1.length_eq, hlen]⟩
    have := example_six_edges l hl3
    have hsum : (t.map (fun e => g.cost e.1 e.2)).sum =
        (l.map (fun e => example_graph.cost e.1 e.2)).sum := by
      have : (fun e : Nat × Nat => g.cost e.1 e.2) =
          (fun e => example_graph.cost e.1 e.2) := by
        funext e; exact hsame.2.2 e.1 e.2
      rw [this]
      exact ((hl1.map _).sum_eq).symm
    rw [hsum]
    exact this

/-- Witness of **C5**: the graph as the test program builds it. -/
theorem prim_example_graph_witness :
    ∃ g', example_graph.prim 20 (fun _ => 0) 2 = .ok g' ∧
      (∀ n ∈ [1, 2, 3, 4, 5, 6, 7], g'.is_path n = true) ∧
      g'.print_path 7 1 = .ok "2 --> 7 --> 5 --> 4 --> 1\n" ∧
      g'.print_path 7 2 = .ok "2\n" ∧
      g'.print_path 7 3 = .ok "2 --> 3\n" ∧
      g'.print_path 7 4 = .ok "2 --> 7 --> 5 --> 4\n" ∧
      g'.print_path 7 5 = .ok "2 --> 7 --> 5\n" ∧
      g'.print_path 7 6 = .ok "2 --> 7 --> 5 --> 6\n" ∧
      g'.print_path 7 7 = .ok "2 --> 7\n" ∧
      (∀ v ∈ [1, 3, 4, 5, 6, 7],
        g'.prim_cost v = example_graph.cost (g'.prim_parent v) v) ∧
      ([1, 3, 4, 5, 6, 7].map (fun v => example_graph.cost (g'.prim_parent v) v)).sum = 9 ∧
      (∀ t : List (Nat × Nat), t.Nodup → t.length = 6 →
        (∀ e ∈ t, example_graph.contains_edge e.1 e.2 = true) →
        (9 : WithTop ℚ) ≤ (t.map (fun e => example_graph.cost e.1 e.2)).sum) :=
  prim_example_graph example_graph 20 (fun _ => 0) 7 example_graph_WF
    (same_graph_refl example_graph) (by decide!) (by decide!)

/-! ## Prim: the minimum spanning tree -/


open Finset in
theorem cut_exchange {W : Type} [OrderedAddCommMonoid W] (C : Finset ℕ) (s : ℕ)
    (rank d q : ℕ → ℕ) (m c : ℕ → W)
    (hinj : ∀ a ∈ C, ∀ b ∈ C, rank a = rank b → a = b)
    (hrs : ∀ v ∈ C, v ≠ s → rank s < rank v)
    (hq : ∀ u ∈ C, u ≠ s → q u ∈ C ∧ d (q u) < d u)
    (hcross : ∀ v ∈ C, v ≠ s → ∀ u ∈ C, u ≠ s →
      ((rank (q u) < rank v ∧ rank v ≤ rank u) ∨ (rank u < rank v ∧ rank v ≤ rank (q u))) →
      m v ≤ c u) :
    ∑ v in C.erase s, m v ≤ ∑ u in C.erase s, c u := by
  classical
  set A := C.erase s with hA
  -- the tree edges (named by their child) that cross the cut of `v`
  let t : A → Finset ℕ := fun v => A.filter (fun u =>
    (rank (q u) < rank v.1 ∧ rank v.1 ≤ rank u) ∨ (rank u < rank v.1 ∧ rank v.1 ≤ rank (q u)))
  have hall : ∀ K : Finset A, K.card ≤ (K.biUnion t).card := by
    intro K
    -- the block of `v`: the vertices whose last cut in `K` is the cut of `v`
    let blk : A → Finset ℕ := fun v => C.filter (fun u =>
      rank v.1 ≤ rank u ∧ ∀ v' ∈ K, rank v'.1 ≤ rank u → rank v'.1 ≤ rank v.1)
    have hne : ∀ v ∈ K, (blk v).Nonempty := by
      intro v _
      refine ⟨v.1, ?_⟩
      simp only [blk, mem_filter]
      exact ⟨(mem_erase.mp v.2).2, le_refl _, fun v' _ h => h⟩
    have hmin : ∀ v : A, ∃ u, v ∈ K → (u ∈ blk v ∧ ∀ u' ∈ blk v, d u ≤ d u') := by
      intro v
      by_cases hv : v ∈ K
      · obtain ⟨u, hu, hu'⟩ := exists_min_image (blk v) d (hne v hv)
        exact ⟨u, fun _ => ⟨hu, hu'⟩⟩
      · exact ⟨0, fun h => absurd h hv⟩
    choose ψ hψ using hmin
    apply card_le_card_of_injOn ψ
    · intro v hv
      obtain ⟨hu, hmin'⟩ := hψ v hv
      simp only [blk, mem_filter] at hu
      obtain ⟨huC, hvu, hlast⟩ := hu
      have hvC : v.1 ∈ C := (mem_erase.mp v.2).2
      have hvs : v.1 ≠ s := (mem_erase.mp v.2).1
      have hus : ψ v ≠ s := by
        intro hc
        have := hrs v.1 hvC hvs
        rw [hc] at hvu
        omega
      obtain ⟨hqC, hqd⟩ := hq (ψ v) huC hus
      have hnot : q (ψ v) ∉ blk v := fun hmem => by
        have := hmin' _ hmem
        omega
      simp only [blk, mem_filter, not_and, not_forall] at hnot
      have huA : ψ v ∈ A := mem_erase.mpr ⟨hus, huC⟩
      rw [mem_biUnion]
      by_cases hlt : rank (q (ψ v)) < rank v.1
      · exact ⟨v, hv, mem_filter.mpr ⟨huA, Or.inl ⟨hlt, hvu⟩⟩⟩
      · obtain ⟨v', hv'K, hv'1, hv'2⟩ := hnot hqC (not_lt.mp hlt)
        refine ⟨v', hv'K, mem_filter.mpr ⟨huA, Or.inr ⟨?_, hv'1⟩⟩⟩
        by_contra hge
        exact hv'2 (hlast v' hv'K (not_lt.mp hge))
    · intro v₁ h₁ v₂ h₂ heq
      obtain ⟨hu₁, _⟩ := hψ v₁ h₁
      obtain ⟨hu₂, _⟩ := hψ v₂ h₂
      simp only [blk, mem_filter] at hu₁ hu₂
      rw [heq] at hu₁
      have e1 := hu₂.2.2 v₁ h₁ hu₁.2.1
      have e2 := hu₁.2.2 v₂ h₂ hu₂.2.1
      exact Subtype.ext (hinj _ (mem_erase.mp v₁.2).2 _ (mem_erase.mp v₂.2).2
        (le_antisymm e1 e2))
  obtain ⟨f, hfinj, hft⟩ := (all_card_le_biUnion_card_iff_exists_injective t).mp hall
  have hfA : ∀ v : A, f v ∈ A := fun v => (mem_filter.mp (hft v)).1
  have himg : (univ : Finset A).image f = A := by
    apply eq_of_subset_of_card_le
    · intro x hx
      obtain ⟨v, _, rfl⟩ := mem_image.mp hx
      exact hfA v
    · rw [card_image_of_injective _ hfinj, card_univ, Fintype.card_coe]
  calc ∑ v in A, m v = ∑ v : A, m v.1 := (sum_coe_sort A m).symm
    _ ≤ ∑ v : A, c (f v) := by
      apply sum_le_sum
      intro v _
      have hv := mem_erase.mp v.2
      have hu := mem_erase.mp (hfA v)
      exact hcross v.1 hv.2 hv.1 (f v) hu.2 hu.1 (mem_filter.mp (hft v)).2
    _ = ∑ u in (univ : Finset A).image f, c u :=
      (sum_image (fun x _ y _ h => hfinj h)).symm
    _ = ∑ u in A, c u := by rw [himg]

theorem rank_in_split (l₁ l₂ : List Nat) (v : Nat) (h : v ∉ l₁) :
    rank_in (l₁ ++ v :: l₂) v = l₂.length := by
  induction l₁ with
  | nil => simp [rank_in]
  | cons a rest ih =>
    have ha : a ≠ v := fun hc => h (hc ▸ List.mem_cons_self _ _)
    have hr : v ∉ rest := fun hc => h (List.mem_cons_of_mem _ hc)
    simp only [List.cons_append, rank_in, if_neg ha]
    exact ih hr

theorem rank_in_lt_iff (V l₁ l₂ : List Nat) (v x : Nat) (hnd : V.Nodup)
    (hV : V = l₁ ++ v :: l₂) (hx : x ∈ V) : x ∈ l₂ ↔ rank_in V x < rank_in V v := by
  subst hV
  have hv₁ : v ∉ l₁ := fun hc =>
    (List.nodup_append.mp hnd).2.2 hc (List.mem_cons_self _ _)
  rw [rank_in_split l₁ l₂ v hv₁]
  constructor
  · intro hm
    obtain ⟨a, b, rfl⟩ := List.append_of_mem hm
    have hx₁ : x ∉ l₁ ++ v :: a := by
      intro hc
      have hnd' : ((l₁ ++ v :: a) ++ x :: b).Nodup := by simpa using hnd
      exact (List.nodup_append.mp hnd').2.2 hc (List.mem_cons_self _ _)
    have := rank_in_split (l₁ ++ v :: a) b x hx₁
    rw [show (l₁ ++ v :: a) ++ x :: b = l₁ ++ v :: (a ++ x :: b) by simp] at this
    rw [this]
    simp
    omega
  · intro hlt
    rcases List.mem_append.mp hx with h1 | h1
    · obtain ⟨a, b, rfl⟩ := List.append_of_mem h1
      have hx₁ : x ∉ a := by
        intro hc
        have hnd' : (a ++ (x :: b ++ v :: l₂)).Nodup := by simpa using hnd
        exact (List.nodup_append.mp hnd').2.2 hc (by simp)
      have := rank_in_split a (b ++ v :: l₂) x hx₁
      rw [show a ++ x :: (b ++ v :: l₂) = (a ++ x :: b) ++ v :: l₂ by simp] at this
      rw [this] at hlt
      simp at hlt
      omega
    · rcases List.mem_cons.mp h1 with rfl | h2
      · rw [rank_in_split l₁ l₂ x hv₁] at hlt
        omega
      · exact h2

theorem rank_in_inj (V : List Nat) (hnd : V.Nodup) (a b : Nat) (ha : a ∈ V) (hb : b ∈ V)
    (h : rank_in V a = rank_in V b) : a = b := by
  obtain ⟨l₁, l₂, hV⟩ := List.append_of_mem hb
  by_contra hne
  have hnot : a ∉ l₂ := fun hc => by
    have := (rank_in_lt_iff V l₁ l₂ b a hnd hV ha).mp hc
    omega
  obtain ⟨k₁, k₂, hV'⟩ := List.append_of_mem ha
  have hb₂ : b ∈ k₂ := by
    -- `b` is not before `a`, so it is after
    have hbV : b ∈ k₁ ++ a :: k₂ := hV' ▸ hb
    rcases List.mem_append.mp hbV with h1 | h1
    · exfalso
      -- then `a` would be after `b`
      obtain ⟨x, y, rfl⟩ := List.append_of_mem h1
      have hV'' : V = x ++ b :: (y ++ a :: k₂) := by rw [hV']; simp
      have hb₁ : b ∉ x := fun hc => by
        rw [hV''] at hnd
        exact (List.nodup_append.mp hnd).2.2 hc (List.mem_cons_self _ _)
      have hmem : a ∈ y ++ a :: k₂ := List.mem_append_right _ (List.mem_cons_self _ _)
      have := (rank_in_lt_iff V x (y ++ a :: k₂) b a hnd hV'' ha).mp hmem
      omega
    · rcases List.mem_cons.mp h1 with h2 | h2
      · exact absurd h2.symm hne
      · exact h2
  have := (rank_in_lt_iff V k₁ k₂ a b hnd hV' hb).mp hb₂
  omega

theorem visited_iff_reachable {g : Graph} (hwf : g.WF) {s : Nat} {cum : Bool} {c : Nat}
    {st : gstate} (hinv : GInv g.edges s cum c [] st) (hpq : st.pq = []) (v : Nat) :
    v ∈ st.visited ↔ g.reachable s v := by
  constructor
  · intro hvis
    obtain ⟨l₁, l₂, hl⟩ := List.append_of_mem hvis
    obtain ⟨q, _, hq, _⟩ :=
      gen_walk_path hwf hinv (l₂.length + 1) l₁ v l₂ [] hl (Nat.lt_succ_self _)
    exact ⟨_, hq⟩
  · rintro ⟨p, hp⟩
    exact hinv.reach_visited hpq p v hp

theorem is_path_iff_visited {g g' : Graph} {s : Nat} {c : Nat} {st : gstate}
    (hinv : GInv g.edges s false c [] st) (hpq : st.pq = [])
    (htbl : prim_tbl g'.prim_result = st.tbl) (hmax : g.contains_vertex SIZE_MAX = false)
    (v : Nat) : g'.is_path v = true ↔ v ∈ st.visited := by
  have hne_max : ∀ x, UMap.contains g.edges x = true → x ≠ SIZE_MAX := by
    rintro x hx rfl
    have : g.contains_vertex SIZE_MAX = true := hx
    rw [hmax] at this
    cases this
  rw [is_path_iff_tbl, htbl]
  constructor
  · rintro ⟨e, he1, he2⟩
    have hcv : UMap.contains g.edges v = true := by
      rw [← hinv.keys]; unfold UMap.contains; rw [he1]; rfl
    rw [hinv.visited_iff hpq]
    intro hm
    have := (hinv.unreached v hm).2 hcv
    rw [he1] at this
    cases this
    exact he2 rfl
  · intro hvis
    have hfin := (hinv.visited_iff hpq v).mp hvis
    obtain ⟨e, he⟩ := find_of_gmet_ne_top _ _ hfin
    refine ⟨e, he, ?_⟩
    rw [← gpar_of_find _ _ _ he]
    by_cases hvs : v = s
    · subst hvs
      rw [gpar_of_find _ _ _ hinv.src]
      exact hne_max v (hinv.vis_sub v hvis)
    · exact hne_max _ (hinv.vis_sub _ (hinv.par_ok v hvs hfin).1)

/-- The tree edge of a visited vertex: its parent was visited before it, the
edge from the parent is stored, and the recorded metric is its weight. -/
theorem prim_tree_edge {g : Graph} (hwf : g.WF) {s : Nat} {c : Nat} {st : gstate}
    (hinv : GInv g.edges s false c [] st) (v : Nat) (hv : v ∈ st.visited) (hvs : v ≠ s) :
    gpar st.tbl v ∈ st.visited ∧
      rank_in st.visited (gpar st.tbl v) < rank_in st.visited v ∧
      g.contains_edge (gpar st.tbl v) v = true ∧
      g.cost (gpar st.tbl v) v = gmet st.tbl v := by
  have hfin : gmet st.tbl v ≠ ⊤ := fun hm => (hinv.unreached v hm).1 hv
  obtain ⟨h1, w, h2, h3⟩ := hinv.par_ok v hvs hfin
  obtain ⟨l₁, l₂, hl⟩ := List.append_of_mem hv
  have h4 := hinv.par_before l₁ v l₂ hl hvs
  have hedge := (Graph.isEdge_iff g hwf _ _ _).mp h2
  refine ⟨h1, (rank_in_lt_iff _ l₁ l₂ v _ hinv.vis_nodup hl h1).mp h4, hedge.1, ?_⟩
  rw [hedge.2, h3]
  unfold gcand
  simp

/-- The metric of a visited vertex is at most the weight of every edge that
leaves the set of vertices visited before it. -/
theorem prim_cut {g : Graph} (hwf : g.WF) {s : Nat} {c : Nat} {st : gstate}
    (hinv : GInv g.edges s false c [] st) (v : Nat) (hv : v ∈ st.visited) (hvs : v ≠ s)
    (x y : Nat) (hx : x ∈ st.visited) (hxv : rank_in st.visited x < rank_in st.visited v)
    (hy : y ∈ st.visited → rank_in st.visited v ≤ rank_in st.visited y)
    (hxy : g.contains_edge x y = true) : gmet st.tbl v ≤ g.cost x y := by
  obtain ⟨l₁, l₂, hl⟩ := List.append_of_mem hv
  have hx₂ : x ∈ l₂ := (rank_in_lt_iff _ l₁ l₂ v x hinv.vis_nodup hl hx).mpr hxv
  have hy₂ : y ∉ l₂ := by
    intro hc
    have hyV : y ∈ st.visited := by
      rw [hl]; exact List.mem_append_right _ (List.mem_cons_of_mem _ hc)
    have := (rank_in_lt_iff _ l₁ l₂ v y hinv.vis_nodup hl hyV).mp hc
    have := hy hyV
    omega
  obtain ⟨w, hw⟩ := Graph.exists_isEdge g x y hxy
  rw [((Graph.isEdge_iff g hwf _ _ _).mp hw).2]
  exact hinv.cut_min rfl l₁ v l₂ hl hvs x hx₂ y w hw hy₂

theorem prim_parent_chain {g : Graph} (hwf : g.WF) {s : Nat} {c : Nat} {st : gstate}
    (hinv : GInv g.edges s false c [] st) (n : Nat) :
    ∀ v ∈ st.visited, rank_in st.visited v ≤ n → ∃ k, (gpar st.tbl)^[k] v = s := by
  induction n with
  | zero =>
    intro v hv hr
    by_cases hvs : v = s
    · exact ⟨0, hvs⟩
    · have := (prim_tree_edge hwf hinv v hv hvs).2.1
      omega
  | succ n ih =>
    intro v hv hr
    by_cases hvs : v = s
    · exact ⟨0, hvs⟩
    · obtain ⟨h1, h2, _⟩ := prim_tree_edge hwf hinv v hv hvs
      obtain ⟨k, hk⟩ := ih _ h1 (by omega)
      exact ⟨k + 1, by rw [Function.iterate_succ_apply]; exact hk⟩

theorem reachable_step (g : Graph) (s u v : Nat) (hu : g.reachable s u)
    (he : g.contains_edge u v = true) : g.reachable s v := by
  obtain ⟨p, hp⟩ := hu
  -- the path ends in `u`
  obtain ⟨p', rfl⟩ : ∃ p', p = p' ++ [u] := by
    have hlast := hp.2.1
    rcases List.eq_nil_or_concat p with h | ⟨l, z, h⟩
    · rw [h] at hlast; cases hlast
    · rw [h, List.concat_eq_append, List.getLast?_concat] at hlast
      cases hlast
      exact ⟨l, by rw [h, List.concat_eq_append]⟩
  exact ⟨p' ++ [u, v], (Graph.directed_path_snoc g s u v p').mpr ⟨hp, he⟩⟩

theorem tree_reach_reachable (g : Graph) (hund : g.undirected) (s : Nat)
    (hs : g.contains_vertex s = true) (T : List (Nat × Nat))
    (hT : ∀ e ∈ T, g.contains_edge e.1 e.2 = true) (n : Nat) :
    ∀ v, tree_reach T s n v → g.reachable s v := by
  induction n with
  | zero =>
    intro v hv
    have : v = s := hv
    subst this
    exact ⟨[v], rfl, rfl, hs⟩
  | succ n ih =>
    rintro v ⟨u, hu, hadj⟩
    have hur := ih u hu
    rcases hadj with h | h
    · exact reachable_step g s u v hur (hT _ h)
    · exact reachable_step g s u v hur (hund _ _ (hT _ h)).1

/-- The edge set of a spanning tree has a parent map towards `s` with the same
total weight. -/
theorem edge_tree_parent_map (g : Graph) (hund : g.undirected) (s : Nat)
    (hs : g.contains_vertex s = true) (T : List (Nat × Nat)) (hT : g.edge_tree s T)
    (vs : List Nat) (hnd : vs.Nodup) (hvs : ∀ v, v ∈ vs ↔ (g.reachable s v ∧ v ≠ s)) :
    ∃ q, g.spanning_tree s q ∧
      (vs.map (fun v => g.cost (q v) v)).sum = (T.map (fun e => g.cost e.1 e.2)).sum := by
  classical
  have hTe : ∀ e ∈ T, g.contains_edge e.1 e.2 = true := fun e he => (hT.edges e he).1
  -- the distance from `s` inside the tree
  let d : Nat → Nat := fun v =>
    if h : g.reachable s v then Nat.find (hT.connects v h) else 0
  have hd_spec : ∀ v (h : g.reachable s v), tree_reach T s (d v) v := by
    intro v h
    show tree_reach T s (if h : g.reachable s v then Nat.find (hT.connects v h) else 0) v
    rw [dif_pos h]
    exact Nat.find_spec (hT.connects v h)
  have hd_le : ∀ v (h : g.reachable s v) n, tree_reach T s n v → d v ≤ n := by
    intro v h n hn
    show (if h : g.reachable s v then Nat.find (hT.connects v h) else 0) ≤ n
    rw [dif_pos h]
    exact Nat.find_min' _ hn
  -- every vertex of the component other than `s` has a neighbour nearer to `s`
  have hstep : ∀ v, ∃ u, g.reachable s v → v ≠ s →
      tree_adj T u v ∧ g.reachable s u ∧ d u < d v := by
    intro v
    by_cases h : g.reachable s v ∧ v ≠ s
    · have hsp := hd_spec v h.1
      cases hn : d v with
      | zero =>
        rw [hn] at hsp
        exact absurd hsp h.2
      | succ k =>
        rw [hn] at hsp
        obtain ⟨u, hu, hadj⟩ := hsp
        have hur := tree_reach_reachable g hund s hs T hTe k u hu
        exact ⟨u, fun _ _ => ⟨hadj, hur, Nat.lt_succ_of_le (hd_le u hur k hu)⟩⟩
    · exact ⟨0, fun h1 h2 => absurd ⟨h1, h2⟩ h⟩
  choose q hq using hstep
  have hedge : ∀ v, g.reachable s v → v ≠ s →
      g.contains_edge (q v) v = true ∧
        (((q v, v) ∈ T) ∨ ((v, q v) ∈ T ∧ g.cost v (q v) = g.cost (q v) v)) := by
    intro v hv hvs'
    obtain ⟨hadj, _, _⟩ := hq v hv hvs'
    rcases hadj with h | h
    · exact ⟨hTe _ h, Or.inl h⟩
    · have := hund _ _ (hTe _ h)
      exact ⟨this.1, Or.inr ⟨h, this.2.symm⟩⟩
  have hroot : ∀ n v, g.reachable s v → d v ≤ n → ∃ k, q^[k] v = s := by
    intro n
    induction n with
    | zero =>
      intro v hv hdv
      by_cases hvs' : v = s
      · exact ⟨0, hvs'⟩
      · have := (hq v hv hvs').2.2
        omega
    | succ n ih =>
      intro v hv hdv
      by_cases hvs' : v = s
      · exact ⟨0, hvs'⟩
      · obtain ⟨_, h2, h3⟩ := hq v hv hvs'
        obtain ⟨k, hk⟩ := ih (q v) h2 (by omega)
        exact ⟨k + 1, by rw [Function.iterate_succ_apply]; exact hk⟩
  refine ⟨q, ⟨fun v hv hvs' => (hedge v hv hvs').1, fun v hv => hroot (d v) v hv (le_refl _)⟩,
    ?_⟩
  -- the tree edge of `v` as an element of `T`
  let e : Nat → Nat × Nat := fun v => if (q v, v) ∈ T then (q v, v) else (v, q v)
  have he_mem : ∀ v ∈ vs, e v ∈ T := by
    intro v hv
    obtain ⟨h1, h2⟩ := (hvs v).mp hv
    show (if (q v, v) ∈ T then (q v, v) else (v, q v)) ∈ T
    by_cases hm : (q v, v) ∈ T
    · rw [if_pos hm]; exact hm
    · rw [if_neg hm]
      rcases (hedge v h1 h2).2 with h | h
      · exact absurd h hm
      · exact h.1
  have he_cost : ∀ v ∈ vs, g.cost (e v).1 (e v).2 = g.cost (q v) v := by
    intro v hv
    obtain ⟨h1, h2⟩ := (hvs v).mp hv
    show g.cost (if (q v, v) ∈ T then (q v, v) else (v, q v)).1
      (if (q v, v) ∈ T then (q v, v) else (v, q v)).2 = _
    by_cases hm : (q v, v) ∈ T
    · rw [if_pos hm]
    · rw [if_neg hm]
      rcases (hedge v h1 h2).2 with h | h
      · exact absurd h hm
      · exact h.2
  have he_inj : ∀ v ∈ vs, ∀ u ∈ vs, e v = e u → v = u := by
    intro v hv u hu heq
    obtain ⟨hv1, hv2⟩ := (hvs v).mp hv
    obtain ⟨hu1, hu2⟩ := (hvs u).mp hu
    have dv := (hq v hv1 hv2).2.2
    have du := (hq u hu1 hu2).2.2
    have hcases : e v = (q v, v) ∨ e v = (v, q v) := by
      show (if (q v, v) ∈ T then (q v, v) else (v, q v)) = _ ∨
        (if (q v, v) ∈ T then (q v, v) else (v, q v)) = _
      by_cases hm : (q v, v) ∈ T
      · rw [if_pos hm]; exact Or.inl rfl
      · rw [if_neg hm]; exact Or.inr rfl
    have hcases' : e u = (q u, u) ∨ e u = (u, q u) := by
      show (if (q u, u) ∈ T then (q u, u) else (u, q u)) = _ ∨
        (if (q u, u) ∈ T then (q u, u) else (u, q u)) = _
      by_cases hm : (q u, u) ∈ T
      · rw [if_pos hm]; exact Or.inl rfl
      · rw [if_neg hm]; exact Or.inr rfl
    rcases hcases with h1 | h1 <;> rcases hcases' with h2 | h2 <;>
      rw [h1, h2] at heq <;> simp only [Prod.mk.injEq] at heq
    · exact heq.2
    · obtain ⟨ha, hb⟩ := heq
      rw [ha] at dv
      rw [← hb] at du
      omega
    · obtain ⟨ha, hb⟩ := heq
      rw [hb] at dv
      rw [← ha] at du
      omega
    · exact heq.1
  -- the tree edges of the vertices are all the edges of `T`
  obtain ⟨vs', hnd', hvs'', hlen⟩ := hT.card
  have hperm : vs'.Perm vs := by
    rw [List.perm_ext_iff_of_nodup hnd' hnd]
    intro v
    rw [hvs'' v, hvs v]
  have hlen' : T.length = vs.length := by rw [hlen, hperm.length_eq]
  have himg : vs.toFinset.image e = T.toFinset := by
    apply Finset.eq_of_subset_of_card_le
    · intro x hx
      obtain ⟨v, hv, rfl⟩ := Finset.mem_image.mp hx
      exact List.mem_toFinset.mpr (he_mem v (List.mem_toFinset.mp hv))
    · rw [Finset.card_image_of_injOn, List.toFinset_card_of_nodup hnd,
        List.toFinset_card_of_nodup hT.nodup, hlen']
      intro a ha b hb hab
      exact he_inj a (List.mem_toFinset.mp ha) b (List.mem_toFinset.mp hb) hab
  rw [← List.sum_toFinset _ hnd, ← List.sum_toFinset _ hT.nodup, ← himg,
    Finset.sum_image (fun a ha b hb hab =>
      he_inj a (List.mem_toFinset.mp ha) b (List.mem_toFinset.mp hb) hab)]
  exact Finset.sum_congr rfl (fun v hv => (he_cost v (List.mem_toFinset.mp hv)).symm)

/-- The weight of Prim's tree is at most the weight of every spanning tree of
the component given by a parent map: each tree edge of the competitor is
matched with a visit of Prim whose cut it crosses. -/
theorem prim_tree_le_parent_map (g : Graph) (s : Nat) (hwf : g.WF) (hund : g.undirected)
    (g' : Graph) (st : gstate) (c : Nat) (hinv : GInv g.edges s false c [] st)
    (hpq : st.pq = []) (hpar : ∀ v, g'.prim_parent v = gpar st.tbl v)
    (q : Nat → Nat) (vs : List Nat) (hq : g.spanning_tree s q) (hnd : vs.Nodup)
    (hvs : ∀ v, v ∈ vs ↔ (g.reachable s v ∧ v ≠ s)) :
    (vs.map (fun v => g.cost (g'.prim_parent v) v)).sum ≤
      (vs.map (fun v => g.cost (q v) v)).sum := by
  classical
  have hreach : ∀ v, v ∈ st.visited ↔ g.reachable s v := visited_iff_reachable hwf hinv hpq
  have hset : vs.toFinset = st.visited.toFinset.erase s := by
    ext v
    rw [List.mem_toFinset, Finset.mem_erase, List.mem_toFinset, hvs v, hreach v]
    exact and_comm
  rw [← List.sum_toFinset _ hnd, ← List.sum_toFinset _ hnd, hset]
  -- the depth of a vertex in the competing tree
  let d : Nat → Nat := fun v =>
    if h : g.reachable s v then Nat.find (hq.root v h) else 0
  have hmemC : ∀ v, v ∈ st.visited.toFinset ↔ v ∈ st.visited := fun v => List.mem_toFinset
  apply cut_exchange st.visited.toFinset s (rank_in st.visited) d q
  · intro a ha b hb hab
    exact rank_in_inj st.visited hinv.vis_nodup a b ((hmemC a).mp ha) ((hmemC b).mp hb) hab
  · intro v hv hvs'
    have hv' := (hmemC v).mp hv
    have hsV := hinv.source_visited hpq
    obtain ⟨l₁, l₂, hl⟩ := List.append_of_mem hv'
    have hs₂ : s ∈ l₂ := by
      have := hinv.last_is_source (l₁ ++ [v]) l₂ (by rw [hl]; simp)
      by_cases hl₂ : l₂ = []
      · subst hl₂
        have h1 := hinv.last_is_source l₁ [v] hl (List.cons_ne_nil _ _)
        exact absurd (List.mem_singleton.mp h1).symm hvs'
      · exact this hl₂
    exact (rank_in_lt_iff _ l₁ l₂ v s hinv.vis_nodup hl hsV).mp hs₂
  · intro u hu hus
    have hu' := (hmemC u).mp hu
    have hur := (hreach u).mp hu'
    have he := hq.edge u hur hus
    have he' := (hund _ _ he).1
    obtain ⟨w, hw⟩ := Graph.exists_isEdge g u (q u) he'
    have hqV : q u ∈ st.visited := hinv.edge_closed hpq hu' hw
    have hqr := (hreach (q u)).mp hqV
    refine ⟨(hmemC _).mpr hqV, ?_⟩
    show (if h : g.reachable s (q u) then Nat.find (hq.root (q u) h) else 0) <
      (if h : g.reachable s u then Nat.find (hq.root u h) else 0)
    rw [dif_pos hqr, dif_pos hur]
    have hspec := Nat.find_spec (hq.root u hur)
    cases hn : Nat.find (hq.root u hur) with
    | zero =>
      rw [hn] at hspec
      exact absurd hspec hus
    | succ k =>
      rw [hn, Function.iterate_succ_apply] at hspec
      exact Nat.lt_succ_of_le (Nat.find_min' (hq.root (q u) hqr) hspec)
  · intro v hv hvs' u hu hus hcr
    have hv' := (hmemC v).mp hv
    have hu' := (hmemC u).mp hu
    have hur := (hreach u).mp hu'
    have he := hq.edge u hur hus
    have he' := hund _ _ he
    obtain ⟨w, hw⟩ := Graph.exists_isEdge g u (q u) he'.1
    have hqV : q u ∈ st.visited := hinv.edge_closed hpq hu' hw
    show g.cost (g'.prim_parent v) v ≤ g.cost (q u) u
    rw [hpar, (prim_tree_edge hwf hinv v hv' hvs').2.2.2]
    rcases hcr with ⟨h1, h2⟩ | ⟨h1, h2⟩
    · exact prim_cut hwf hinv v hv' hvs' (q u) u hqV h1 (fun _ => h2) he
    · rw [← he'.2]
      exact prim_cut hwf hinv v hv' hvs' u (q u) hu' h1 (fun _ => h2) he'.1

/-- The tree edges of a parent map form the edge set of a spanning tree: the
two descriptions of a spanning tree of the component agree. -/
theorem spanning_tree_edge_tree (g : Graph) (hund : g.undirected) (s : Nat)
    (q : Nat → Nat) (hq : g.spanning_tree s q)
    (vs : List Nat) (hnd : vs.Nodup) (hvs : ∀ v, v ∈ vs ↔ (g.reachable s v ∧ v ≠ s)) :
    g.edge_tree s (vs.map (fun v => (q v, v))) := by
  have hpar : ∀ v, g.reachable s v → v ≠ s → g.reachable s (q v) := fun v hv hne =>
    reachable_step g s v (q v) hv (hund _ _ (hq.edge v hv hne)).1
  refine ⟨?_, ?_, ?_, ⟨vs, hnd, hvs, List.length_map _ _⟩⟩
  · refine hnd.map ?_
    intro a b hab
    exact congrArg Prod.snd hab
  · intro e he
    obtain ⟨v, hv, rfl⟩ := List.mem_map.mp he
    have hv' := (hvs v).mp hv
    exact ⟨hq.edge v hv'.1 hv'.2, hpar v hv'.1 hv'.2⟩
  · intro v hv
    obtain ⟨n, hn⟩ := hq.root v hv
    clear hnd
    induction n generalizing v with
    | zero => exact ⟨0, hn⟩
    | succ n ih =>
      by_cases hne : v = s
      · exact ⟨0, hne⟩
      · rw [Function.iterate_succ_apply] at hn
        obtain ⟨m, hm⟩ := ih (q v) (hpar v hv hne) hn
        exact ⟨m + 1, q v, hm, Or.inl (List.mem_map.mpr ⟨v, (hvs v).mpr ⟨hv, hne⟩, rfl⟩)⟩

theorem Graph.undirected_of_stored (g : Graph)
    (h : ∀ e ∈ g.edges, ∀ n ∈ e.2,
      g.contains_edge n.1 e.1 = true ∧ g.cost n.1 e.1 = g.cost e.1 n.1) : g.undirected := by
  intro a b hab
  obtain ⟨w, adj, h1, h2⟩ := Graph.exists_isEdge g a b hab
  exact h (a, adj) (UMap.mem_of_find _ _ _ h1) (b, w) (UMap.mem_of_find _ _ _ h2)

/-- **C4** On a well-formed graph that encodes an undirected graph and has no
vertex of id `SIZE_MAX`, `prim(s)` from a present source returns, reaches
exactly the component of `s`, and the recorded parents form a spanning tree of
that component rooted at `s`, each recorded metric being the weight of the tree
edge; the tree edges `(parent v, v)` are also the edge set of a spanning tree
of the component.  The total weight of the tree edges is at most that of every
spanning tree of the component, given by its parent map or by its edge set, for
every choice among equal keys and every iteration order. -/
theorem prim_minimum_spanning_tree (g : Graph) (s : Nat) (fuel : Nat) (tie : Nat → Nat)
    (hwf : g.WF) (hund : g.undirected) (hmax : g.contains_vertex SIZE_MAX = false)
    (hs : g.contains_vertex s = true) (hfuel : g.edge_count + 1 < fuel) :
    ∃ g', g.prim fuel tie s = .ok g' ∧
      (∀ v, g'.is_path v = true ↔ g.reachable s v) ∧
      g.spanning_tree s g'.prim_parent ∧
      (∀ v, g.reachable s v → v ≠ s → g'.prim_cost v = g.cost (g'.prim_parent v) v) ∧
      (∃ vs : List Nat, vs.Nodup ∧ ∀ v, v ∈ vs ↔ (g.reachable s v ∧ v ≠ s)) ∧
      (∀ vs : List Nat, vs.Nodup → (∀ v, v ∈ vs ↔ (g.reachable s v ∧ v ≠ s)) →
        g.edge_tree s (vs.map (fun v => (g'.prim_parent v, v)))) ∧
      (∀ (q : Nat → Nat) (vs : List Nat), g.spanning_tree s q → vs.Nodup →
        (∀ v, v ∈ vs ↔ (g.reachable s v ∧ v ≠ s)) →
        (vs.map (fun v => g.cost (g'.prim_parent v) v)).sum ≤
          (vs.map (fun v => g.cost (q v) v)).sum) ∧
      (∀ (T : List (Nat × Nat)) (vs : List Nat), g.edge_tree s T → vs.Nodup →
        (∀ v, v ∈ vs ↔ (g.reachable s v ∧ v ≠ s)) →
        (vs.map (fun v => g.cost (g'.prim_parent v) v)).sum ≤
          (T.map (fun e => g.cost e.1 e.2)).sum) := by
  classical
  obtain ⟨g', st, c, hrun, _, _, htbl, ⟨hinv, _⟩, hpq⟩ := prim_run g hwf s hs fuel tie hfuel
  have hreach : ∀ v, v ∈ st.visited ↔ g.reachable s v := visited_iff_reachable hwf hinv hpq
  have hpar : ∀ v, g'.prim_parent v = gpar st.tbl v := fun v => by
    rw [prim_parent_eq_gpar, htbl]
  have hpar' : g'.prim_parent = gpar st.tbl := funext hpar
  have hmet : ∀ v, g'.prim_cost v = gmet st.tbl v := fun v => by
    rw [prim_cost_eq_gmet, htbl]
  have hmin : ∀ (q : Nat → Nat) (vs : List Nat), g.spanning_tree s q → vs.Nodup →
      (∀ v, v ∈ vs ↔ (g.reachable s v ∧ v ≠ s)) →
      (vs.map (fun v => g.cost (g'.prim_parent v) v)).sum ≤
        (vs.map (fun v => g.cost (q v) v)).sum := by
    intro q vs hq hnd hvs
    exact prim_tree_le_parent_map g s hwf hund g' st c hinv hpq hpar q vs hq hnd hvs
  have htree : g.spanning_tree s g'.prim_parent := by
    refine ⟨fun v hv hvs => ?_, fun v hv => ?_⟩
    · rw [hpar]
      exact (prim_tree_edge hwf hinv v ((hreach v).mpr hv) hvs).2.2.1
    · rw [hpar']
      exact prim_parent_chain hwf hinv _ v ((hreach v).mpr hv) (le_refl _)
  refine ⟨g', hrun, fun v => ?_, htree, fun v hv hvs => ?_,
    ⟨st.visited.erase s, hinv.vis_nodup.erase s, fun v => ?_⟩,
    fun vs hnd hvs => spanning_tree_edge_tree g hund s _ htree vs hnd hvs, hmin,
    fun T vs hT hnd hvs => ?_⟩
  · rw [is_path_iff_visited hinv hpq htbl hmax, hreach]
  · rw [hpar, hmet]
    exact (prim_tree_edge hwf hinv v ((hreach v).mpr hv) hvs).2.2.2.symm
  · rw [hinv.vis_nodup.mem_erase_iff, hreach v]
    exact and_comm
  · obtain ⟨q, hq, hsum⟩ := edge_tree_parent_map g hund s hs T hT vs hnd hvs
    rw [← hsum]
    exact hmin q vs hq hnd hvs

/-- Witness of **C4**: the triangle with weights 1, 2, 3 and source 1. -/
theorem prim_minimum_spanning_tree_witness :
    ∃ g', example_triangle.prim 20 (fun _ => 0) 1 = .ok g' ∧
      (∀ v, g'.is_path v = true ↔ example_triangle.reachable 1 v) ∧
      example_triangle.spanning_tree 1 g'.prim_parent ∧
      (∀ v, example_triangle.reachable 1 v → v ≠ 1 →
        g'.prim_cost v = example_triangle.cost (g'.prim_parent v) v) ∧
      (∃ vs : List Nat, vs.Nodup ∧ ∀ v, v ∈ vs ↔ (example_triangle.reachable 1 v ∧ v ≠ 1)) ∧
      (∀ vs : List Nat, vs.Nodup →
        (∀ v, v ∈ vs ↔ (example_triangle.reachable 1 v ∧ v ≠ 1)) →
        example_triangle.edge_tree 1 (vs.map (fun v => (g'.prim_parent v, v)))) ∧
      (∀ (q : Nat → Nat) (vs : List Nat), example_triangle.spanning_tree 1 q → vs.Nodup →
        (∀ v, v ∈ vs ↔ (example_triangle.reachable 1 v ∧ v ≠ 1)) →
        (vs.map (fun v => example_triangle.cost (g'.prim_parent v) v)).sum ≤
          (vs.map (fun v => example_triangle.cost (q v) v)).sum) ∧
      (∀ (T : List (Nat × Nat)) (vs : List Nat), example_triangle.edge_tree 1 T → vs.Nodup →
        (∀ v, v ∈ vs ↔ (example_triangle.reachable 1 v ∧ v ≠ 1)) →
        (vs.map (fun v => example_triangle.cost (g'.prim_parent v) v)).sum ≤
          (T.map (fun e => example_triangle.cost e.1 e.2)).sum) :=
  prim_minimum_spanning_tree example_triangle 1 20 (fun _ => 0) (by decide!)
    (Graph.undirected_of_stored example_triangle (by decide!)) (by decide!) (by decide!)
    (by decide!)

/-! ## Runs on an absent source, and what each operation leaves alone -/

/-- **C13** For every state and every id `s` that is not a vertex, `prim(s)` and
`dijkstra(s)` return at once (with any loop budget) and return the state they
were given: the adjacency storage and both result tables are the same, hence
so are `is_path(x)` and `distance(x)` for every `x`. -/
theorem absent_source_no_op (g : Graph) (fuel : Nat) (tie : Nat → Nat) (s : Nat)
    (hs : g.contains_vertex s = false) :
    g.prim fuel tie s = .ok g ∧ g.dijkstra fuel tie s = .ok g ∧
      ∀ g', (g.prim fuel tie s = .ok g' ∨ g.dijkstra fuel tie s = .ok g') →
        g'.edges = g.edges ∧ g'.prim_result = g.prim_result ∧
          g'.dijkstra_result = g.dijkstra_result ∧
          ∀ x, g'.is_path x = g.is_path x ∧ g'.distance x = g.distance x := by
  have hp : g.prim fuel tie s = .ok g := by
    unfold Graph.prim
    rw [hs]
    rfl
  have hd : g.dijkstra fuel tie s = .ok g := by
    unfold Graph.dijkstra
    rw [hs]
    rfl
  refine ⟨hp, hd, fun g' h => ?_⟩
  have hg : g' = g := by
    rcases h with h | h
    · rw [hp] at h
      exact (Except.ok.inj h).symm
    · rw [hd] at h
      exact (Except.ok.inj h).symm
  subst hg
  exact ⟨rfl, rfl, rfl, fun _ => ⟨rfl, rfl⟩⟩

/-- Witness of **C13**: a state with results of earlier runs, and the absent
id 0. -/
theorem absent_source_no_op_witness :
    example_with_results.contains_vertex 0 = false ∧
      example_with_results.prim 0 (fun _ => 0) 0 = .ok example_with_results ∧
      example_with_results.dijkstra 0 (fun _ => 0) 0 = .ok example_with_results ∧
      ∀ g', (example_with_results.prim 0 (fun _ => 0) 0 = .ok g' ∨
          example_with_results.dijkstra 0 (fun _ => 0) 0 = .ok g') →
        g'.edges = example_with_results.edges ∧
          g'.prim_result = example_with_results.prim_result ∧
          g'.dijkstra_result = example_with_results.dijkstra_result ∧
          ∀ x, g'.is_path x = example_with_results.is_path x ∧
            g'.distance x = example_with_results.distance x :=
  ⟨by decide, absent_source_no_op example_with_results 0 (fun _ => 0) 0 (by decide)⟩

theorem Graph.prim_dijkstra_result (g g' : Graph) (fuel : Nat) (tie : Nat → Nat) (s : Nat)
    (h : g.prim fuel tie s = .ok g') : g'.dijkstra_result = g.dijkstra_result := by
  unfold Graph.prim at h
  split at h
  · cases h; rfl
  · split at h
    · cases h
    · split at h
      · cases h
      · cases h; rfl

theorem Graph.dijkstra_prim_result (g g' : Graph) (fuel : Nat) (tie : Nat → Nat) (s : Nat)
    (h : g.dijkstra fuel tie s = .ok g') : g'.prim_result = g.prim_result := by
  unfold Graph.dijkstra at h
  split at h
  · cases h; rfl
  · split at h
    · cases h
    · split at h
      · cases h
      · cases h; rfl

/-- The four mutators leave both result tables as they are. -/
theorem Graph.mutators_keep_results (g : Graph) (id src dest : Nat) (weight : ℚ) :
    ((g.add_vertex id).2.prim_result = g.prim_result ∧
      (g.add_vertex id).2.dijkstra_result = g.dijkstra_result) ∧
    ((g.add_edge src dest weight).2.prim_result = g.prim_result ∧
      (g.add_edge src dest weight).2.dijkstra_result = g.dijkstra_result) ∧
    ((g.remove_vertex id).2.prim_result = g.prim_result ∧
      (g.remove_vertex id).2.dijkstra_result = g.dijkstra_result) ∧
    ((g.remove_edge src dest).2.prim_result = g.prim_result ∧
      (g.remove_edge src dest).2.dijkstra_result = g.dijkstra_result) := by
  refine ⟨?_, ?_, ?_, ?_⟩
  · unfold Graph.add_vertex
    split <;> exact ⟨rfl, rfl⟩
  · unfold Graph.add_edge
    split <;> exact ⟨rfl, rfl⟩
  · unfold Graph.remove_vertex
    split <;> exact ⟨rfl, rfl⟩
  · unfold Graph.remove_edge
    split <;> exact ⟨rfl, rfl⟩

/-- A run of `prim` or `dijkstra` returns on a well-formed graph for every id,
vertex or not, given enough fuel. -/
theorem Graph.runs_return (g : Graph) (hwf : g.WF) (fuel : Nat) (tie : Nat → Nat) (s : Nat)
    (hfuel : g.edge_count + 1 < fuel) :
    (∃ g', g.prim fuel tie s = .ok g') ∧ (∃ g', g.dijkstra fuel tie s = .ok g') := by
  cases hs : g.contains_vertex s with
  | false =>
    refine ⟨⟨g, ?_⟩, ⟨g, ?_⟩⟩
    · unfold Graph.prim; rw [hs]; rfl
    · unfold Graph.dijkstra; rw [hs]; rfl
  | true =>
    obtain ⟨g', _, _, h, _⟩ := prim_run g hwf s hs fuel tie hfuel
    obtain ⟨g'', _, _, h', _⟩ := dijkstra_run g hwf s hs fuel tie hfuel
    exact ⟨⟨g', h⟩, ⟨g'', h'⟩⟩

/-- **C14** The four mutators, successful or not, leave the Prim and the
Dijkstra result tables unchanged.  On a well-formed graph `prim(s)` returns and
leaves the Dijkstra result table and the adjacency storage unchanged, and
`dijkstra(s)` returns and leaves the Prim result table and the adjacency
storage unchanged, for every `s`; with an absent source the algorithm leaves
its own table unchanged too. -/
theorem result_tables_frame (g : Graph) (id src dest : Nat) (weight : ℚ) (fuel : Nat)
    (tie : Nat → Nat) (s : Nat) (hwf : g.WF) (hfuel : g.edge_count + 1 < fuel) :
    ((g.add_vertex id).2.prim_result = g.prim_result ∧
      (g.add_vertex id).2.dijkstra_result = g.dijkstra_result) ∧
    ((g.add_edge src dest weight).2.prim_result = g.prim_result ∧
      (g.add_edge src dest weight).2.dijkstra_result = g.dijkstra_result) ∧
    ((g.remove_vertex id).2.prim_result = g.prim_result ∧
      (g.remove_vertex id).2.dijkstra_result = g.dijkstra_result) ∧
    ((g.remove_edge src dest).2.prim_result = g.prim_result ∧
      (g.remove_edge src dest).2.dijkstra_result = g.dijkstra_result) ∧
    (∃ g', g.prim fuel tie s = .ok g' ∧ g'.dijkstra_result = g.dijkstra_result ∧
      g'.edges = g.edges ∧
      (g.contains_vertex s = false → g'.prim_result = g.prim_result)) ∧
    (∃ g', g.dijkstra fuel tie s = .ok g' ∧ g'.prim_result = g.prim_result ∧
      g'.edges = g.edges ∧
      (g.contains_vertex s = false → g'.dijkstra_result = g.dijkstra_result)) := by
  obtain ⟨h1, h2, h3, h4⟩ := Graph.mutators_keep_results g id src dest weight
  obtain ⟨⟨g', hp⟩, ⟨g'', hd⟩⟩ := Graph.runs_return g hwf fuel tie s hfuel
  refine ⟨h1, h2, h3, h4, ⟨g', hp, Graph.prim_dijkstra_result g g' fuel tie s hp,
    Graph.prim_edges g g' fuel tie s hp, fun hs => ?_⟩,
    ⟨g'', hd, Graph.dijkstra_prim_result g g'' fuel tie s hd,
      Graph.dijkstra_edges g g'' fuel tie s hd, fun hs => ?_⟩⟩
  · unfold Graph.prim at hp
    rw [hs] at hp
    cases hp
    rfl
  · unfold Graph.dijkstra at hd
    rw [hs] at hd
    cases hd
    rfl

/-- Witness of **C14**: the state with results of earlier runs. -/
theorem result_tables_frame_witness :
    ((example_with_results.add_vertex 2).2.prim_result = example_with_results.prim_result ∧
      (example_with_results.add_vertex 2).2.dijkstra_result =
        example_with_results.dijkstra_result) ∧
    ((example_with_results.add_edge 1 1 3).2.prim_result = example_with_results.prim_result ∧
      (example_with_results.add_edge 1 1 3).2.dijkstra_result =
        example_with_results.dijkstra_result) ∧
    ((example_with_results.remove_vertex 2).2.prim_result =
        example_with_results.prim_result ∧
      (example_with_results.remove_vertex 2).2.dijkstra_result =
        example_with_results.dijkstra_result) ∧
    ((example_with_results.remove_edge 1 1).2.prim_result =
        example_with_results.prim_result ∧
      (example_with_results.remove_edge 1 1).2.dijkstra_result =
        example_with_results.dijkstra_result) ∧
    (∃ g', example_with_results.prim 5 (fun _ => 0) 1 = .ok g' ∧
      g'.dijkstra_result = example_with_results.dijkstra_result ∧
      g'.edges = example_with_results.edges ∧
      (example_with_results.contains_vertex 1 = false →
        g'.prim_result = example_with_results.prim_result)) ∧
    (∃ g', example_with_results.dijkstra 5 (fun _ => 0) 1 = .ok g' ∧
      g'.prim_result = example_with_results.prim_result ∧
      g'.edges = example_with_results.edges ∧
      (example_with_results.contains_vertex 1 = false →
        g'.dijkstra_result = example_with_results.dijkstra_result)) :=
  result_tables_frame example_with_results 2 1 1 3 5 (fun _ => 0) 1 (by decide) (by decide)

/-! ## The frame of `add_edge` and `remove_edge` -/

namespace Graph

theorem contains_edge_eq (g : Graph) (a b : Nat) :
    g.contains_edge a b =
      (g.contains_vertex a && g.contains_vertex b &&
        ((UMap.find g.edges a).bind (fun adj => UMap.find adj b)).isSome) := by
  unfold contains_edge contains_vertex UMap.contains
  cases h : UMap.find g.edges a <;> cases h' : UMap.find g.edges b <;> simp

/-- Presence and cost of the edge `a → b` depend on the vertex set and on the
entry of `b` in the adjacency mapping of `a` only. -/
theorem edge_frame (g h : Graph) (a b : Nat)
    (hv : ∀ k, h.contains_vertex k = g.contains_vertex k)
    (hl : (UMap.find h.edges a).bind (fun adj => UMap.find adj b) =
      (UMap.find g.edges a).bind (fun adj => UMap.find adj b)) :
    h.contains_edge a b = g.contains_edge a b ∧ h.cost a b = g.cost a b := by
  have hc : h.contains_edge a b = g.contains_edge a b := by
    rw [contains_edge_eq, contains_edge_eq, hv, hv, hl]
  refine ⟨hc, ?_⟩
  unfold cost
  rw [hc, hl]

theorem edge_count_eq_sum (g : Graph) :
    g.edge_count = (g.edges.map (fun e => e.2.length)).sum := by
  rw [edge_count_eq_gweight]
  unfold gweight
  congr 2
  exact List.filter_eq_self.mpr (fun e _ => by simp)

end Graph

/-- Replacing the value under a key of a map with unique keys changes the sum
of the value lengths by the change of that value. -/
theorem sum_length_update {W : Type} (E : List (Nat × List W)) (k : Nat)
    (f : List W → List W) (adj : List W) (hn : (UMap.keys E).Nodup)
    (hf : UMap.find E k = some adj) :
    ((UMap.update E k f).map (fun e => e.2.length)).sum + adj.length =
      (E.map (fun e => e.2.length)).sum + (f adj).length := by
  induction E with
  | nil => simp [UMap.find] at hf
  | cons e rest ih =>
    obtain ⟨k₀, v₀⟩ := e
    simp only [UMap.keys, List.map_cons, List.nodup_cons] at hn
    rw [UMap.update_cons]
    by_cases h0 : k₀ = k
    · subst h0
      rw [UMap.find_cons, if_pos rfl] at hf
      cases hf
      have hrest : UMap.update rest k₀ f = rest := by
        unfold UMap.update
        conv_rhs => rw [← List.map_id rest]
        apply List.map_congr_left
        intro e he
        have : e.1 ≠ k₀ := fun h => hn.1 (h ▸ List.mem_map_of_mem Prod.fst he)
        simp [this]
      rw [if_pos rfl, hrest]
      simp only [List.map_cons, List.sum_cons]
      omega
    · rw [UMap.find_cons, if_neg h0] at hf
      have := ih hn.2 hf
      rw [if_neg h0]
      simp only [List.map_cons, List.sum_cons]
      omega

theorem UMap.length_insert {V : Type} (m : List (Nat × V)) (k : Nat) (v : V)
    (h : UMap.contains m k = false) : (UMap.insert m k v).length = m.length + 1 := by
  unfold UMap.insert
  simp [h]

/-- **C12** On a well-formed graph a successful `add_edge(src, dest, w)` and a
successful `remove_edge(src, dest)` keep the set of vertices, and keep
`contains_edge(a, b)` and `cost(a, b)` for every ordered pair other than
`(src, dest)`, the reverse pair `(dest, src)` with `src ≠ dest` included;
`edge_count()` grows by exactly one with `add_edge` and shrinks by exactly one
with `remove_edge`. -/
theorem edge_ops_frame (g : Graph) (src dest : Nat) (w : ℚ) (hwf : g.WF) :
    ((g.add_edge src dest w).1 = true →
      (∀ k, (g.add_edge src dest w).2.contains_vertex k = g.contains_vertex k) ∧
      (∀ a b, (a, b) ≠ (src, dest) →
        (g.add_edge src dest w).2.contains_edge a b = g.contains_edge a b ∧
          (g.add_edge src dest w).2.cost a b = g.cost a b) ∧
      (src ≠ dest →
        (g.add_edge src dest w).2.contains_edge dest src = g.contains_edge dest src ∧
          (g.add_edge src dest w).2.cost dest src = g.cost dest src) ∧
      (g.add_edge src dest w).2.edge_count = g.edge_count + 1) ∧
    ((g.remove_edge src dest).1 = true →
      (∀ k, (g.remove_edge src dest).2.contains_vertex k = g.contains_vertex k) ∧
      (∀ a b, (a, b) ≠ (src, dest) →
        (g.remove_edge src dest).2.contains_edge a b = g.contains_edge a b ∧
          (g.remove_edge src dest).2.cost a b = g.cost a b) ∧
      (src ≠ dest →
        (g.remove_edge src dest).2.contains_edge dest src = g.contains_edge dest src ∧
          (g.remove_edge src dest).2.cost dest src = g.cost dest src) ∧
      (g.remove_edge src dest).2.edge_count + 1 = g.edge_count) := by
  constructor
  · intro h
    rw [Graph.add_edge_fst] at h
    simp only [Bool.and_eq_true, Bool.not_eq_true'] at h
    obtain ⟨⟨hce, hs⟩, hd⟩ := h
    have hg : (g.add_edge src dest w).2 =
        { g with edges := UMap.update g.edges src (fun adj => UMap.insert adj dest w) } := by
      unfold Graph.add_edge
      simp [hce, hs, hd]
    rw [hg]
    obtain ⟨adj, hadj⟩ : ∃ adj, UMap.find g.edges src = some adj :=
      Option.isSome_iff_exists.mp hs
    have hnot : UMap.contains adj dest = false := by
      by_contra hc
      have hc' : UMap.contains adj dest = true := by simpa using hc
      have := (Graph.contains_edge_iff g src dest).mpr ⟨hd, adj, hadj, hc'⟩
      rw [hce] at this
      cases this
    have hv : ∀ k, Graph.contains_vertex
        { g with edges := UMap.update g.edges src (fun adj => UMap.insert adj dest w) } k =
        g.contains_vertex k := fun k => by
      simp only [Graph.contains_vertex, UMap.contains_update]
    have hfr : ∀ a b, (a, b) ≠ (src, dest) →
        Graph.contains_edge
          { g with edges := UMap.update g.edges src (fun adj => UMap.insert adj dest w) } a b =
          g.contains_edge a b ∧
        Graph.cost
          { g with edges := UMap.update g.edges src (fun adj => UMap.insert adj dest w) } a b =
          g.cost a b := by
      intro a b hab
      apply Graph.edge_frame _ _ a b hv
      dsimp only
      rw [UMap.find_update]
      by_cases ha : src = a
      · subst ha
        have hb : dest ≠ b := fun hb => hab (by rw [hb])
        rw [if_pos rfl, hadj]
        simp only [Option.map_some', Option.some_bind]
        rw [UMap.find_insert]
        simp [hb]
      · rw [if_neg ha]
    refine ⟨hv, hfr, fun hne => hfr dest src (fun h => hne (Prod.mk.inj h).2), ?_⟩
    rw [Graph.edge_count_eq_sum, Graph.edge_count_eq_sum]
    have := sum_length_update g.edges src (fun adj => UMap.insert adj dest w) adj hwf.1 hadj
    dsimp only at this ⊢
    rw [UMap.length_insert adj dest w hnot] at this
    omega
  · intro h
    rw [Graph.remove_edge_fst] at h
    have hg : (g.remove_edge src dest).2 =
        { g with edges := UMap.update g.edges src (fun adj => UMap.erase adj dest) } := by
      unfold Graph.remove_edge
      simp [h]
    rw [hg]
    obtain ⟨hd, adj, hadj, hcd⟩ := (Graph.contains_edge_iff g src dest).mp h
    have hv : ∀ k, Graph.contains_vertex
        { g with edges := UMap.update g.edges src (fun adj => UMap.erase adj dest) } k =
        g.contains_vertex k := fun k => by
      simp only [Graph.contains_vertex, UMap.contains_update]
    have hfr : ∀ a b, (a, b) ≠ (src, dest) →
        Graph.contains_edge
          { g with edges := UMap.update g.edges src (fun adj => UMap.erase adj dest) } a b =
          g.contains_edge a b ∧
        Graph.cost
          { g with edges := UMap.update g.edges src (fun adj => UMap.erase adj dest) } a b =
          g.cost a b := by
      intro a b hab
      apply Graph.edge_frame _ _ a b hv
      dsimp only
      rw [UMap.find_update]
      by_cases ha : src = a
      · subst ha
        have hb : dest ≠ b := fun hb => hab (by rw [hb])
        rw [if_pos rfl, hadj]
        simp only [Option.map_some', Option.some_bind]
        rw [UMap.find_erase, if_neg hb]
      · rw [if_neg ha]
    refine ⟨hv, hfr, fun hne => hfr dest src (fun h => hne (Prod.mk.inj h).2), ?_⟩
    rw [Graph.edge_count_eq_sum, Graph.edge_count_eq_sum]
    have := sum_length_update g.edges src (fun adj => UMap.erase adj dest) adj hwf.1 hadj
    dsimp only at this ⊢
    have hlen := UMap.length_erase adj dest
      (hwf.2.1 (src, adj) (UMap.mem_of_find _ _ _ hadj)) hcd
    omega

/-- Witness of **C12**: the edge `2 → 1` added to, and the edge `1 → 2` removed
from, the graph of the test program, which holds the edge `1 → 2`. -/
theorem edge_ops_frame_witness :
    ((example_graph.add_edge 2 1 4).1 = true ∧
      (∀ k, (example_graph.add_edge 2 1 4).2.contains_vertex k =
        example_graph.contains_vertex k) ∧
      (∀ a b, (a, b) ≠ (2, 1) →
        (example_graph.add_edge 2 1 4).2.contains_edge a b = example_graph.contains_edge a b ∧
          (example_graph.add_edge 2 1 4).2.cost a b = example_graph.cost a b) ∧
      (2 ≠ 1 →
        (example_graph.add_edge 2 1 4).2.contains_edge 1 2 = example_graph.contains_edge 1 2 ∧
          (example_graph.add_edge 2 1 4).2.cost 1 2 = example_graph.cost 1 2) ∧
      (example_graph.add_edge 2 1 4).2.edge_count = example_graph.edge_count + 1) ∧
    ((example_graph.remove_edge 1 2).1 = true ∧
      (∀ k, (example_graph.remove_edge 1 2).2.contains_vertex k =
        example_graph.contains_vertex k) ∧
      (∀ a b, (a, b) ≠ (1, 2) →
        (example_graph.remove_edge 1 2).2.contains_edge a b = example_graph.contains_edge a b ∧
          (example_graph.remove_edge 1 2).2.cost a b = example_graph.cost a b) ∧
      (1 ≠ 2 →
        (example_graph.remove_edge 1 2).2.contains_edge 2 1 = example_graph.contains_edge 2 1 ∧
          (example_graph.remove_edge 1 2).2.cost 2 1 = example_graph.cost 2 1) ∧
      (example_graph.remove_edge 1 2).2.edge_count + 1 = example_graph.edge_count) :=
  ⟨⟨by decide!, (edge_ops_frame example_graph 2 1 4 example_graph_WF).1 (by decide!)⟩,
    ⟨by decide!, (edge_ops_frame example_graph 1 2 0 example_graph_WF).2 (by decide!)⟩⟩

/-! ## The stored edges as a list of ordered pairs -/

theorem edge_list_cons (e : Nat × List (Nat × ℚ)) (E : List (Nat × List (Nat × ℚ))) :
    edge_list (e :: E) = e.2.map (fun n => (e.1, n.1)) ++ edge_list E := by
  unfold edge_list
  rw [List.flatMap_cons]

theorem edge_list_nodup (E : List (Nat × List (Nat × ℚ))) (hwf : EdgesWF E) :
    (edge_list E).Nodup := by
  unfold edge_list
  rw [List.nodup_flatMap]
  constructor
  · intro e he
    have h := hwf.2.1 e he
    have : e.2.map (fun n => (e.1, n.1)) = (UMap.keys e.2).map (fun b => (e.1, b)) := by
      unfold UMap.keys
      rw [List.map_map]
      rfl
    rw [this]
    exact h.map (fun a b hab => (Prod.mk.inj hab).2)
  · have h : List.Pairwise (fun a b => a ≠ b) (E.map Prod.fst) := hwf.1
    rw [List.pairwise_map] at h
    refine h.imp ?_
    intro e e' hne
    intro x hx hx'
    obtain ⟨n, _, rfl⟩ := List.mem_map.mp hx
    obtain ⟨n', _, hn'⟩ := List.mem_map.mp hx'
    exact hne (Prod.mk.inj hn').1.symm

theorem edge_list_length (g : Graph) : (edge_list g.edges).length = g.edge_count := by
  rw [Graph.edge_count_eq_sum]
  unfold edge_list
  rw [List.length_flatMap]
  congr 1
  apply List.map_congr_left
  intro e _
  simp

theorem mem_edge_list_iff (g : Graph) (hwf : g.WF) (a b : Nat) :
    (a, b) ∈ edge_list g.edges ↔ g.contains_edge a b = true := by
  constructor
  · intro h
    unfold edge_list at h
    obtain ⟨e, he, hx⟩ := List.mem_flatMap.mp h
    obtain ⟨n, hn, hab⟩ := List.mem_map.mp hx
    obtain ⟨h1, h2⟩ := Prod.mk.inj hab
    obtain ⟨k, adj⟩ := e
    obtain ⟨b', w⟩ := n
    dsimp only at h1 h2 hn
    subst h1 h2
    have hf : UMap.find g.edges k = some adj := UMap.find_of_mem _ _ _ hwf.1 he
    have hc : UMap.contains adj b' = true :=
      (UMap.contains_iff_mem_keys adj b').mpr (List.mem_map_of_mem Prod.fst hn)
    exact (Graph.contains_edge_iff g k b').mpr ⟨hwf.2.2 _ he _ hn, adj, hf, hc⟩
  · exact mem_edge_list g a b

/-- On a well-formed graph a vertex that has just been added has no edge. -/
theorem Graph.add_vertex_isolated (g : Graph) (hwf : g.WF) (id : Nat)
    (h : (g.add_vertex id).1 = true) (a : Nat) :
    (g.add_vertex id).2.contains_edge id a = false ∧
      (g.add_vertex id).2.contains_edge a id = false := by
  rw [Graph.add_vertex_fst] at h
  have habs : g.contains_vertex id = false := by simpa using h
  have hg : (g.add_vertex id).2 = { g with edges := UMap.insert g.edges id [] } := by
    unfold Graph.add_vertex
    simp [habs]
  rw [hg]
  have habs' : UMap.contains g.edges id = false := habs
  constructor
  · by_contra hc
    obtain ⟨_, adj, hf, hcd⟩ := (Graph.contains_edge_iff _ id a).mp (by simpa using hc)
    dsimp only at hf
    rw [UMap.find_insert, if_pos ⟨rfl, habs'⟩] at hf
    cases hf
    simp [UMap.contains, UMap.find] at hcd
  · by_contra hc
    obtain ⟨_, adj, hf, hcd⟩ := (Graph.contains_edge_iff _ a id).mp (by simpa using hc)
    dsimp only at hf
    rw [UMap.find_insert] at hf
    by_cases ha : id = a
    · rw [if_pos ⟨ha, habs'⟩] at hf
      cases hf
      simp [UMap.contains, UMap.find] at hcd
    · rw [if_neg (fun h => ha h.1)] at hf
      obtain ⟨w, hw⟩ := Option.isSome_iff_exists.mp hcd
      have := hwf.2.2 _ (UMap.mem_of_find _ _ _ hf) _ (UMap.mem_of_find _ _ _ hw)
      dsimp only at this
      rw [habs'] at this
      cases this

/-- **C18** In every state reachable from the empty graph by `add_vertex`,
`add_edge`, `remove_vertex`, `remove_edge`, `prim`, `dijkstra` (and copies),
every neighbour id stored in an adjacency mapping is a present vertex.  Hence
the stored edges, listed as ordered pairs, are exactly the pairs with
`contains_edge(src, dest)`, each listed once, and `edge_count()` is their
number; and a vertex that was just added has no incident edge. -/
theorem no_dangling_edges (g : Graph) (hr : g.Reachable) :
    (∀ e ∈ g.edges, ∀ n ∈ e.2, g.contains_vertex n.1 = true) ∧
    ((edge_list g.edges).Nodup ∧
      (∀ a b, (a, b) ∈ edge_list g.edges ↔ g.contains_edge a b = true) ∧
      g.edge_count = (edge_list g.edges).length) ∧
    (∃ S : Finset (Nat × Nat), (∀ a b, (a, b) ∈ S ↔ g.contains_edge a b = true) ∧
      g.edge_count = S.card) ∧
    (∀ id, (g.add_vertex id).1 = true → ∀ a,
      (g.add_vertex id).2.contains_edge id a = false ∧
        (g.add_vertex id).2.contains_edge a id = false) := by
  have hwf := hr.WF
  have hnd := edge_list_nodup g.edges hwf
  refine ⟨hwf.2.2, ⟨hnd, mem_edge_list_iff g hwf, (edge_list_length g).symm⟩,
    ⟨(edge_list g.edges).toFinset, fun a b => ?_, ?_⟩,
    fun id h a => Graph.add_vertex_isolated g hwf id h a⟩
  · rw [List.mem_toFinset]
    exact mem_edge_list_iff g hwf a b
  · rw [List.toFinset_card_of_nodup hnd]
    exact (edge_list_length g).symm

theorem example_loop_reachable : example_loop.Reachable :=
  Graph.Reachable.add_edge _ 1 1 1 (Graph.Reachable.add_vertex _ 1 Graph.Reachable.empty)

/-- Witness of **C18**: the vertex with a self-loop. -/
theorem no_dangling_edges_witness :
    (∀ e ∈ example_loop.edges, ∀ n ∈ e.2, example_loop.contains_vertex n.1 = true) ∧
      ((edge_list example_loop.edges).Nodup ∧
        (∀ a b, (a, b) ∈ edge_list example_loop.edges ↔
          example_loop.contains_edge a b = true) ∧
        example_loop.edge_count = (edge_list example_loop.edges).length) :=
  ⟨(no_dangling_edges example_loop example_loop_reachable).1,
    (no_dangling_edges example_loop example_loop_reachable).2.1⟩

/-! ## The edge count after `remove_vertex` -/

theorem UMap.length_erase_add_countP {V : Type} (m : List (Nat × V)) (k : Nat) :
    (UMap.erase m k).length + m.countP (fun n => decide (n.1 = k)) = m.length := by
  induction m with
  | nil => rfl
  | cons e rest ih =>
    obtain ⟨k₀, v₀⟩ := e
    rw [UMap.erase_cons, List.countP_cons]
    by_cases h : k₀ = k
    · simp only [h, if_true, decide_True, List.length_cons]
      omega
    · simp only [h, if_false, decide_False, List.length_cons, Bool.false_eq_true]
      omega

theorem UMap.countP_key_eq_zero {V : Type} (m : List (Nat × V)) (k : Nat)
    (h : UMap.contains m k = false) : m.countP (fun n => decide (n.1 = k)) = 0 := by
  rw [List.countP_eq_zero]
  intro n hn hk
  have hk' : n.1 = k := by simpa using hk
  have : UMap.contains m k = true :=
    (UMap.contains_iff_mem_keys m k).mpr (hk' ▸ List.mem_map_of_mem Prod.fst hn)
  rw [h] at this
  cases this

/-- The length of an adjacency mapping after the pruning step of `remove_vertex`. -/
theorem pruned_length (adj : List (Nat × ℚ)) (id : Nat) :
    (if UMap.contains adj id then UMap.erase adj id else adj).length +
      adj.countP (fun n => decide (n.1 = id)) = adj.length := by
  cases h : UMap.contains adj id with
  | true => simpa using UMap.length_erase_add_countP adj id
  | false =>
    rw [UMap.countP_key_eq_zero adj id h]
    simp

/-- The count behind `remove_vertex`, for any adjacency storage: the remaining
edges, those into `id` and those out of `id` add up to all edges plus the
self-loops at `id`, which lie in both groups. -/
theorem remove_vertex_count (E : List (Nat × List (Nat × ℚ))) (id : Nat) :
    (((UMap.erase E id).map (fun lst =>
        (lst.1, if UMap.contains lst.2 id then UMap.erase lst.2 id else lst.2))).map
        (fun e => e.2.length)).sum +
      (edge_list E).countP (fun e => decide (e.2 = id)) +
      (edge_list E).countP (fun e => decide (e.1 = id)) =
    (edge_list E).length + (edge_list E).countP (fun e => decide (e = (id, id))) := by
  induction E with
  | nil => rfl
  | cons e rest ih =>
    obtain ⟨k, adj⟩ := e
    rw [edge_list_cons, UMap.erase_cons]
    simp only [List.countP_append, List.length_append, List.countP_map, List.length_map]
    have hin : List.countP ((fun e : Nat × Nat => decide (e.2 = id)) ∘
        fun n : Nat × ℚ => (k, n.1)) adj = adj.countP (fun n => decide (n.1 = id)) := rfl
    rw [hin]
    by_cases hk : k = id
    · subst hk
      have hout : List.countP ((fun e : Nat × Nat => decide (e.1 = k)) ∘
          fun n : Nat × ℚ => (k, n.1)) adj = adj.length := by
        rw [List.countP_eq_length]
        intro n _
        simp
      have hself : List.countP ((fun e : Nat × Nat => decide (e = (k, k))) ∘
          fun n : Nat × ℚ => (k, n.1)) adj = adj.countP (fun n => decide (n.1 = k)) := by
        apply List.countP_congr
        intro n _
        simp
      rw [hout, hself, if_pos rfl]
      omega
    · have hout : List.countP ((fun e : Nat × Nat => decide (e.1 = id)) ∘
          fun n : Nat × ℚ => (k, n.1)) adj = 0 := by
        rw [List.countP_eq_zero]
        intro n _
        simp [hk]
      have hself : List.countP ((fun e : Nat × Nat => decide (e = (id, id))) ∘
          fun n : Nat × ℚ => (k, n.1)) adj = 0 := by
        rw [List.countP_eq_zero]
        intro n _
        simp [hk]
      rw [hout, hself, if_neg hk]
      simp only [List.map_cons, List.sum_cons]
      have := pruned_length adj id
      omega

/-- **C11** (as amended) In every state built by the public operations, a
successful `remove_vertex(id)` decreases `edge_count()` by the in-degree plus
the out-degree of `id`, a self-loop at `id` being one edge that both degrees
count: the decrease is in-degree plus out-degree when `id` has no self-loop and
one less when it has one. -/
theorem remove_vertex_edge_count (g : Graph) (id : Nat) (hr : g.Reachable)
    (hp : g.contains_vertex id = true) :
    (g.remove_vertex id).1 = true ∧
      (g.remove_vertex id).2.edge_count + g.in_degree id + g.out_degree id =
        g.edge_count + (if g.contains_edge id id then 1 else 0) ∧
      (g.contains_edge id id = false →
        (g.remove_vertex id).2.edge_count + (g.in_degree id + g.out_degree id) =
          g.edge_count) := by
  have hwf := hr.WF
  have hmain : (g.remove_vertex id).2.edge_count + g.in_degree id + g.out_degree id =
      g.edge_count + (if g.contains_edge id id then 1 else 0) := by
    rw [Graph.edge_count_eq_sum, Graph.remove_vertex_edges g id hp, ← edge_list_length g]
    unfold Graph.in_degree Graph.out_degree
    rw [remove_vertex_count g.edges id]
    congr 1
    have h := List.count_eq_of_nodup (a := (id, id)) (edge_list_nodup g.edges hwf)
    refine Eq.trans (Eq.trans ?_ h) ?_
    · unfold List.count
      apply List.countP_congr
      intro e _
      rw [decide_eq_true_iff]
      exact ⟨fun h => decide_eq_true h, fun h => of_decide_eq_true h⟩
    · by_cases hc : g.contains_edge id id = true
      · rw [if_pos ((mem_edge_list_iff g hwf id id).mpr hc), if_pos hc]
      · rw [if_neg (fun h => hc ((mem_edge_list_iff g hwf id id).mp h)), if_neg hc]
  refine ⟨by rw [Graph.remove_vertex_fst]; exact hp, hmain, fun hno => ?_⟩
  rw [hno] at hmain
  simpa [Nat.add_assoc] using hmain

/-- Witness of **C11** (as amended): the vertex with a self-loop, where both
degrees are one and one edge is removed. -/
theorem remove_vertex_edge_count_witness :
    (example_loop.remove_vertex 1).1 = true ∧
      (example_loop.remove_vertex 1).2.edge_count + example_loop.in_degree 1 +
          example_loop.out_degree 1 =
        example_loop.edge_count + (if example_loop.contains_edge 1 1 then 1 else 0) ∧
      (example_loop.contains_edge 1 1 = false →
        (example_loop.remove_vertex 1).2.edge_count +
            (example_loop.in_degree 1 + example_loop.out_degree 1) =
          example_loop.edge_count) :=
  remove_vertex_edge_count example_loop 1 example_loop_reachable (by decide)

/-- Counterexample to **C11** as stated: on the reachable state with the single
vertex 1 and its self-loop, `remove_vertex(1)` succeeds and takes `edge_count()`
from 1 to 0, while the in-degree and the out-degree of vertex 1 are both 1. -/
theorem remove_vertex_self_loop_count :
    example_loop.Reachable ∧ example_loop.contains_vertex 1 = true ∧
      (example_loop.remove_vertex 1).1 = true ∧
      example_loop.edge_count = 1 ∧ (example_loop.remove_vertex 1).2.edge_count = 0 ∧
      example_loop.in_degree 1 = 1 ∧ example_loop.out_degree 1 = 1 ∧
      example_loop.edge_count - (example_loop.remove_vertex 1).2.edge_count ≠
        example_loop.in_degree 1 + example_loop.out_degree 1 :=
  ⟨example_loop_reachable, by decide, by decide, by decide, by decide, by decide, by decide,
    by decide⟩

/-! ## The result tables are rebuilt by every run -/

theorem Graph.prim_never_run.prim_table {g : Graph} (h : g.prim_never_run) : g.prim_result = [] := by
  induction h with
  | empty => rfl
  | copy g _ ih => exact ih
  | add_vertex g id _ ih => rw [(Graph.mutators_keep_results g id 0 0 0).1.1, ih]
  | add_edge g src dest w _ ih => rw [(Graph.mutators_keep_results g 0 src dest w).2.1.1, ih]
  | remove_vertex g id _ ih => rw [(Graph.mutators_keep_results g id 0 0 0).2.2.1.1, ih]
  | remove_edge g src dest _ ih =>
    rw [(Graph.mutators_keep_results g 0 src dest 0).2.2.2.1, ih]
  | prim_absent g g' fuel tie s _ hs hrun ih =>
    unfold Graph.prim at hrun
    rw [hs] at hrun
    cases hrun
    exact ih
  | dijkstra g g' fuel tie s _ hrun ih =>
    rw [Graph.dijkstra_prim_result g g' fuel tie s hrun, ih]

theorem Graph.dijkstra_never_run.dijkstra_table {g : Graph} (h : g.dijkstra_never_run) :
    g.dijkstra_result = [] := by
  induction h with
  | empty => rfl
  | copy g _ ih => exact ih
  | add_vertex g id _ ih => rw [(Graph.mutators_keep_results g id 0 0 0).1.2, ih]
  | add_edge g src dest w _ ih => rw [(Graph.mutators_keep_results g 0 src dest w).2.1.2, ih]
  | remove_vertex g id _ ih => rw [(Graph.mutators_keep_results g id 0 0 0).2.2.1.2, ih]
  | remove_edge g src dest _ ih =>
    rw [(Graph.mutators_keep_results g 0 src dest 0).2.2.2.2, ih]
  | dijkstra_absent g g' fuel tie s _ hs hrun ih =>
    unfold Graph.dijkstra at hrun
    rw [hs] at hrun
    cases hrun
    exact ih
  | prim g g' fuel tie s _ hrun ih =>
    rw [Graph.prim_dijkstra_result g g' fuel tie s hrun, ih]

/-- With a present source the table left by `prim` is computed from the
adjacency storage and the source alone. -/
theorem Graph.prim_table_congr (g h : Graph) (fuel : Nat) (tie : Nat → Nat) (s : Nat)
    (he : h.edges = g.edges) (hs : g.contains_vertex s = true) (g' : Graph)
    (hrun : g.prim fuel tie s = .ok g') :
    ∃ h', h.prim fuel tie s = .ok h' ∧ h'.prim_result = g'.prim_result := by
  have hs' : h.contains_vertex s = true := by
    unfold Graph.contains_vertex
    rw [he]
    exact hs
  unfold Graph.prim at hrun ⊢
  rw [hs] at hrun
  rw [hs', he]
  simp only [Bool.not_true, Bool.false_eq_true, if_false] at hrun ⊢
  split at hrun
  · cases hrun
  · split at hrun
    · cases hrun
    · cases hrun
      exact ⟨_, rfl, rfl⟩

/-- With a present source the table left by `dijkstra` is computed from the
adjacency storage and the source alone. -/
theorem Graph.dijkstra_table_congr (g h : Graph) (fuel : Nat) (tie : Nat → Nat) (s : Nat)
    (he : h.edges = g.edges) (hs : g.contains_vertex s = true) (g' : Graph)
    (hrun : g.dijkstra fuel tie s = .ok g') :
    ∃ h', h.dijkstra fuel tie s = .ok h' ∧ h'.dijkstra_result = g'.dijkstra_result := by
  have hs' : h.contains_vertex s = true := by
    unfold Graph.contains_vertex
    rw [he]
    exact hs
  unfold Graph.dijkstra at hrun ⊢
  rw [hs] at hrun
  rw [hs', he]
  simp only [Bool.not_true, Bool.false_eq_true, if_false] at hrun ⊢
  split at hrun
  · cases hrun
  · split at hrun
    · cases hrun
    · cases hrun
      exact ⟨_, rfl, rfl⟩

theorem contains_prim_tbl (r : List (Nat × prim_data)) (k : Nat) :
    UMap.contains (prim_tbl r) k = UMap.contains r k := by
  unfold UMap.contains
  rw [find_prim_tbl]
  cases UMap.find r k <;> rfl

theorem contains_dijkstra_tbl (r : List (Nat × dijkstra_data)) (k : Nat) :
    UMap.contains (dijkstra_tbl r) k = UMap.contains r k := by
  unfold UMap.contains
  rw [find_dijkstra_tbl]
  cases UMap.find r k <;> rfl

theorem Graph.is_path_of_not_contains (g : Graph) (id : Nat)
    (h : UMap.contains g.prim_result id = false) : g.is_path id = false := by
  unfold Graph.is_path
  rw [h]
  rfl

theorem Graph.distance_of_not_contains (g : Graph) (id : Nat)
    (h : UMap.contains g.dijkstra_result id = false) : g.distance id = ⊤ := by
  unfold Graph.distance
  rw [(UMap.contains_eq_false_iff _ _).mp h]

/-- **C15** On a well-formed graph and present source `s`, `prim(s)` and
`dijkstra(s)` return, and the table each leaves has an entry for exactly the
vertices of the graph; the table is the same whatever the state held before, as
long as the adjacency storage is the same.  Hence `is_path(id)` is false and
`distance(id)` is `INFINITY` for every id that is not a vertex at the time of
the run, even if an earlier table had an entry for it; and on a state on which
the algorithm has never run with a present source, `is_path` is false,
respectively `distance` is `INFINITY`, for every id. -/
theorem result_table_rebuilt (g : Graph) (s : Nat) (fuel : Nat) (tie : Nat → Nat)
    (hwf : g.WF) (hs : g.contains_vertex s = true) (hfuel : g.edge_count + 1 < fuel) :
    (∃ gp gd, g.prim fuel tie s = .ok gp ∧ g.dijkstra fuel tie s = .ok gd ∧
      (∀ k, UMap.contains gp.prim_result k = g.contains_vertex k) ∧
      (∀ k, UMap.contains gd.dijkstra_result k = g.contains_vertex k) ∧
      (∀ h : Graph, h.edges = g.edges →
        ∃ hp hd, h.prim fuel tie s = .ok hp ∧ h.dijkstra fuel tie s = .ok hd ∧
          hp.prim_result = gp.prim_result ∧ hd.dijkstra_result = gd.dijkstra_result) ∧
      (∀ id, g.contains_vertex id = false → gp.is_path id = false ∧ gd.distance id = ⊤)) ∧
    (∀ g₀ : Graph, g₀.prim_never_run → ∀ id, g₀.is_path id = false) ∧
    (∀ g₀ : Graph, g₀.dijkstra_never_run → ∀ id, g₀.distance id = ⊤) := by
  obtain ⟨gp, stp, cp, hp, _, _, htp, ⟨hip, _⟩, _⟩ := prim_run g hwf s hs fuel tie hfuel
  obtain ⟨gd, std, cd, hd, _, _, htd, ⟨hid, _⟩, _⟩ := dijkstra_run g hwf s hs fuel tie hfuel
  have hkp : ∀ k, UMap.contains gp.prim_result k = g.contains_vertex k := fun k => by
    rw [← contains_prim_tbl, htp, hip.keys]
    rfl
  have hkd : ∀ k, UMap.contains gd.dijkstra_result k = g.contains_vertex k := fun k => by
    rw [← contains_dijkstra_tbl, htd, hid.keys]
    rfl
  refine ⟨⟨gp, gd, hp, hd, hkp, hkd, fun h he => ?_, fun id hid' => ?_⟩, fun g₀ h₀ id => ?_,
    fun g₀ h₀ id => ?_⟩
  · obtain ⟨hp', h1, h2⟩ := Graph.prim_table_congr g h fuel tie s he hs gp hp
    obtain ⟨hd', h3, h4⟩ := Graph.dijkstra_table_congr g h fuel tie s he hs gd hd
    exact ⟨hp', hd', h1, h3, h2, h4⟩
  · exact ⟨Graph.is_path_of_not_contains gp id (by rw [hkp, hid']),
      Graph.distance_of_not_contains gd id (by rw [hkd, hid'])⟩
  · apply Graph.is_path_of_not_contains
    rw [h₀.prim_table]
    rfl
  · apply Graph.distance_of_not_contains
    rw [h₀.dijkstra_table]
    rfl

/-- Witness of **C15**: a state whose tables hold the id 9 from an earlier run;
after the runs from vertex 1 the id 9 has no path and an infinite distance. -/
theorem result_table_rebuilt_witness :
    example_stale.is_path 9 = true ∧ example_stale.distance 9 = 2 ∧
    ∃ gp gd, example_stale.prim 3 (fun _ => 0) 1 = .ok gp ∧
      example_stale.dijkstra 3 (fun _ => 0) 1 = .ok gd ∧
      (∀ id, example_stale.contains_vertex id = false →
        gp.is_path id = false ∧ gd.distance id = ⊤) := by
  refine ⟨by decide!, by decide!, ?_⟩
  obtain ⟨gp, gd, h1, h2, _, _, _, h3⟩ :=
    (result_table_rebuilt example_stale 1 3 (fun _ => 0) (by decide) (by decide)
      (by decide)).1
  exact ⟨gp, gd, h1, h2, h3⟩

/-! ## A vertex with the id of the sentinel -/

theorem example_max_id_reachable : example_max_id.Reachable :=
  Graph.Reachable.add_edge _ SIZE_MAX 1 1
    (Graph.Reachable.add_vertex _ 1 (Graph.Reachable.add_vertex _ SIZE_MAX Graph.Reachable.empty))

set_option maxRecDepth 100000 in
/-- **C17** The run `prim(SIZE_MAX)` on the graph with the vertices `SIZE_MAX`
and 1 and the edge `SIZE_MAX → 1`: the source is a vertex and is recorded as
its own parent, and vertex 1 is recorded with the source as parent and the edge
weight 1 as metric, yet `is_path` is false for both and `print_path` of the
source writes `<no path>`, because the id of the source is the value that
stands for "no parent".  The Dijkstra side, which tests the distance and not
the parent, reports both vertices as reached. -/
theorem prim_sentinel_collision :
    example_max_id.contains_vertex SIZE_MAX = true ∧
    ∃ g', example_max_id.prim 5 (fun _ => 0) SIZE_MAX = .ok g' ∧
      g'.prim_parent SIZE_MAX = SIZE_MAX ∧ g'.prim_cost SIZE_MAX = 0 ∧
      g'.is_path SIZE_MAX = false ∧
      g'.print_path 5 SIZE_MAX = .ok "<no path>\n" ∧
      g'.prim_parent 1 = SIZE_MAX ∧ g'.prim_cost 1 = 1 ∧ g'.is_path 1 = false ∧
      ∃ g'', example_max_id.dijkstra 5 (fun _ => 0) SIZE_MAX = .ok g'' ∧
        g''.distance SIZE_MAX = 0 ∧ g''.distance 1 = 1 :=
  ⟨by decide!,
    { example_max_id with
      prim_result := [(SIZE_MAX, { parent := SIZE_MAX, cost := 0 }),
        (1, { parent := SIZE_MAX, cost := 1 })] },
    by decide!, by decide!, by decide!, by decide!, by decide!, by decide!, by decide!,
    by decide!,
    { example_max_id with
      dijkstra_result := [(SIZE_MAX, { parent := SIZE_MAX, dist := 0 }),
        (1, { parent := SIZE_MAX, dist := 1 })] },
    by decide!, by decide!, by decide!⟩

/-! ## Totality of the two traversals -/

/-- With any loop budget the queue loop, started in a state that satisfies the
invariant, either uses up the budget or returns, with an empty queue and the
invariant; no look-up fails. -/
theorem FInv.loop_any {E : List (Nat × List (Nat × ℚ))} {s : Nat} {cum : Bool}
    (hwf : EdgesWF E) (tie : Nat → Nat) (fuel : Nat) (st : gstate) (c : Nat)
    (h : FInv E s cum c [] st) :
    gen_loop cum E tie fuel st = .error .out_of_fuel ∨
      ∃ st' c', gen_loop cum E tie fuel st = .ok st' ∧ FInv E s cum c' [] st' ∧
        st'.pq = [] := by
  induction fuel generalizing st c with
  | zero => exact Or.inl rfl
  | succ fuel ih =>
    unfold gen_loop
    cases hpop : pq_pop (tie fuel) st.pq with
    | none => exact Or.inr ⟨st, c, rfl, h, (pq_pop_eq_none _ _).mp hpop⟩
    | some r =>
      obtain ⟨top, pq'⟩ := r
      obtain ⟨htop, rfl, hmin⟩ := pq_pop_eq_some _ _ _ _ hpop
      dsimp only
      by_cases hv : top.2 ∈ st.visited
      · rw [if_pos hv]
        exact ih _ c ⟨h.1.pop_skip hv, fun hc hnn => (h.2 hc hnn).keep_pop_skip⟩
      · rw [if_neg hv]
        have hcE := (h.1.pq_sub top htop).1
        obtain ⟨adj, hadj⟩ := Option.isSome_iff_exists.mp hcE
        have hat : UMap.at_ E top.2 = .ok adj := by unfold UMap.at_; rw [hadj]
        simp only [hat]
        have hinv : FInv E s cum top.2 adj
            { tbl := st.tbl, pq := st.pq.erase top, visited := top.2 :: st.visited } := by
          refine ⟨h.1.pop_visit hwf htop hmin hv hadj, fun hc hnn => ?_⟩
          subst hc
          exact (h.2 rfl hnn).keep_pop_visit h.1 htop hmin hv hadj
        obtain ⟨st₁, h1, h2, _, _⟩ := hinv.neighbors hwf adj _
        rw [h1]
        exact ih st₁ top.2 h2

/-- With any loop budget `prim` on a well-formed graph and present source
either uses up the budget or returns the final table of the queue loop. -/
theorem prim_any (g : Graph) (hwf : g.WF) (s : Nat) (hs : g.contains_vertex s = true)
    (fuel : Nat) (tie : Nat → Nat) :
    g.prim fuel tie s = .error .out_of_fuel ∨
      ∃ g' st c, g.prim fuel tie s = .ok g' ∧ prim_tbl g'.prim_result = st.tbl ∧
        FInv g.edges s false c [] st ∧ st.pq = [] := by
  have hsim := prim_loop_sim g.edges tie fuel
    { prim_result := prim_start g.edges s, pq := pq_push [] (0, s), visited := [] }
  have htoG : prim_state.toG
      { prim_result := prim_start g.edges s, pq := pq_push [] (0, s), visited := [] } =
      { tbl := prim_tbl (prim_start g.edges s), pq := pq_push [] (0, s), visited := [] } := rfl
  rw [htoG] at hsim
  have hinit : ∃ d, UMap.at_ (prim_init g.edges) s = .ok d := by
    unfold UMap.at_ prim_init
    rw [find_foldl_insert]
    have : UMap.contains g.edges s = true := hs
    rw [this]
    exact ⟨_, rfl⟩
  obtain ⟨d, hd⟩ := hinit
  have h0 : FInv g.edges s false 0 [] _ := FInv.start false 0 (prim_start_table g.edges s) hs
  rcases h0.loop_any hwf.edgesWF tie fuel _ 0 with h1 | ⟨st, c, h1, h2, h3⟩
  · left
    rw [h1] at hsim
    cases hl : prim_loop g.edges tie fuel
        { prim_result := prim_start g.edges s, pq := pq_push [] (0, s), visited := [] } with
    | ok pst => rw [hl] at hsim; cases hsim
    | error x =>
      rw [hl] at hsim
      simp only [Except.map, Except.error.injEq] at hsim
      unfold Graph.prim
      simp only [hs, Bool.not_true, Bool.false_eq_true, if_false, hd, hl, hsim]
  · right
    rw [h1] at hsim
    cases hl : prim_loop g.edges tie fuel
        { prim_result := prim_start g.edges s, pq := pq_push [] (0, s), visited := [] } with
    | error x => rw [hl] at hsim; cases hsim
    | ok pst =>
      rw [hl] at hsim
      simp only [Except.map, Except.ok.injEq] at hsim
      refine ⟨{ g with prim_result := pst.prim_result }, st, c, ?_, ?_, h2, h3⟩
      · unfold Graph.prim
        simp only [hs, Bool.not_true, Bool.false_eq_true, if_false, hd, hl]
      · rw [← hsim]; rfl

/-- With any loop budget `dijkstra` on a well-formed graph and present source
either uses up the budget or returns the final table of the queue loop. -/
theorem dijkstra_any (g : Graph) (hwf : g.WF) (s : Nat) (hs : g.contains_vertex s = true)
    (fuel : Nat) (tie : Nat → Nat) :
    g.dijkstra fuel tie s = .error .out_of_fuel ∨
      ∃ g' st c, g.dijkstra fuel tie s = .ok g' ∧ dijkstra_tbl g'.dijkstra_result = st.tbl ∧
        FInv g.edges s true c [] st ∧ st.pq = [] := by
  have hsim := dijkstra_loop_sim g.edges tie fuel
    { dijkstra_result := dijkstra_start g.edges s, pq := pq_push [] (0, s), visited := [] }
  have htoG : dijkstra_state.toG
      { dijkstra_result := dijkstra_start g.edges s, pq := pq_push [] (0, s), visited := [] } =
      { tbl := dijkstra_tbl (dijkstra_start g.edges s), pq := pq_push [] (0, s),
        visited := [] } := rfl
  rw [htoG] at hsim
  have hinit : ∃ d, UMap.at_ (dijkstra_init g.edges) s = .ok d := by
    unfold UMap.at_ dijkstra_init
    rw [find_foldl_insert]
    have : UMap.contains g.edges s = true := hs
    rw [this]
    exact ⟨_, rfl⟩
  obtain ⟨d, hd⟩ := hinit
  have h0 : FInv g.edges s true 0 [] _ :=
    FInv.start true 0 (dijkstra_start_table g.edges s) hs
  rcases h0.loop_any hwf.edgesWF tie fuel _ 0 with h1 | ⟨st, c, h1, h2, h3⟩
  · left
    rw [h1] at hsim
    cases hl : dijkstra_loop g.edges tie fuel
        { dijkstra_result := dijkstra_start g.edges s, pq := pq_push [] (0, s),
          visited := [] } with
    | ok pst => rw [hl] at hsim; cases hsim
    | error x =>
      rw [hl] at hsim
      simp only [Except.map, Except.error.injEq] at hsim
      unfold Graph.dijkstra
      simp only [hs, Bool.not_true, Bool.false_eq_true, if_false, hd, hl, hsim]
  · right
    rw [h1] at hsim
    cases hl : dijkstra_loop g.edges tie fuel
        { dijkstra_result := dijkstra_start g.edges s, pq := pq_push [] (0, s),
          visited := [] } with
    | error x => rw [hl] at hsim; cases hsim
    | ok pst =>
      rw [hl] at hsim
      simp only [Except.map, Except.ok.injEq] at hsim
      refine ⟨{ g with dijkstra_result := pst.dijkstra_result }, st, c, ?_, ?_, h2, h3⟩
      · unfold Graph.dijkstra
        simp only [hs, Bool.not_true, Bool.false_eq_true, if_false, hd, hl]
      · rw [← hsim]; rfl

/-- The queue loop of `prim` returns, with an empty queue and without having
visited a vertex twice, when given more fuel than one plus the number of edges. -/
theorem prim_loop_run (g : Graph) (hwf : g.WF) (s : Nat) (hs : g.contains_vertex s = true)
    (fuel : Nat) (tie : Nat → Nat) (hfuel : g.edge_count + 1 < fuel) :
    ∃ st, prim_loop g.edges tie fuel
        { prim_result := prim_start g.edges s, pq := pq_push [] (0, s), visited := [] }
        = .ok st ∧ st.pq = [] ∧ st.visited.Nodup := by
  rw [edge_count_eq_gweight] at hfuel
  obtain ⟨st, c, h1, h2, h3⟩ :=
    gen_run false hwf.edgesWF hs (prim_start_table g.edges s) tie fuel hfuel
  have hsim := prim_loop_sim g.edges tie fuel
    { prim_result := prim_start g.edges s, pq := pq_push [] (0, s), visited := [] }
  have htoG : prim_state.toG
      { prim_result := prim_start g.edges s, pq := pq_push [] (0, s), visited := [] } =
      { tbl := prim_tbl (prim_start g.edges s), pq := pq_push [] (0, s), visited := [] } := rfl
  rw [htoG, h1] at hsim
  cases hl : prim_loop g.edges tie fuel
      { prim_result := prim_start g.edges s, pq := pq_push [] (0, s), visited := [] } with
  | error x => rw [hl] at hsim; cases hsim
  | ok pst =>
    rw [hl] at hsim
    simp only [Except.map, Except.ok.injEq] at hsim
    refine ⟨pst, rfl, ?_, ?_⟩
    · have : pst.pq = st.pq := by rw [← hsim]; rfl
      rw [this, h3]
    · have : pst.visited = st.visited := by rw [← hsim]; rfl
      rw [this]
      exact h2.1.vis_nodup

/-- The queue loop of `dijkstra` returns, with an empty queue and without
having visited a vertex twice, when given more fuel than one plus the number of
edges. -/
theorem dijkstra_loop_run (g : Graph) (hwf : g.WF) (s : Nat)
    (hs : g.contains_vertex s = true) (fuel : Nat) (tie : Nat → Nat)
    (hfuel : g.edge_count + 1 < fuel) :
    ∃ st, dijkstra_loop g.edges tie fuel
        { dijkstra_result := dijkstra_start g.edges s, pq := pq_push [] (0, s), visited := [] }
        = .ok st ∧ st.pq = [] ∧ st.visited.Nodup := by
  rw [edge_count_eq_gweight] at hfuel
  obtain ⟨st, c, h1, h2, h3⟩ :=
    gen_run true hwf.edgesWF hs (dijkstra_start_table g.edges s) tie fuel hfuel
  have hsim := dijkstra_loop_sim g.edges tie fuel
    { dijkstra_result := dijkstra_start g.edges s, pq := pq_push [] (0, s), visited := [] }
  have htoG : dijkstra_state.toG
      { dijkstra_result := dijkstra_start g.edges s, pq := pq_push [] (0, s), visited := [] } =
      { tbl := dijkstra_tbl (dijkstra_start g.edges s), pq := pq_push [] (0, s),
        visited := [] } := rfl
  rw [htoG, h1] at hsim
  cases hl : dijkstra_loop g.edges tie fuel
      { dijkstra_result := dijkstra_start g.edges s, pq := pq_push [] (0, s),
        visited := [] } with
  | error x => rw [hl] at hsim; cases hsim
  | ok pst =>
    rw [hl] at hsim
    simp only [Except.map, Except.ok.injEq] at hsim
    refine ⟨pst, rfl, ?_, ?_⟩
    · have : pst.pq = st.pq := by rw [← hsim]; rfl
      rw [this, h3]
    · have : pst.visited = st.visited := by rw [← hsim]; rfl
      rw [this]
      exact h2.1.vis_nodup

/-- **C19** In every state reachable through the public operations, whatever
the edge weights (negative ones included), `prim(s)` and `dijkstra(s)` return
for every id `s` and every choice among equal keys as soon as the loop budget
exceeds one plus `edge_count()`; with any budget, no keyed look-up of the run
fails (the result is never the out-of-range error).  For a present source the
queue loop itself ends within `edge_count() + 1` iterations, each of which
takes one entry out of the queue, with the queue empty and no vertex visited
twice, so that no more than `1 + edge_count()` entries were pushed. -/
theorem traversals_total (g : Graph) (hr : g.Reachable) (s : Nat) (tie : Nat → Nat) :
    (∀ fuel, g.edge_count + 1 < fuel →
      (∃ g', g.prim fuel tie s = .ok g') ∧ (∃ g', g.dijkstra fuel tie s = .ok g')) ∧
    (∀ fuel, g.prim fuel tie s ≠ .error .out_of_range ∧
      g.dijkstra fuel tie s ≠ .error .out_of_range) ∧
    (g.contains_vertex s = true →
      (∃ st, prim_loop g.edges tie (g.edge_count + 2)
          { prim_result := prim_start g.edges s, pq := pq_push [] (0, s), visited := [] }
          = .ok st ∧ st.pq = [] ∧ st.visited.Nodup) ∧
      (∃ st, dijkstra_loop g.edges tie (g.edge_count + 2)
          { dijkstra_result := dijkstra_start g.edges s, pq := pq_push [] (0, s),
            visited := [] }
          = .ok st ∧ st.pq = [] ∧ st.visited.Nodup)) := by
  have hwf := hr.WF
  refine ⟨fun fuel hfuel => Graph.runs_return g hwf fuel tie s hfuel, fun fuel => ?_,
    fun hs => ⟨prim_loop_run g hwf s hs _ tie (by omega),
      dijkstra_loop_run g hwf s hs _ tie (by omega)⟩⟩
  cases hs : g.contains_vertex s with
  | false =>
    constructor
    · unfold Graph.prim
      rw [hs]
      intro h
      cases h
    · unfold Graph.dijkstra
      rw [hs]
      intro h
      cases h
  | true =>
    constructor
    · rcases prim_any g hwf s hs fuel tie with h | ⟨g', _, _, h, _⟩
      · rw [h]
        intro h'
        cases h'
      · rw [h]
        intro h'
        cases h'
    · rcases dijkstra_any g hwf s hs fuel tie with h | ⟨g', _, _, h, _⟩
      · rw [h]
        intro h'
        cases h'
      · rw [h]
        intro h'
        cases h'

theorem example_negative_reachable : example_negative.Reachable :=
  Graph.Reachable.add_edge _ 2 1 (-4)
    (Graph.Reachable.add_edge _ 1 2 (-3)
      (Graph.Reachable.add_vertex _ 2 (Graph.Reachable.add_vertex _ 1 Graph.Reachable.empty)))

/-- Witness of **C19**: two vertices on a cycle of negative weight. -/
theorem traversals_total_witness :
    example_negative.cost 1 2 = ((-3 : ℚ) : WithTop ℚ) ∧
    (∀ fuel, example_negative.edge_count + 1 < fuel →
      (∃ g', example_negative.prim fuel (fun _ => 0) 1 = .ok g') ∧
        (∃ g', example_negative.dijkstra fuel (fun _ => 0) 1 = .ok g')) ∧
    (∀ fuel, example_negative.prim fuel (fun _ => 0) 1 ≠ .error .out_of_range ∧
      example_negative.dijkstra fuel (fun _ => 0) 1 ≠ .error .out_of_range) :=
  ⟨by decide!, (traversals_total example_negative example_negative_reachable 1 (fun _ => 0)).1,
    (traversals_total example_negative example_negative_reachable 1 (fun _ => 0)).2.1⟩

/-! ## Totality of the parent walk -/

theorem GInv.visited_length_le_tbl {E : List (Nat × List (Nat × ℚ))} {s : Nat} {cum : Bool}
    {c : Nat} {todo : List (Nat × ℚ)} {st : gstate} (h : GInv E s cum c todo st) :
    st.visited.length ≤ st.tbl.length := by
  have hsub : st.visited ⊆ UMap.keys st.tbl := fun v hv =>
    (UMap.contains_iff_mem_keys st.tbl v).mp (by rw [h.keys]; exact h.vis_sub v hv)
  have := (List.Nodup.subperm h.vis_nodup hsub).length_le
  simpa [UMap.keys] using this

/-- With any budget the parent walk from a visited vertex meets no missing
entry. -/
theorem gen_walk_any {E : List (Nat × List (Nat × ℚ))} {s : Nat} {cum : Bool} {c : Nat}
    {st : gstate} (h : GInv E s cum c [] st) (hpq : st.pq = []) (fuel : Nat) :
    ∀ (v : Nat) (stack : List Nat), v ∈ st.visited →
      gen_walk st.tbl fuel v stack ≠ .error .out_of_range := by
  induction fuel with
  | zero =>
    intro v stack _ hc
    cases hc
  | succ fuel ih =>
    intro v stack hv
    have hvt : UMap.contains st.tbl v = true := by rw [h.keys]; exact h.vis_sub v hv
    obtain ⟨d, hd⟩ := Option.isSome_iff_exists.mp hvt
    have hat : UMap.at_ st.tbl v = .ok d := by unfold UMap.at_; rw [hd]
    unfold gen_walk
    rw [hat]
    dsimp only
    split
    · rename_i hne
      have hvs : v ≠ s := by
        rintro rfl
        rw [h.src] at hd
        cases hd
        simp at hne
      have hfin : gmet st.tbl v ≠ ⊤ := (h.visited_iff hpq v).mp hv
      have hp := (h.par_ok v hvs hfin).1
      rw [gpar_of_find _ _ _ hd] at hp
      exact ih d.1 _ hp
    · intro hc
      cases hc

/-- The parent walk on a table that a `Graph` object can hold: from every id
with a finite metric it returns, given a budget of at least the size of the
table, the chain from the source of the run to the id, all of whose vertices
have an entry; and with any budget it meets no missing entry. -/
theorem run_table.walk {cum : Bool} {tbl : List (Nat × (Nat × WithTop ℚ))}
    (h : run_table cum tbl) :
    ∃ s, ∀ d, gmet tbl d ≠ ⊤ →
      UMap.find tbl s = some (s, 0) ∧
      (∀ fuel, tbl.length ≤ fuel →
        ∃ p, gen_walk tbl fuel d [d] = .ok p ∧ p.head? = some s ∧ p.getLast? = some d ∧
          p.Nodup ∧ ∀ x ∈ p, UMap.contains tbl x = true) ∧
      (∀ fuel, gen_walk tbl fuel d [d] ≠ .error .out_of_range) := by
  rcases h with rfl | ⟨g₀, s, c, st, hwf, hinv, hpq, rfl⟩
  · exact ⟨0, fun d hd => absurd rfl hd⟩
  · refine ⟨s, fun d hd => ?_⟩
    have hvis := (hinv.visited_iff hpq d).mpr hd
    refine ⟨hinv.src, fun fuel hfuel => ?_,
      fun fuel => gen_walk_any hinv hpq fuel d [d] hvis⟩
    obtain ⟨l₁, l₂, hl⟩ := List.append_of_mem hvis
    have hlen : l₂.length < fuel := by
      have h1 := hinv.visited_length_le_tbl
      have h2 : st.visited.length = l₁.length + (l₂.length + 1) := by rw [hl]; simp
      omega
    obtain ⟨q, hq1, hq2, hq3, hq4, _⟩ := gen_walk_path hwf hinv fuel l₁ d l₂ [] hl hlen
    refine ⟨q ++ [d], hq1, hq2.1, hq2.2.1, hq4, fun x hx => ?_⟩
    have hxv : x ∈ st.visited := by
      rw [hl]
      rcases List.mem_append.mp hx with hx | hx
      · exact List.mem_append_right _ (List.mem_cons_of_mem _ (hq3 x hx))
      · rw [List.mem_singleton] at hx
        rw [hx]
        exact List.mem_append_right _ (List.mem_cons_self _ _)
    rw [hinv.keys]
    exact hinv.vis_sub x hxv

/-- On a Prim table an entry whose parent is not the sentinel has a finite
metric. -/
theorem run_table.finite_of_parent {tbl : List (Nat × (Nat × WithTop ℚ))}
    (h : run_table false tbl) (d : Nat) (e : Nat × WithTop ℚ)
    (he : UMap.find tbl d = some e) (hp : e.1 ≠ SIZE_MAX) : gmet tbl d ≠ ⊤ := by
  rcases h with rfl | ⟨g₀, s, c, st, hwf, hinv, hpq, rfl⟩
  · cases he
  · intro htop
    have hc : UMap.contains g₀.edges d = true := by
      rw [← hinv.keys]
      unfold UMap.contains
      rw [he]
      rfl
    have := (hinv.unreached d htop).2 hc
    rw [he] at this
    cases this
    exact hp rfl

/-- Both result tables of a reachable state are tables left by a completed run,
or empty. -/
theorem Graph.Reachable.tables {g : Graph} (h : g.Reachable) :
    run_table false (prim_tbl g.prim_result) ∧
      run_table true (dijkstra_tbl g.dijkstra_result) := by
  induction h with
  | empty => exact ⟨Or.inl rfl, Or.inl rfl⟩
  | copy g _ ih => exact ih
  | add_vertex g id _ ih =>
    rw [(Graph.mutators_keep_results g id 0 0 0).1.1,
      (Graph.mutators_keep_results g id 0 0 0).1.2]
    exact ih
  | add_edge g src dest w _ ih =>
    rw [(Graph.mutators_keep_results g 0 src dest w).2.1.1,
      (Graph.mutators_keep_results g 0 src dest w).2.1.2]
    exact ih
  | remove_vertex g id _ ih =>
    rw [(Graph.mutators_keep_results g id 0 0 0).2.2.1.1,
      (Graph.mutators_keep_results g id 0 0 0).2.2.1.2]
    exact ih
  | remove_edge g src dest _ ih =>
    rw [(Graph.mutators_keep_results g 0 src dest 0).2.2.2.1,
      (Graph.mutators_keep_results g 0 src dest 0).2.2.2.2]
    exact ih
  | prim g g' fuel tie s hr hrun ih =>
    rw [Graph.prim_dijkstra_result g g' fuel tie s hrun]
    refine ⟨?_, ih.2⟩
    cases hs : g.contains_vertex s with
    | false =>
      unfold Graph.prim at hrun
      rw [hs] at hrun
      cases hrun
      exact ih.1
    | true =>
      rcases prim_any g hr.WF s hs fuel tie with h' | ⟨g'', st, c, h1, h2, h3, h4⟩
      · rw [h'] at hrun
        cases hrun
      · rw [h1] at hrun
        cases hrun
        exact Or.inr ⟨g, s, c, st, hr.WF, h3.1, h4, h2.symm⟩
  | dijkstra g g' fuel tie s hr hrun ih =>
    rw [Graph.dijkstra_prim_result g g' fuel tie s hrun]
    refine ⟨ih.1, ?_⟩
    cases hs : g.contains_vertex s with
    | false =>
      unfold Graph.dijkstra at hrun
      rw [hs] at hrun
      cases hrun
      exact ih.2
    | true =>
      rcases dijkstra_any g hr.WF s hs fuel tie with h' | ⟨g'', st, c, h1, h2, h3, h4⟩
      · rw [h'] at hrun
        cases hrun
      · rw [h1] at hrun
        cases hrun
        exact Or.inr ⟨g, s, c, st, hr.WF, h3.1, h4, h2.symm⟩

theorem find_dijkstra_result_of_tbl (r : List (Nat × dijkstra_data)) (v p : Nat)
    (m : WithTop ℚ) (h : UMap.find (dijkstra_tbl r) v = some (p, m)) :
    UMap.find r v = some { parent := p, dist := m } := by
  rw [find_dijkstra_tbl] at h
  cases hf : UMap.find r v with
  | none => rw [hf] at h; cases h
  | some d =>
    rw [hf] at h
    simp only [Option.map_some', Option.some.injEq, Prod.mk.injEq] at h
    obtain ⟨h1, h2⟩ := h
    cases d
    simp only at h1 h2
    rw [h1, h2]

theorem prim_tbl_length (r : List (Nat × prim_data)) : (prim_tbl r).length = r.length := by
  unfold prim_tbl
  rw [List.length_map]

theorem dijkstra_tbl_length (r : List (Nat × dijkstra_data)) :
    (dijkstra_tbl r).length = r.length := by
  unfold dijkstra_tbl
  rw [List.length_map]

/-- **C20** In every state reachable through the public operations (stale
tables after later mutations and runs on negative weights included) the parent
walk of both printers is total.  Each table has a root `s`, recorded as its own
parent: whenever the no-path guard is passed for `dest`, the walk from `dest`
returns, with a budget of at least the number of table entries, a chain without
repetition that starts at `s` and ends at `dest`, every vertex of which has an
entry in the table, and the printer writes that chain; with any budget, no
look-up of the walk fails.  When the guard is not passed the printer writes
`<no path>`. -/
theorem parent_walk_total (g : Graph) (hr : g.Reachable) (show_double : WithTop ℚ → String) :
    (∃ s, ∀ d, g.is_path d = true →
      UMap.find g.prim_result s = some { parent := s, cost := 0 } ∧
      (∀ walk_fuel, g.prim_result.length ≤ walk_fuel →
        ∃ p, prim_walk g.prim_result walk_fuel d [d] = .ok p ∧
          p.head? = some s ∧ p.getLast? = some d ∧ p.Nodup ∧
          (∀ x ∈ p, UMap.contains g.prim_result x = true) ∧
          g.print_path walk_fuel d = .ok (render_stack p ++ "\n")) ∧
      (∀ walk_fuel, g.print_path walk_fuel d ≠ .error .out_of_range)) ∧
    (∃ s, ∀ d, g.distance d ≠ ⊤ →
      UMap.find g.dijkstra_result s = some { parent := s, dist := 0 } ∧
      (∀ walk_fuel, g.dijkstra_result.length ≤ walk_fuel →
        ∃ p, dijkstra_walk g.dijkstra_result walk_fuel d [d] = .ok p ∧
          p.head? = some s ∧ p.getLast? = some d ∧ p.Nodup ∧
          (∀ x ∈ p, UMap.contains g.dijkstra_result x = true) ∧
          g.print_shortest_path show_double walk_fuel d =
            .ok (render_stack p ++ " distance: " ++ show_double (g.distance d) ++ "\n")) ∧
      (∀ walk_fuel,
        g.print_shortest_path show_double walk_fuel d ≠ .error .out_of_range)) ∧
    (∀ d walk_fuel, g.is_path d = false → g.print_path walk_fuel d = .ok "<no path>\n") ∧
    (∀ d walk_fuel, g.distance d = ⊤ →
      g.print_shortest_path show_double walk_fuel d = .ok "<no path>\n") := by
  obtain ⟨hp, hd⟩ := hr.tables
  obtain ⟨sp, hsp⟩ := hp.walk
  obtain ⟨sd, hsd⟩ := hd.walk
  refine ⟨⟨sp, fun d hpath => ?_⟩, ⟨sd, fun d hfin => ?_⟩, fun d walk_fuel hno => ?_,
    fun d walk_fuel htop => ?_⟩
  · obtain ⟨e, he, hne⟩ := (is_path_iff_tbl g d).mp hpath
    obtain ⟨h1, h2, h3⟩ := hsp d (hp.finite_of_parent d e he hne)
    refine ⟨find_prim_result_of_tbl _ _ _ _ h1, fun walk_fuel hfuel => ?_, fun walk_fuel => ?_⟩
    · obtain ⟨p, hw, hh, hl, hnd, hmem⟩ := h2 walk_fuel (by rw [prim_tbl_length]; exact hfuel)
      refine ⟨p, by rw [prim_walk_sim]; exact hw, hh, hl, hnd,
        fun x hx => by rw [← contains_prim_tbl]; exact hmem x hx, ?_⟩
      unfold Graph.print_path
      rw [hpath, prim_walk_sim, hw]
      rfl
    · unfold Graph.print_path
      rw [hpath, prim_walk_sim]
      have := h3 walk_fuel
      cases hw : gen_walk (prim_tbl g.prim_result) walk_fuel d [d] with
      | ok p =>
        intro hc
        cases hc
      | error x =>
        rw [hw] at this
        cases x with
        | out_of_range => exact absurd rfl this
        | out_of_fuel =>
          intro hc
          simp at hc
  · have hfin' : gmet (dijkstra_tbl g.dijkstra_result) d ≠ ⊤ := by
      rw [← distance_eq_gmet]
      exact hfin
    obtain ⟨h1, h2, h3⟩ := hsd d hfin'
    refine ⟨find_dijkstra_result_of_tbl _ _ _ _ h1, fun walk_fuel hfuel => ?_,
      fun walk_fuel => ?_⟩
    · obtain ⟨p, hw, hh, hl, hnd, hmem⟩ :=
        h2 walk_fuel (by rw [dijkstra_tbl_length]; exact hfuel)
      refine ⟨p, by rw [dijkstra_walk_sim]; exact hw, hh, hl, hnd,
        fun x hx => by rw [← contains_dijkstra_tbl]; exact hmem x hx, ?_⟩
      unfold Graph.print_shortest_path
      rw [if_neg hfin, dijkstra_walk_sim, hw]
    · unfold Graph.print_shortest_path
      rw [if_neg hfin, dijkstra_walk_sim]
      have := h3 walk_fuel
      cases hw : gen_walk (dijkstra_tbl g.dijkstra_result) walk_fuel d [d] with
      | ok p =>
        intro hc
        cases hc
      | error x =>
        rw [hw] at this
        cases x with
        | out_of_range => exact absurd rfl this
        | out_of_fuel =>
          intro hc
          simp at hc
  · unfold Graph.print_path
    rw [hno]
    rfl
  · unfold Graph.print_shortest_path
    rw [if_pos htop]

set_option maxRecDepth 100000 in
/-- The state `example_stale` is reached by `prim(1)`, `dijkstra(1)` and then
`remove_vertex(9)` on the graph with the edge `1 → 9`. -/
theorem example_stale_reachable : example_stale.Reachable := by
  have h1 : example_two.Reachable :=
    Graph.Reachable.add_edge _ 1 9 2
      (Graph.Reachable.add_vertex _ 9 (Graph.Reachable.add_vertex _ 1 Graph.Reachable.empty))
  have h2 := Graph.Reachable.prim example_two
    { example_two with
      prim_result := [(1, { parent := 1, cost := 0 }), (9, { parent := 1, cost := 2 })] }
    5 (fun _ => 0) 1 h1 (by decide!)
  have h3 := Graph.Reachable.dijkstra _
    { example_two with
      prim_result := [(1, { parent := 1, cost := 0 }), (9, { parent := 1, cost := 2 })]
      dijkstra_result := [(1, { parent := 1, dist := 0 }), (9, { parent := 1, dist := 2 })] }
    5 (fun _ => 0) 1 h2 (by decide!)
  have h4 := Graph.Reachable.remove_vertex _ 9 h3
  have he : (Graph.remove_vertex
      { example_two with
        prim_result := [(1, { parent := 1, cost := 0 }), (9, { parent := 1, cost := 2 })]
        dijkstra_result := [(1, { parent := 1, dist := 0 }), (9, { parent := 1, dist := 2 })] }
      9).2 = example_stale := by decide!
  rw [he] at h4
  exact h4

/-- Witness of **C20**: the stale state in which vertex 9 was removed after the
runs; the walk from 9 still returns the chain from the root 1. -/
theorem parent_walk_total_witness :
    example_stale.contains_vertex 9 = false ∧ example_stale.is_path 9 = true ∧
    ∃ s, ∀ d, example_stale.is_path d = true →
      UMap.find example_stale.prim_result s = some { parent := s, cost := 0 } ∧
      (∀ walk_fuel, example_stale.prim_result.length ≤ walk_fuel →
        ∃ p, prim_walk example_stale.prim_result walk_fuel d [d] = .ok p ∧
          p.head? = some s ∧ p.getLast? = some d ∧ p.Nodup ∧
          (∀ x ∈ p, UMap.contains example_stale.prim_result x = true) ∧
          example_stale.print_path walk_fuel d = .ok (render_stack p ++ "\n")) ∧
      (∀ walk_fuel, example_stale.print_path walk_fuel d ≠ .error .out_of_range) :=
  ⟨by decide!, by decide!,
    (parent_walk_total example_stale example_stale_reachable (fun _ => "")).1⟩

/-! ## Dijkstra with rounded sums -/

theorem dijkstra_neighbors_fl_exact (curr : Nat) (l : List (Nat × ℚ)) (st : dijkstra_state) :
    dijkstra_neighbors_fl (fun a b => a + b) curr l st = dijkstra_neighbors curr l st := by
  induction l generalizing st with
  | nil => rfl
  | cons e rest ih =>
    obtain ⟨dst, w⟩ := e
    unfold dijkstra_neighbors_fl dijkstra_neighbors
    split
    · exact ih _
    · cases UMap.at_ st.dijkstra_result curr with
      | error x => rfl
      | ok c =>
        cases UMap.at_ st.dijkstra_result dst with
        | error x => rfl
        | ok d =>
          dsimp only
          split
          · exact ih _
          · exact ih _

theorem dijkstra_loop_fl_exact (E : List (Nat × List (Nat × ℚ))) (tie : Nat → Nat)
    (fuel : Nat) (st : dijkstra_state) :
    dijkstra_loop_fl (fun a b => a + b) E tie fuel st = dijkstra_loop E tie fuel st := by
  induction fuel generalizing st with
  | zero => rfl
  | succ fuel ih =>
    unfold dijkstra_loop_fl dijkstra_loop
    cases pq_pop (tie fuel) st.pq with
    | none => rfl
    | some r =>
      obtain ⟨top, pq'⟩ := r
      dsimp only
      split
      · exact ih _
      · cases UMap.at_ E top.2 with
        | error x => rfl
        | ok nbrs =>
          dsimp only
          rw [dijkstra_neighbors_fl_exact]
          cases dijkstra_neighbors top.2 nbrs
              { st with pq := pq', visited := top.2 :: st.visited } with
          | error x => rfl
          | ok st' => exact ih _

/-- With the exact sum the run with rounded sums is `Graph.dijkstra`. -/
theorem Graph.dijkstra_fl_exact (g : Graph) (fuel : Nat) (tie : Nat → Nat) (s : Nat) :
    g.dijkstra_fl (fun a b => a + b) fuel tie s = g.dijkstra fuel tie s := by
  unfold Graph.dijkstra_fl Graph.dijkstra
  rw [dijkstra_loop_fl_exact]

set_option maxRecDepth 100000 in
/-- A run in which the sum overflows: on the graph with the edge `1 → 9` and
an addition that returns `INFINITY`, vertex 9 keeps the distance `INFINITY`
and `print_shortest_path(9)` writes `<no path>` although the edge is there,
as the code does when a sum of doubles exceeds the largest double. -/
theorem dijkstra_fl_overflow :
    example_two.contains_edge 1 9 = true ∧
    ∃ g', example_two.dijkstra_fl (fun _ _ => ⊤) 5 (fun _ => 0) 1 = .ok g' ∧
      g'.distance 1 = 0 ∧ g'.distance 9 = ⊤ ∧
      g'.print_shortest_path (fun _ => "") 5 9 = .ok "<no path>\n" :=
  ⟨by decide!,
    { example_two with
      dijkstra_result := [(1, { parent := 1, dist := 0 }),
        (9, { parent := SIZE_MAX, dist := ⊤ })] },
    by decide!, by decide!, by decide!, by decide!⟩
